import Mathlib

/-!
# gtreap: a persistent treap

A shallow embedding of `treap.go`.  A Go `*node` is a value of the inductive
type `node`: the nil pointer is `node.nil` and a pointer to a struct is
`node.mk item priority left right`.  Nodes are never written after they are
built, so sharing is invisible and a tree value stands for the pointer.
`Item` is a type parameter `α`.  Go's `Item` is `interface{}`, one of whose
values is nil, and `Min`, `Max` and `Get` return nil for "no item": they are
given twice, as `Treap.MinItem`, `Treap.MaxItem`, `Treap.GetItem` with the
value Go returns (nil is the parameter `nilItem`, which a node may also hold
as its item), and as `Treap.Min`, `Treap.Max`, `Treap.Get` with the outcome
kept apart (`some i` for the item of a node, `none` for no node).  `Compare`
returns a Go `int`, of which the code reads only the sign;
priorities are Go `int`s that are only compared, never computed with, so both
are `Int`.
-/

namespace gtreap

/-- Go `type node struct { item; priority; left; right }`, behind a pointer. -/
inductive node (α : Type) where
  | nil : node α
  | mk (item : α) (priority : Int) (left : node α) (right : node α) : node α
deriving DecidableEq

/-- Go `type Treap struct { compare Compare; root *node }`. -/
structure Treap (α : Type) where
  compare : α → α → Int
  root : node α

/-- Number of nodes of a tree (used as a termination measure only). -/
def node.size {α : Type} : node α → Nat
  | .nil => 0
  | .mk _ _ l r => l.size + r.size + 1

/-- The test `n == nil` on a node pointer. -/
def node.isNil {α : Type} : node α → Bool
  | .nil => true
  | .mk _ _ _ _ => false

/-- `NewTreap(c)`. -/
def NewTreap {α : Type} (c : α → α → Int) : Treap α :=
  { compare := c, root := node.nil }

/-- The loop `for n.left != nil { n = n.left }; return n.item` of `Min`,
started at a non-nil node with fields `item` and `left`. -/
def minLoop {α : Type} (item : α) : node α → α
  | .nil => item
  | .mk i _ l _ => minLoop i l

/-- The loop `for n.right != nil { n = n.right }; return n.item` of `Max`. -/
def maxLoop {α : Type} (item : α) : node α → α
  | .nil => item
  | .mk i _ _ r => maxLoop i r

/-- `Treap.Min` with its outcome kept apart: `some` of the item of the
leftmost node, `none` where the code returns nil for want of a node.  The value
Go returns, in which a stored nil Item and "empty" are the same nil, is
`Treap.MinItem`. -/
def Treap.Min {α : Type} (t : Treap α) : Option α :=
  match t.root with
  | .nil => none
  | .mk i _ l _ => some (minLoop i l)

/-- `Treap.Max` with its outcome kept apart, as `Treap.Min`; the value Go
returns is `Treap.MaxItem`. -/
def Treap.Max {α : Type} (t : Treap α) : Option α :=
  match t.root with
  | .nil => none
  | .mk i _ _ r => some (maxLoop i r)

/-- The loop of `Treap.Get`, started at node `n`, with its outcome kept
apart: `some` of the item of the node at which it returns, `none` when it
runs off the tree (where `Get` returns nil). -/
def getLoop {α : Type} (compare : α → α → Int) (target : α) : node α → Option α
  | .nil => none
  | .mk i _ l r =>
    if compare target i < 0 then getLoop compare target l
    else if compare target i > 0 then getLoop compare target r
    else some i

/-- `Treap.Get` with its outcome kept apart (see `getLoop`); the value Go
returns is `Treap.GetItem`. -/
def Treap.Get {α : Type} (t : Treap α) (target : α) : Option α :=
  getLoop t.compare target t.root

/-- `Treap.Min` with the value Go returns: `nilItem` (Go nil) for the empty
treap, else the item of the leftmost node, which is nil too when that node
holds the nil Item. -/
def Treap.MinItem {α : Type} (t : Treap α) (nilItem : α) : α :=
  match t.root with
  | .nil => nilItem
  | .mk i _ l _ => minLoop i l

/-- `Treap.Max` with the value Go returns. -/
def Treap.MaxItem {α : Type} (t : Treap α) (nilItem : α) : α :=
  match t.root with
  | .nil => nilItem
  | .mk i _ _ r => maxLoop i r

/-- The loop of `Treap.Get` with the value Go returns: `n.item` at the node
that compares equal, `nilItem` (Go nil) after the loop. -/
def getItemLoop {α : Type} (nilItem : α) (compare : α → α → Int) (target : α) :
    node α → α
  | .nil => nilItem
  | .mk i _ l r =>
    if compare target i < 0 then getItemLoop nilItem compare target l
    else if compare target i > 0 then getItemLoop nilItem compare target r
    else i

/-- `Treap.Get` with the value Go returns. -/
def Treap.GetItem {α : Type} (t : Treap α) (nilItem : α) (target : α) : α :=
  getItemLoop nilItem t.compare target t.root

/-- `Treap.split`: the triple `(left, middle, right)`. -/
def Treap.split {α : Type} (t : Treap α) : node α → α → node α × node α × node α
  | .nil, _ => (.nil, .nil, .nil)
  | .mk i p l r, s =>
    if t.compare s i = 0 then (l, .mk i p l r, r)
    else if t.compare s i < 0 then
      let res := t.split l s
      (res.1, res.2.1, .mk i p res.2.2 r)
    else
      let res := t.split r s
      (.mk i p l res.1, res.2.1, res.2.2)

/-- `Treap.union`.  The recursion is on trees whose node counts add up to
less than those of the arguments, since `split` never grows a tree. -/
def Treap.union {α : Type} (t : Treap α) : node α → node α → node α
  | .nil, that => that
  | .mk i p l r, .nil => .mk i p l r
  | .mk i p l r, .mk i2 p2 l2 r2 =>
    if p > p2 then
      let res := t.split (.mk i2 p2 l2 r2) i
      match res.2.1 with
      | .nil => .mk i p (t.union l res.1) (t.union r res.2.2)
      | .mk mi _ _ _ => .mk mi p (t.union l res.1) (t.union r res.2.2)
    else
      let res := t.split (.mk i p l r) i2
      .mk i2 p2 (t.union res.1 l2) (t.union res.2.2 r2)
termination_by this that => this.size + that.size
decreasing_by
  all_goals
    have hs : ∀ (n : node α) (s : α),
        (t.split n s).1.size ≤ n.size ∧ (t.split n s).2.2.size ≤ n.size := by
      intro n s
      induction n with
      | nil => simp [Treap.split, node.size]
      | mk i p l r ihl ihr =>
        simp only [Treap.split]
        split_ifs <;> simp only [node.size] <;> omega
    have h1 := (hs (.mk i2 p2 l2 r2) i).1
    have h2 := (hs (.mk i2 p2 l2 r2) i).2
    have h3 := (hs (.mk i p l r) i2).1
    have h4 := (hs (.mk i p l r) i2).2
    simp only [node.size] at h1 h2 h3 h4 ⊢
    omega

/-- `Treap.Upsert`. -/
def Treap.Upsert {α : Type} (t : Treap α) (item : α) (itemPriority : Int) : Treap α :=
  { compare := t.compare,
    root := t.union t.root (.mk item itemPriority .nil .nil) }

/-- `Treap.join`. -/
def Treap.join {α : Type} (t : Treap α) : node α → node α → node α
  | .nil, that => that
  | .mk i p l r, .nil => .mk i p l r
  | .mk i p l r, .mk i2 p2 l2 r2 =>
    if p > p2 then .mk i p l (t.join r (.mk i2 p2 l2 r2))
    else .mk i2 p2 (t.join (.mk i p l r) l2) r2
termination_by this that => this.size + that.size
decreasing_by
  all_goals simp only [node.size]; omega

/-- `Treap.Delete`. -/
def Treap.Delete {α : Type} (t : Treap α) (target : α) : Treap α :=
  let res := t.split t.root target
  { compare := t.compare, root := t.join res.1 res.2.2 }

/-- `Treap.visitAscend`.  An `ItemVisitor` is a Go closure: it is given the
item, may change its own captured variables, and answers whether to go on.
It is modelled as a function on an explicit visitor state `σ`; the result is
the returned `bool` and the visitor state after the calls made. -/
def Treap.visitAscend {α σ : Type} (t : Treap α) :
    node α → α → (σ → α → Bool × σ) → σ → Bool × σ
  | .nil, _, _, st => (true, st)
  | .mk i _ l r, pivot, visitor, st =>
    if t.compare pivot i ≤ 0 then
      match t.visitAscend l pivot visitor st with
      | (false, st1) => (false, st1)
      | (true, st1) =>
        match visitor st1 i with
        | (false, st2) => (false, st2)
        | (true, st2) => t.visitAscend r pivot visitor st2
    else t.visitAscend r pivot visitor st

/-- `Treap.VisitAscend`: the visitor state after the traversal. -/
def Treap.VisitAscend {α σ : Type} (t : Treap α) (pivot : α)
    (visitor : σ → α → Bool × σ) (st : σ) : σ :=
  (t.visitAscend t.root pivot visitor st).2

/-- Go `type stackNode struct { n *node; visited bool }`. -/
structure stackNode (α : Type) where
  n : node α
  visited : Bool

/-- Go `type Iterator struct { t *Treap; pivot Item; stack []stackNode }`.
The slice is a list whose last element is the top of the stack. -/
structure Iterator (α : Type) where
  t : Treap α
  pivot : α
  stack : List (stackNode α)

/-- `Iterator.pushStack`. -/
def Iterator.pushStack {α : Type} (it : Iterator α) (n : node α) (visited : Bool) :
    Iterator α :=
  { it with stack := it.stack ++ [{ n := n, visited := visited }] }

/-- `Iterator.popStack`: the popped `(n, visited)` and the iterator after. -/
def Iterator.popStack {α : Type} (it : Iterator α) : (node α × Bool) × Iterator α :=
  match it.stack.getLast? with
  | none => ((.nil, false), it)
  | some sn => ((sn.n, sn.visited), { it with stack := it.stack.dropLast })

/-- `newIterator`. -/
def newIterator {α : Type} (t : Treap α) (pivot : α) : Iterator α :=
  ({ t := t, pivot := pivot, stack := [] } : Iterator α).pushStack t.root false

/-- `Treap.Iterator`. -/
def Treap.Iterator {α : Type} (t : Treap α) (pivot : α) : Iterator α :=
  newIterator t pivot

/-- Termination measure of the loop of `Next`: an entry still to be expanded
counts twice its node count, an entry marked visited counts one. -/
def stackNode.weight {α : Type} (sn : stackNode α) : Nat :=
  if sn.visited then 1 else 2 * sn.n.size

/-- Sum of the weights of the stack entries. -/
def Iterator.weight {α : Type} (it : Iterator α) : Nat :=
  (it.stack.map stackNode.weight).sum

/-- `Iterator.Next`: the pair `(Item, bool)` it returns and the iterator
after the call.  Each round of the `for` loop is one unfolding. -/
def Iterator.Next {α : Type} (it : Iterator α) : (Option α × Bool) × Iterator α :=
  match h : it.popStack with
  | ((.nil, _), it1) => ((none, false), it1)
  | ((.mk i p l r, visited), it1) =>
    if visited then ((some i, true), it1)
    else
      let it2 := if r.isNil then it1 else it1.pushStack r false
      if it2.t.compare it2.pivot i ≤ 0 then
        if l.isNil then ((some i, true), it2)
        else ((it2.pushStack (.mk i p l r) true).pushStack l false).Next
      else it2.Next
termination_by it.weight
decreasing_by
  all_goals
    have hw : it.weight = it1.weight + 2 * (l.size + r.size + 1) := by
      unfold Iterator.popStack at h
      split at h
      · simp at h
      · next sn hsn =>
        obtain ⟨x, hx⟩ := List.getLast?_eq_some_iff.mp hsn
        simp only [Prod.mk.injEq] at h
        obtain ⟨⟨h1, h2⟩, h3⟩ := h
        subst h3
        simp [Iterator.weight, hx, stackNode.weight, h1, h2, node.size, *]
    have hpush : ∀ (j : Iterator α) (n : node α) (b : Bool),
        (j.pushStack n b).weight = j.weight + (if b then 1 else 2 * n.size) := by
      intro j n b; simp [Iterator.pushStack, Iterator.weight, stackNode.weight]
    rw [hw]
    split_ifs with hr <;>
      first
        | (simp only [hpush, if_true, Bool.false_eq_true, if_false]; omega)
        | omega

/-! ## Vocabulary of the properties -/

/-- The in-order sequence of `(item, priority)` pairs stored in a tree. -/
def node.entries {α : Type} : node α → List (α × Int)
  | .nil => []
  | .mk i p l r => l.entries ++ (i, p) :: r.entries

/-- The in-order sequence of the items of a tree. -/
def node.toList {α : Type} : node α → List α
  | .nil => []
  | .mk i _ l r => l.toList ++ i :: r.toList

/-- The item of the node a pointer refers to, none for the nil pointer. -/
def node.item? {α : Type} : node α → Option α
  | .nil => none
  | .mk i _ _ _ => some i

/-- The `(item, priority)` of the node a pointer refers to. -/
def node.entry? {α : Type} : node α → Option (α × Int)
  | .nil => none
  | .mk i p _ _ => some (i, p)

/-- Comparator contract: `compare` orders the items totally, equal meaning
`compare a b = 0`.  Swapping the arguments swaps the sign, and "not greater"
is transitive. -/
structure TotalOrder {α : Type} (compare : α → α → Int) : Prop where
  antisymm : ∀ a b, compare a b < 0 ↔ 0 < compare b a
  le_trans : ∀ a b c, compare a b ≤ 0 → compare b c ≤ 0 → compare a c ≤ 0

/-- Order invariant: at every node, every item of the left subtree compares
less than the node's item and every item of the right subtree greater. -/
def node.Ordered {α : Type} (compare : α → α → Int) : node α → Prop
  | .nil => True
  | .mk i _ l r =>
    (∀ x ∈ l.toList, compare x i < 0) ∧ (∀ x ∈ r.toList, compare x i > 0) ∧
      l.Ordered compare ∧ r.Ordered compare

/-- The node behind a child pointer, when there is one, has priority at most `p`. -/
def node.prioLE {α : Type} (p : Int) : node α → Prop
  | .nil => True
  | .mk _ q _ _ => q ≤ p

/-- Heap invariant: the priority of every node is greater than or equal to
the priority of each of its direct children. -/
def node.Heap {α : Type} : node α → Prop
  | .nil => True
  | .mk _ p l r => l.prioLE p ∧ r.prioLE p ∧ l.Heap ∧ r.Heap

/-- A comparator on integers, in the manner of `bytes.Compare`. -/
def intCompare (a b : Int) : Int :=
  if a < b then -1 else if a > b then 1 else 0

/-- The order invariant of a treap, under its own comparator. -/
def Treap.OrderInv {α : Type} (t : Treap α) : Prop :=
  t.root.Ordered t.compare

/-- The heap invariant of a treap. -/
def Treap.HeapInv {α : Type} (t : Treap α) : Prop :=
  t.root.Heap

/-- The treap of `TestPriorityAfterUpsert` over integer items: 5 with
priority 20 at the root, 4 with priority 18 and 6 with priority 19 below. -/
def sampleTreap : Treap Int :=
  { compare := intCompare,
    root := .mk 5 20 (.mk 4 18 .nil .nil) (.mk 6 19 .nil .nil) }

/-- Feeding a list of items to a visitor one by one, stopping after the
first item on which it answers false. -/
def runVisitor {α σ : Type} (visitor : σ → α → Bool × σ) : List α → σ → Bool × σ
  | [], st => (true, st)
  | x :: xs, st =>
    match visitor st x with
    | (false, st1) => (false, st1)
    | (true, st1) => runVisitor visitor xs st1

/-- The items `visitAscend` reaches in a tree of any shape when no visitor
call stops it, in the order it reaches them. -/
def ascendSeq {α : Type} (compare : α → α → Int) (pivot : α) : node α → List α
  | .nil => []
  | .mk i _ l r =>
    if compare pivot i ≤ 0 then ascendSeq compare pivot l ++ i :: ascendSeq compare pivot r
    else ascendSeq compare pivot r

/-- The stack after the step `if n.right != nil { it.pushStack(n.right, false) }`
of `Next`. -/
def pushRight {α : Type} (s : List (stackNode α)) (r : node α) : List (stackNode α) :=
  if r.isNil then s else s ++ [stackNode.mk r false]

/-- What one stack entry still has to yield: the item of a node marked
visited, the whole traversal of a node not yet expanded. -/
def stackNode.pending {α : Type} (compare : α → α → Int) (pivot : α)
    (sn : stackNode α) : List α :=
  if sn.visited then sn.n.item?.toList else ascendSeq compare pivot sn.n

/-- What a stack still has to yield, from its top (the last entry) down. -/
def pendingOf {α : Type} (compare : α → α → Int) (pivot : α) :
    List (stackNode α) → List α
  | [] => []
  | sn :: above => pendingOf compare pivot above ++ sn.pending compare pivot

/-- The pair `Next` returns when the items still to come are `xs`. -/
def nextResult {α : Type} : List α → Option α × Bool
  | [] => (none, false)
  | x :: _ => (some x, true)

/-- The visitor that appends every item it is given to a log and answers
`f item`. -/
def logVisitor {α : Type} (f : α → Bool) : List α → α → Bool × List α :=
  fun log i => (f i, log ++ [i])

/-- The items pulled by at most `k` calls of `Next`, stopping at the first
call that reports false. -/
def Iterator.pull {α : Type} : Nat → Iterator α → List α
  | 0, _ => []
  | k + 1, it =>
    match it.Next with
    | ((some i, true), it1) => i :: Iterator.pull k it1
    | _ => []

/-- The iterator after `k` calls of `Next`. -/
def Iterator.after {α : Type} : Nat → Iterator α → Iterator α
  | 0, it => it
  | k + 1, it => Iterator.after k it.Next.2

/-- The prefix of a list up to and including its first item on which `f`
answers false; the whole list when there is none. -/
def stopAfter {α : Type} (f : α → Bool) : List α → List α
  | [] => []
  | x :: xs => if f x then x :: stopAfter f xs else [x]

/-- The non-nil nodes of a tree: its root and the nodes of its subtrees. -/
def node.subtrees {α : Type} : node α → List (node α)
  | .nil => []
  | .mk i p l r => .mk i p l r :: (l.subtrees ++ r.subtrees)

/-- One round of the `for` loop of `Iterator.Next`: `Sum.inl` with the
returned pair and the iterator when the round returns, `Sum.inr` with the
iterator that enters the next round otherwise. -/
def Iterator.round {α : Type} (it : Iterator α) :
    Sum ((Option α × Bool) × Iterator α) (Iterator α) :=
  match it.popStack with
  | ((.nil, _), it1) => .inl ((none, false), it1)
  | ((.mk i p l r, visited), it1) =>
    if visited then .inl ((some i, true), it1)
    else
      let it2 := if r.isNil then it1 else it1.pushStack r false
      if it2.t.compare it2.pivot i ≤ 0 then
        if l.isNil then .inl ((some i, true), it2)
        else .inr ((it2.pushStack (.mk i p l r) true).pushStack l false)
      else .inr it2

/-- The loop of `Iterator.Next` cut off after `fuel` rounds: none when the
loop has not returned by then. -/
def Iterator.loop {α : Type} : Nat → Iterator α → Option ((Option α × Bool) × Iterator α)
  | 0, _ => none
  | fuel + 1, it =>
    match it.round with
    | .inl res => some res
    | .inr it1 => Iterator.loop fuel it1

/-- The node behind a child pointer, when there is one, has priority less than `p`. -/
def node.prioLT {α : Type} (p : Int) : node α → Prop
  | .nil => True
  | .mk _ q _ _ => q < p

/-- Strict heap: the priority of every node is strictly greater than the
priority of each of its children. -/
def node.StrictHeap {α : Type} : node α → Prop
  | .nil => True
  | .mk _ p l r => l.prioLT p ∧ r.prioLT p ∧ l.StrictHeap ∧ r.StrictHeap

/-! ## The nodes in memory

For the claims about what an operation leaves untouched, the same code over
an explicit memory: a `*node` is an address (none for nil), `&node{...}`
puts a new struct at the end of the memory, and a field is read at an
address.  No statement of `treap.go` writes to a field of an existing node.
Recursion follows pointers, so these functions take a bound on the depth of
the calls and return none when it is exceeded or a pointer leads nowhere. -/

/-- A `node` struct as it lies in memory. -/
structure cell (α : Type) where
  item : α
  priority : Int
  left : Option Nat
  right : Option Nat

/-- The memory holding the node structs: address `a` holds `h[a]`. -/
abbrev Store (α : Type) := List (cell α)

/-- A `*Treap` over the memory: the comparator and the root pointer. -/
structure TreapM (α : Type) where
  compare : α → α → Int
  root : Option Nat

/-- `Treap.split` over the memory: the memory after the call and the
pointers `(left, middle, right)`. -/
def TreapM.split {α : Type} (t : TreapM α) :
    Nat → Store α → Option Nat → α →
      Option (Store α × Option Nat × Option Nat × Option Nat)
  | 0, _, _, _ => none
  | _ + 1, h, none, _ => some (h, none, none, none)
  | fuel + 1, h, some a, s => do
    let n ← h[a]?
    if t.compare s n.item = 0 then pure (h, n.left, some a, n.right)
    else if t.compare s n.item < 0 then
      let res ← t.split fuel h n.left s
      pure (res.1 ++ [cell.mk n.item n.priority res.2.2.2 n.right], res.2.1, res.2.2.1,
        some res.1.length)
    else
      let res ← t.split fuel h n.right s
      pure (res.1 ++ [cell.mk n.item n.priority n.left res.2.1], some res.1.length,
        res.2.2.1, res.2.2.2)

/-- `Treap.union` over the memory. -/
def TreapM.union {α : Type} (t : TreapM α) :
    Nat → Store α → Option Nat → Option Nat → Option (Store α × Option Nat)
  | 0, _, _, _ => none
  | _ + 1, h, none, that => some (h, that)
  | _ + 1, h, some a, none => some (h, some a)
  | fuel + 1, h, some a, some b => do
    let this ← h[a]?
    let that ← h[b]?
    if this.priority > that.priority then
      let res ← t.split fuel h (some b) this.item
      let item ← match res.2.2.1 with
        | none => some this.item
        | some m => (res.1[m]?).map cell.item
      let ul ← t.union fuel res.1 this.left res.2.1
      let ur ← t.union fuel ul.1 this.right res.2.2.2
      pure (ur.1 ++ [cell.mk item this.priority ul.2 ur.2], some ur.1.length)
    else
      let res ← t.split fuel h (some a) that.item
      let ul ← t.union fuel res.1 res.2.1 that.left
      let ur ← t.union fuel ul.1 res.2.2.2 that.right
      pure (ur.1 ++ [cell.mk that.item that.priority ul.2 ur.2], some ur.1.length)

/-- `Treap.join` over the memory. -/
def TreapM.join {α : Type} (t : TreapM α) :
    Nat → Store α → Option Nat → Option Nat → Option (Store α × Option Nat)
  | 0, _, _, _ => none
  | _ + 1, h, none, that => some (h, that)
  | _ + 1, h, some a, none => some (h, some a)
  | fuel + 1, h, some a, some b => do
    let this ← h[a]?
    let that ← h[b]?
    if this.priority > that.priority then
      let res ← t.join fuel h this.right (some b)
      pure (res.1 ++ [cell.mk this.item this.priority this.left res.2], some res.1.length)
    else
      let res ← t.join fuel h (some a) that.left
      pure (res.1 ++ [cell.mk that.item that.priority res.2 that.right], some res.1.length)

/-- `Treap.Upsert` over the memory: the new node is built first, then
`union` is called; the result is the memory after and the new `*Treap`. -/
def TreapM.Upsert {α : Type} (t : TreapM α) (fuel : Nat) (h : Store α) (item : α)
    (itemPriority : Int) : Option (Store α × TreapM α) := do
  let res ← t.union fuel (h ++ [cell.mk item itemPriority none none]) t.root (some h.length)
  pure (res.1, { compare := t.compare, root := res.2 })

/-- `Treap.Delete` over the memory. -/
def TreapM.Delete {α : Type} (t : TreapM α) (fuel : Nat) (h : Store α) (target : α) :
    Option (Store α × TreapM α) := do
  let res ← t.split fuel h t.root target
  let j ← t.join fuel res.1 res.2.1 res.2.2.2
  pure (j.1, { compare := t.compare, root := j.2 })

/-- The memory `h` holds the tree `n` at the pointer `p`. -/
def Rep {α : Type} (h : Store α) : Option Nat → node α → Prop
  | none, .nil => True
  | some a, .mk i p l r =>
    ∃ c, h[a]? = some c ∧ c.item = i ∧ c.priority = p ∧ Rep h c.left l ∧ Rep h c.right r
  | none, .mk _ _ _ _ => False
  | some _, .nil => False

/-- The treap of the value model that a `*Treap` over the memory stands
for, when its root pointer holds the tree `n`. -/
def TreapM.toTreap {α : Type} (t : TreapM α) (n : node α) : Treap α :=
  { compare := t.compare, root := n }

/-- A memory that holds the tree of `sampleTreap`: the two leaves at the
addresses 0 and 1, the root at address 2. -/
def sampleStore : Store Int :=
  [cell.mk 4 18 none none, cell.mk 6 19 none none, cell.mk 5 20 (some 0) (some 1)]

/-- The `*Treap` of `sampleTreap` over `sampleStore`. -/
def sampleTreapM : TreapM Int :=
  { compare := intCompare, root := some 2 }

/-- A comparator on items that are an integer or the nil Item (`none`), the
nil Item below every integer. -/
def optCompare : Option Int → Option Int → Int
  | none, none => 0
  | none, some _ => -1
  | some _, none => 1
  | some a, some b => intCompare a b

/-- The treap after `Upsert(nil, 1)` on the empty treap. -/
def nilItemTreap : Treap (Option Int) :=
  (NewTreap optCompare).Upsert none 1

/-- A treap that holds the nil Item with priority 3 below the item 5 with
priority 20. -/
def optTreap : Treap (Option Int) :=
  { compare := optCompare, root := .mk (some 5) 20 (.mk none 3 .nil .nil) .nil }

/-! ## The comparator -/

theorem TotalOrder.refl {α : Type} {cmp : α → α → Int} (h : TotalOrder cmp) (a : α) :
    cmp a a = 0 := by
  have := h.antisymm a a
  omega

theorem TotalOrder.gt_iff {α : Type} {cmp : α → α → Int} (h : TotalOrder cmp) (a b : α) :
    0 < cmp a b ↔ cmp b a < 0 := (h.antisymm b a).symm

theorem TotalOrder.eq_symm {α : Type} {cmp : α → α → Int} (h : TotalOrder cmp) {a b : α}
    (hab : cmp a b = 0) : cmp b a = 0 := by
  have h1 := h.antisymm a b
  have h2 := h.antisymm b a
  omega

theorem TotalOrder.lt_of_lt_of_le {α : Type} {cmp : α → α → Int} (h : TotalOrder cmp)
    {a b c : α} (hab : cmp a b < 0) (hbc : cmp b c ≤ 0) : cmp a c < 0 := by
  have h1 := h.le_trans a b c (by omega) hbc
  by_contra hne
  have h0 : cmp a c = 0 := by omega
  have h2 := h.le_trans b c a hbc (by have := h.eq_symm h0; omega)
  have h3 := h.antisymm a b
  omega

theorem TotalOrder.lt_of_le_of_lt {α : Type} {cmp : α → α → Int} (h : TotalOrder cmp)
    {a b c : α} (hab : cmp a b ≤ 0) (hbc : cmp b c < 0) : cmp a c < 0 := by
  have h1 := h.le_trans a b c hab (by omega)
  by_contra hne
  have h0 : cmp a c = 0 := by omega
  have h2 := h.le_trans c a b (by have := h.eq_symm h0; omega) hab
  have h3 := h.antisymm b c
  omega

theorem TotalOrder.lt_trans {α : Type} {cmp : α → α → Int} (h : TotalOrder cmp)
    {a b c : α} (hab : cmp a b < 0) (hbc : cmp b c < 0) : cmp a c < 0 :=
  h.lt_of_lt_of_le hab (by omega)

theorem TotalOrder.eq_trans {α : Type} {cmp : α → α → Int} (h : TotalOrder cmp)
    {a b c : α} (hab : cmp a b = 0) (hbc : cmp b c = 0) : cmp a c = 0 := by
  have h1 := h.le_trans a b c (le_of_eq hab) (le_of_eq hbc)
  have h2 := h.le_trans c b a (le_of_eq (h.eq_symm hbc)) (le_of_eq (h.eq_symm hab))
  have h3 := h.antisymm a c
  omega

theorem intCompare_totalOrder : TotalOrder intCompare := by
  constructor
  · intro a b
    unfold intCompare
    split_ifs <;> omega
  · intro a b c
    unfold intCompare
    split_ifs <;> omega

/-! ## In-order sequences -/

theorem node.toList_eq_map_entries {α : Type} (n : node α) :
    n.toList = n.entries.map Prod.fst := by
  induction n with
  | nil => rfl
  | mk i p l r ihl ihr => simp [node.toList, node.entries, ihl, ihr]

theorem node.item?_eq_map_entry? {α : Type} (n : node α) :
    n.item? = n.entry?.map Prod.fst := by
  cases n <;> rfl

/-- `split` keeps the in-order sequence: it is that of `left`, then the
middle node when there is one, then that of `right`. -/
theorem split_entries {α : Type} (t : Treap α) (n : node α) (s : α) :
    n.entries = (t.split n s).1.entries ++ (t.split n s).2.1.entry?.toList ++
      (t.split n s).2.2.entries := by
  induction n with
  | nil => simp [Treap.split, node.entries, node.entry?]
  | mk i p l r ihl ihr =>
    simp only [Treap.split]
    split_ifs with h0 h1
    · simp [node.entries, node.entry?]
    · simp only [node.entries]
      conv_lhs => rw [ihl]
      simp
    · simp only [node.entries]
      conv_lhs => rw [ihr]
      simp

theorem split_toList {α : Type} (t : Treap α) (n : node α) (s : α) :
    n.toList = (t.split n s).1.toList ++ (t.split n s).2.1.item?.toList ++
      (t.split n s).2.2.toList := by
  have h := congrArg (List.map Prod.fst) (split_entries t n s)
  simp only [List.map_append, ← node.toList_eq_map_entries] at h
  rw [h, node.item?_eq_map_entry?]
  cases (t.split n s).2.1.entry? <;> simp

/-- The middle result of `split` is what `Get` finds: both walk the same path. -/
theorem split_middle_item {α : Type} (t : Treap α) (n : node α) (s : α) :
    (t.split n s).2.1.item? = getLoop t.compare s n := by
  induction n with
  | nil => simp [Treap.split, getLoop, node.item?]
  | mk i p l r ihl ihr =>
    simp only [Treap.split, getLoop]
    split_ifs with h0 h1 h2 h3 h4 <;> first | omega | simp_all [node.item?]

/-- The middle node of `split`, when there is one, holds an item equal to the key. -/
theorem split_middle_eq {α : Type} (t : Treap α) (n : node α) (s : α) :
    ∀ e ∈ (t.split n s).2.1.entry?, t.compare s e.1 = 0 := by
  induction n with
  | nil => simp [Treap.split, node.entry?]
  | mk i p l r ihl ihr =>
    simp only [Treap.split]
    split_ifs with h0 h1
    · simpa [node.entry?] using h0
    · simpa using ihl
    · simpa using ihr

/-! ## The order invariant as sortedness of the in-order sequence -/

theorem ordered_pairwise {α : Type} {cmp : α → α → Int} (hc : TotalOrder cmp)
    (n : node α) (h : n.Ordered cmp) : n.toList.Pairwise (fun a b => cmp a b < 0) := by
  induction n with
  | nil => simp [node.toList]
  | mk i p l r ihl ihr =>
    obtain ⟨hl, hr, ol, orr⟩ := h
    simp only [node.toList]
    rw [List.pairwise_append]
    refine ⟨ihl ol, ?_, ?_⟩
    · rw [List.pairwise_cons]
      exact ⟨fun b hb => (hc.antisymm i b).mpr (hr b hb), ihr orr⟩
    · intro a ha b hb
      rcases List.mem_cons.mp hb with rfl | hb
      · exact hl a ha
      · exact hc.lt_trans (hl a ha) ((hc.antisymm i b).mpr (hr b hb))

theorem pairwise_ordered {α : Type} {cmp : α → α → Int} (hc : TotalOrder cmp)
    (n : node α) (h : n.toList.Pairwise (fun a b => cmp a b < 0)) : n.Ordered cmp := by
  induction n with
  | nil => trivial
  | mk i p l r ihl ihr =>
    simp only [node.toList] at h
    rw [List.pairwise_append, List.pairwise_cons] at h
    obtain ⟨pl, ⟨hir, pr⟩, hlr⟩ := h
    refine ⟨fun x hx => hlr x hx i (List.mem_cons_self _ _), ?_, ihl pl, ihr pr⟩
    intro x hx
    have := (hc.antisymm i x).mp (hir x hx)
    omega

/-- In a tree that satisfies the order invariant two stored items that
compare equal are the same item. -/
theorem ordered_unique {α : Type} {cmp : α → α → Int} (hc : TotalOrder cmp)
    (n : node α) (h : n.Ordered cmp) {a b : α} (ha : a ∈ n.toList) (hb : b ∈ n.toList)
    (hab : cmp a b = 0) : a = b := by
  have hp := ordered_pairwise hc n h
  generalize n.toList = xs at ha hb hp
  induction xs with
  | nil => simp at ha
  | cons x xs ih =>
    rw [List.pairwise_cons] at hp
    rcases List.mem_cons.mp ha with rfl | ha1 <;> rcases List.mem_cons.mp hb with rfl | hb1
    · rfl
    · have := hp.1 b hb1; omega
    · have := hp.1 a ha1
      have := hc.eq_symm hab
      omega
    · exact ih ha1 hb1 hp.2

/-- On a tree that satisfies the order invariant `Get` finds the stored item
that compares equal to the target. -/
theorem getLoop_eq_some_iff {α : Type} {cmp : α → α → Int} (hc : TotalOrder cmp)
    (n : node α) (h : n.Ordered cmp) (k y : α) :
    getLoop cmp k n = some y ↔ y ∈ n.toList ∧ cmp k y = 0 := by
  induction n with
  | nil => simp [getLoop, node.toList]
  | mk i p l r ihl ihr =>
    obtain ⟨hl, hr, ol, orr⟩ := h
    simp only [getLoop, node.toList, List.mem_append, List.mem_cons]
    split_ifs with h1 h2
    · rw [ihl ol]
      constructor
      · rintro ⟨hy, hk⟩
        exact ⟨Or.inl hy, hk⟩
      · rintro ⟨hy | rfl | hy, hk⟩
        · exact ⟨hy, hk⟩
        · omega
        · have h3 := hc.lt_trans h1 ((hc.antisymm i y).mpr (hr y hy))
          omega
    · rw [ihr orr]
      constructor
      · rintro ⟨hy, hk⟩
        exact ⟨Or.inr (Or.inr hy), hk⟩
      · rintro ⟨hy | rfl | hy, hk⟩
        · have h3 := hc.lt_trans (hl y hy) ((hc.antisymm i k).mpr h2)
          have h4 := hc.antisymm y k
          omega
        · omega
        · exact ⟨hy, hk⟩
    · have hki : cmp k i = 0 := by omega
      constructor
      · intro hy
        simp only [Option.some.injEq] at hy
        subst hy
        exact ⟨Or.inr (Or.inl rfl), hki⟩
      · rintro ⟨hy | rfl | hy, hk⟩
        · have h3 := hc.lt_of_lt_of_le (hl y hy) (le_of_eq (hc.eq_symm hki))
          have h4 := hc.eq_symm hk
          omega
        · rfl
        · have h3 := hc.lt_of_le_of_lt (le_of_eq hki) ((hc.antisymm i y).mpr (hr y hy))
          omega

theorem getLoop_eq_none_iff {α : Type} {cmp : α → α → Int} (hc : TotalOrder cmp)
    (n : node α) (h : n.Ordered cmp) (k : α) :
    getLoop cmp k n = none ↔ ∀ y ∈ n.toList, cmp k y ≠ 0 := by
  rw [Option.eq_none_iff_forall_not_mem]
  constructor
  · intro hn y hy hk
    exact hn y ((getLoop_eq_some_iff hc n h k y).mpr ⟨hy, hk⟩)
  · intro hn y hy
    have := (getLoop_eq_some_iff hc n h k y).mp hy
    exact hn y this.1 this.2

/-- Two trees that satisfy the order invariant and hold the same items
answer every `Get` alike. -/
theorem getLoop_congr {α : Type} {cmp : α → α → Int} (hc : TotalOrder cmp)
    (m n : node α) (hm : m.Ordered cmp) (hn : n.Ordered cmp)
    (hmem : ∀ x, x ∈ m.toList ↔ x ∈ n.toList) (k : α) :
    getLoop cmp k m = getLoop cmp k n := by
  apply Option.ext
  intro y
  simp only [Option.mem_def]
  rw [getLoop_eq_some_iff hc m hm, getLoop_eq_some_iff hc n hn, hmem]

/-! ## split on ordered trees -/

theorem split_left_lt {α : Type} (t : Treap α) (hc : TotalOrder t.compare)
    (n : node α) (h : n.Ordered t.compare) (s : α) :
    ∀ x ∈ (t.split n s).1.toList, t.compare x s < 0 := by
  induction n with
  | nil => simp [Treap.split, node.toList]
  | mk i p l r ihl ihr =>
    obtain ⟨hl, hr, ol, orr⟩ := h
    simp only [Treap.split]
    split_ifs with h0 h1
    · intro x hx
      exact hc.lt_of_lt_of_le (hl x hx) (le_of_eq (hc.eq_symm h0))
    · exact ihl ol
    · have hsi : 0 < t.compare s i := by omega
      have his := (hc.gt_iff s i).mp hsi
      intro x hx
      simp only [node.toList, List.mem_append, List.mem_cons] at hx
      rcases hx with hx | rfl | hx
      · exact hc.lt_trans (hl x hx) his
      · exact his
      · exact ihr orr x hx

theorem split_right_gt {α : Type} (t : Treap α) (hc : TotalOrder t.compare)
    (n : node α) (h : n.Ordered t.compare) (s : α) :
    ∀ x ∈ (t.split n s).2.2.toList, t.compare s x < 0 := by
  induction n with
  | nil => simp [Treap.split, node.toList]
  | mk i p l r ihl ihr =>
    obtain ⟨hl, hr, ol, orr⟩ := h
    simp only [Treap.split]
    split_ifs with h0 h1
    · intro x hx
      exact hc.lt_of_le_of_lt (le_of_eq h0) ((hc.antisymm i x).mpr (hr x hx))
    · intro x hx
      simp only [node.toList, List.mem_append, List.mem_cons] at hx
      rcases hx with hx | rfl | hx
      · exact ihl ol x hx
      · exact h1
      · exact hc.lt_trans h1 ((hc.antisymm i x).mpr (hr x hx))
    · exact ihr orr

theorem split_left_ordered {α : Type} (t : Treap α) (hc : TotalOrder t.compare)
    (n : node α) (h : n.Ordered t.compare) (s : α) :
    (t.split n s).1.Ordered t.compare := by
  apply pairwise_ordered hc
  have hp := ordered_pairwise hc n h
  rw [split_toList t n s, List.append_assoc] at hp
  exact (List.pairwise_append.mp hp).1

theorem split_right_ordered {α : Type} (t : Treap α) (hc : TotalOrder t.compare)
    (n : node α) (h : n.Ordered t.compare) (s : α) :
    (t.split n s).2.2.Ordered t.compare := by
  apply pairwise_ordered hc
  have hp := ordered_pairwise hc n h
  rw [split_toList t n s] at hp
  exact (List.pairwise_append.mp hp).2.1

/-! ## join -/

/-- `join` concatenates the in-order sequences of its arguments. -/
theorem join_entries {α : Type} (t : Treap α) (a b : node α) :
    (t.join a b).entries = a.entries ++ b.entries := by
  induction a, b using Treap.join.induct t with
  | case1 that => simp [Treap.join, node.entries]
  | case2 i p l r => simp [Treap.join, node.entries]
  | case3 i p l r i2 p2 l2 r2 h ih =>
    rw [Treap.join, if_pos h]
    simp [node.entries, ih]
  | case4 i p l r i2 p2 l2 r2 h ih =>
    rw [Treap.join, if_neg h]
    simp [node.entries, ih]

theorem join_toList {α : Type} (t : Treap α) (a b : node α) :
    (t.join a b).toList = a.toList ++ b.toList := by
  simp [node.toList_eq_map_entries, join_entries]

/-! ## The heap invariant -/

theorem prioLE_mono {α : Type} (n : node α) {p q : Int} (hpq : p ≤ q) (h : n.prioLE p) :
    n.prioLE q := by
  cases n with
  | nil => trivial
  | mk i r a b => exact le_trans h hpq

/-- The parts `split` returns are heaps whose roots are bounded by any
bound on the root of the input. -/
theorem split_heap {α : Type} (t : Treap α) (n : node α) (s : α) (h : n.Heap) :
    ((t.split n s).1.Heap ∧ (t.split n s).2.2.Heap) ∧
      ∀ q, n.prioLE q → (t.split n s).1.prioLE q ∧ (t.split n s).2.2.prioLE q := by
  induction n with
  | nil => simp [Treap.split, node.Heap, node.prioLE]
  | mk i p l r ihl ihr =>
    obtain ⟨hl, hr, hpl, hpr⟩ := h
    simp only [Treap.split]
    split_ifs with h0 h1
    · exact ⟨⟨hpl, hpr⟩, fun q hq => ⟨prioLE_mono l hq hl, prioLE_mono r hq hr⟩⟩
    · obtain ⟨⟨a1, a2⟩, a3⟩ := ihl hpl
      refine ⟨⟨a1, (a3 p hl).2, hr, a2, hpr⟩, fun q hq => ⟨?_, hq⟩⟩
      exact (a3 q (prioLE_mono l hq hl)).1
    · obtain ⟨⟨a1, a2⟩, a3⟩ := ihr hpr
      refine ⟨⟨⟨hl, (a3 p hr).1, hpl, a1⟩, a2⟩, fun q hq => ⟨hq, ?_⟩⟩
      exact (a3 q (prioLE_mono r hq hr)).2

/-- The result of `join` on two heaps is a heap whose root is bounded by any
common bound on the two roots. -/
theorem join_heap {α : Type} (t : Treap α) (a b : node α) :
    a.Heap → b.Heap →
      (t.join a b).Heap ∧ ∀ q, a.prioLE q → b.prioLE q → (t.join a b).prioLE q := by
  induction a, b using Treap.join.induct t with
  | case1 that =>
    intro _ hb
    simp only [Treap.join]
    exact ⟨hb, fun q _ h => h⟩
  | case2 i p l r =>
    intro ha _
    simp only [Treap.join]
    exact ⟨ha, fun q h _ => h⟩
  | case3 i p l r i2 p2 l2 r2 h ih =>
    intro ha hb
    rw [Treap.join, if_pos h]
    obtain ⟨hl, hr, hpl, hpr⟩ := ha
    obtain ⟨j1, j2⟩ := ih hpr hb
    refine ⟨⟨hl, j2 p hr ?_, hpl, j1⟩, fun q hq _ => hq⟩
    show p2 ≤ p
    omega
  | case4 i p l r i2 p2 l2 r2 h ih =>
    intro ha hb
    rw [Treap.join, if_neg h]
    obtain ⟨hl, hr, hpl, hpr⟩ := hb
    obtain ⟨j1, j2⟩ := ih ha hpl
    refine ⟨⟨j2 p2 ?_ hl, hr, j1, hpr⟩, fun q _ hq => hq⟩
    show p ≤ p2
    omega

/-- The result of `union` on two heaps is a heap whose root is bounded by
any common bound on the two roots.  No assumption on the comparator. -/
theorem union_heap {α : Type} (t : Treap α) (a b : node α) :
    a.Heap → b.Heap →
      (t.union a b).Heap ∧ ∀ q, a.prioLE q → b.prioLE q → (t.union a b).prioLE q := by
  induction a, b using Treap.union.induct t with
  | case1 that =>
    intro _ hb
    simp only [Treap.union]
    exact ⟨hb, fun q _ h => h⟩
  | case2 i p l r =>
    intro ha _
    simp only [Treap.union]
    exact ⟨ha, fun q h _ => h⟩
  | case3 i p l r i2 p2 l2 r2 h res hm ih1 ih2 =>
    intro ha hb
    obtain ⟨hl, hr, hpl, hpr⟩ := ha
    obtain ⟨⟨s1, s2⟩, s3⟩ := split_heap t (.mk i2 p2 l2 r2) i hb
    have hb2 : (node.mk i2 p2 l2 r2).prioLE p := by show p2 ≤ p; omega
    obtain ⟨u1, u2⟩ := ih1 hpl s1
    obtain ⟨v1, v2⟩ := ih2 hpr s2
    rw [Treap.union, if_pos h]
    simp only []
    rw [show (t.split (.mk i2 p2 l2 r2) i).2.1 = node.nil from hm]
    exact ⟨⟨u2 p hl (s3 p hb2).1, v2 p hr (s3 p hb2).2, u1, v1⟩, fun q hq _ => hq⟩
  | case4 i p l r i2 p2 l2 r2 h res mi mp ml mr hm ih1 ih2 =>
    intro ha hb
    obtain ⟨hl, hr, hpl, hpr⟩ := ha
    obtain ⟨⟨s1, s2⟩, s3⟩ := split_heap t (.mk i2 p2 l2 r2) i hb
    have hb2 : (node.mk i2 p2 l2 r2).prioLE p := by show p2 ≤ p; omega
    obtain ⟨u1, u2⟩ := ih1 hpl s1
    obtain ⟨v1, v2⟩ := ih2 hpr s2
    rw [Treap.union, if_pos h]
    simp only []
    rw [show (t.split (.mk i2 p2 l2 r2) i).2.1 = node.mk mi mp ml mr from hm]
    exact ⟨⟨u2 p hl (s3 p hb2).1, v2 p hr (s3 p hb2).2, u1, v1⟩, fun q hq _ => hq⟩
  | case5 i p l r i2 p2 l2 r2 h res ih1 ih2 =>
    intro ha hb
    obtain ⟨hl, hr, hpl, hpr⟩ := hb
    obtain ⟨⟨s1, s2⟩, s3⟩ := split_heap t (.mk i p l r) i2 ha
    have ha2 : (node.mk i p l r).prioLE p2 := by show p ≤ p2; omega
    obtain ⟨u1, u2⟩ := ih1 s1 hpl
    obtain ⟨v1, v2⟩ := ih2 s2 hpr
    rw [Treap.union, if_neg h]
    exact ⟨⟨u2 p2 (s3 p2 ha2).1 hl, v2 p2 (s3 p2 ha2).2 hr, u1, v1⟩, fun q _ hq => hq⟩

/-! ## union on ordered trees -/

theorem split_middle_item_eq {α : Type} (t : Treap α) (n : node α) (s : α) :
    ∀ m ∈ (t.split n s).2.1.item?, t.compare s m = 0 := by
  intro m hm
  rw [node.item?_eq_map_entry?] at hm
  obtain ⟨e, he, rfl⟩ := Option.mem_map.mp hm
  exact split_middle_eq t n s e he

/-- `union` of two trees that satisfy the order invariant satisfies it, and
holds the items of the second tree and those items of the first that compare
equal to no item of the second. -/
theorem union_ordered_mem {α : Type} (t : Treap α) (hc : TotalOrder t.compare)
    (a b : node α) :
    a.Ordered t.compare → b.Ordered t.compare →
      (t.union a b).Ordered t.compare ∧
        ∀ x, x ∈ (t.union a b).toList ↔
          (x ∈ b.toList ∨ (x ∈ a.toList ∧ ∀ y ∈ b.toList, t.compare x y ≠ 0)) := by
  induction a, b using Treap.union.induct t with
  | case1 that =>
    intro _ hb
    simp only [Treap.union]
    exact ⟨hb, fun x => by simp [node.toList]⟩
  | case2 i p l r =>
    intro ha _
    simp only [Treap.union]
    exact ⟨ha, fun x => by simp [node.toList]⟩
  | case3 i p l r i2 p2 l2 r2 h res hm ih1 ih2 =>
    intro ha hb
    obtain ⟨hl, hr, ol, orr⟩ := ha
    have hs := split_toList t (.mk i2 p2 l2 r2) i
    have hL := split_left_lt t hc _ hb i
    have hR := split_right_gt t hc _ hb i
    obtain ⟨u1, u2⟩ := ih1 ol (split_left_ordered t hc _ hb i)
    obtain ⟨v1, v2⟩ := ih2 orr (split_right_ordered t hc _ hb i)
    rw [Treap.union, if_pos h]
    simp only []
    rw [show (t.split (.mk i2 p2 l2 r2) i).2.1 = node.nil from hm] at hs ⊢
    simp only [node.item?, Option.toList, List.append_nil] at hs
    have hLi : ∀ x ∈ (t.union l res.1).toList, t.compare x i < 0 := by
      intro x hx
      rcases (u2 x).mp hx with hx | ⟨hx, _⟩
      · exact hL x hx
      · exact hl x hx
    have hRi : ∀ x ∈ (t.union r res.2.2).toList, t.compare i x < 0 := by
      intro x hx
      rcases (v2 x).mp hx with hx | ⟨hx, _⟩
      · exact hR x hx
      · exact (hc.antisymm i x).mpr (hr x hx)
    refine ⟨⟨hLi, fun x hx => (hc.antisymm i x).mp (hRi x hx), u1, v1⟩, ?_⟩
    intro x
    rw [hs]
    simp only [node.toList, List.mem_append, List.mem_cons]
    constructor
    · rintro (hx | rfl | hx)
      · rcases (u2 x).mp hx with hx1 | ⟨hx1, hx2⟩
        · exact Or.inl (Or.inl hx1)
        · refine Or.inr ⟨Or.inl hx1, ?_⟩
          rintro y (hy | hy)
          · exact hx2 y hy
          · have := hc.lt_trans (hl x hx1) (hR y hy)
            omega
      · refine Or.inr ⟨Or.inr (Or.inl rfl), ?_⟩
        rintro y (hy | hy)
        · have := (hc.antisymm y x).mp (hL y hy)
          omega
        · have := hR y hy
          omega
      · rcases (v2 x).mp hx with hx1 | ⟨hx1, hx2⟩
        · exact Or.inl (Or.inr hx1)
        · refine Or.inr ⟨Or.inr (Or.inr hx1), ?_⟩
          rintro y (hy | hy)
          · have h1 := hc.lt_trans (hL y hy) ((hc.antisymm i x).mpr (hr x hx1))
            have h2 := (hc.antisymm y x).mp h1
            omega
          · exact hx2 y hy
    · rintro ((hx | hx) | ⟨hx | rfl | hx, H⟩)
      · exact Or.inl ((u2 x).mpr (Or.inl hx))
      · exact Or.inr (Or.inr ((v2 x).mpr (Or.inl hx)))
      · exact Or.inl ((u2 x).mpr (Or.inr ⟨hx, fun y hy => H y (Or.inl hy)⟩))
      · exact Or.inr (Or.inl rfl)
      · exact Or.inr (Or.inr ((v2 x).mpr (Or.inr ⟨hx, fun y hy => H y (Or.inr hy)⟩)))
  | case4 i p l r i2 p2 l2 r2 h res mi mp ml mr hm ih1 ih2 =>
    intro ha hb
    obtain ⟨hl, hr, ol, orr⟩ := ha
    have hs := split_toList t (.mk i2 p2 l2 r2) i
    have hL := split_left_lt t hc _ hb i
    have hR := split_right_gt t hc _ hb i
    have hM := split_middle_item_eq t (.mk i2 p2 l2 r2) i
    obtain ⟨u1, u2⟩ := ih1 ol (split_left_ordered t hc _ hb i)
    obtain ⟨v1, v2⟩ := ih2 orr (split_right_ordered t hc _ hb i)
    rw [Treap.union, if_pos h]
    simp only []
    rw [show (t.split (.mk i2 p2 l2 r2) i).2.1 = node.mk mi mp ml mr from hm] at hs hM ⊢
    simp only [node.item?, Option.toList] at hs
    have himi : t.compare i mi = 0 := hM mi rfl
    have hmii : t.compare mi i = 0 := hc.eq_symm himi
    have hLi : ∀ x ∈ (t.union l res.1).toList, t.compare x i < 0 := by
      intro x hx
      rcases (u2 x).mp hx with hx | ⟨hx, _⟩
      · exact hL x hx
      · exact hl x hx
    have hRi : ∀ x ∈ (t.union r res.2.2).toList, t.compare i x < 0 := by
      intro x hx
      rcases (v2 x).mp hx with hx | ⟨hx, _⟩
      · exact hR x hx
      · exact (hc.antisymm i x).mpr (hr x hx)
    refine ⟨⟨fun x hx => hc.lt_of_lt_of_le (hLi x hx) (le_of_eq himi),
      fun x hx => (hc.antisymm mi x).mp (hc.lt_of_le_of_lt (le_of_eq hmii) (hRi x hx)),
      u1, v1⟩, ?_⟩
    intro x
    rw [hs]
    simp only [node.toList, List.mem_append, List.mem_cons, List.not_mem_nil, or_false]
    constructor
    · rintro (hx | rfl | hx)
      · rcases (u2 x).mp hx with hx1 | ⟨hx1, hx2⟩
        · exact Or.inl (Or.inl (Or.inl hx1))
        · refine Or.inr ⟨Or.inl hx1, ?_⟩
          rintro y ((hy | rfl) | hy)
          · exact hx2 y hy
          · have := hc.lt_of_lt_of_le (hl x hx1) (le_of_eq himi)
            omega
          · have := hc.lt_trans (hl x hx1) (hR y hy)
            omega
      · exact Or.inl (Or.inl (Or.inr rfl))
      · rcases (v2 x).mp hx with hx1 | ⟨hx1, hx2⟩
        · exact Or.inl (Or.inr hx1)
        · refine Or.inr ⟨Or.inr (Or.inr hx1), ?_⟩
          rintro y ((hy | rfl) | hy)
          · have h1 := hc.lt_trans (hL y hy) ((hc.antisymm i x).mpr (hr x hx1))
            have h2 := (hc.antisymm y x).mp h1
            omega
          · have h1 := hc.lt_of_le_of_lt (le_of_eq hmii) ((hc.antisymm i x).mpr (hr x hx1))
            have h2 := (hc.antisymm y x).mp h1
            omega
          · exact hx2 y hy
    · rintro (((hx | rfl) | hx) | ⟨hx | rfl | hx, H⟩)
      · exact Or.inl ((u2 x).mpr (Or.inl hx))
      · exact Or.inr (Or.inl rfl)
      · exact Or.inr (Or.inr ((v2 x).mpr (Or.inl hx)))
      · exact Or.inl ((u2 x).mpr (Or.inr ⟨hx, fun y hy => H y (Or.inl (Or.inl hy))⟩))
      · exact absurd himi (H mi (Or.inl (Or.inr rfl)))
      · exact Or.inr (Or.inr ((v2 x).mpr (Or.inr ⟨hx, fun y hy => H y (Or.inr hy)⟩)))
  | case5 i p l r i2 p2 l2 r2 h res ih1 ih2 =>
    intro ha hb
    obtain ⟨hl2, hr2, ol2, or2⟩ := hb
    have hs := split_toList t (.mk i p l r) i2
    have hL := split_left_lt t hc _ ha i2
    have hR := split_right_gt t hc _ ha i2
    have hM := split_middle_item_eq t (.mk i p l r) i2
    obtain ⟨u1, u2⟩ := ih1 (split_left_ordered t hc _ ha i2) ol2
    obtain ⟨v1, v2⟩ := ih2 (split_right_ordered t hc _ ha i2) or2
    rw [Treap.union, if_neg h]
    simp only []
    have hLi : ∀ x ∈ (t.union res.1 l2).toList, t.compare x i2 < 0 := by
      intro x hx
      rcases (u2 x).mp hx with hx | ⟨hx, _⟩
      · exact hl2 x hx
      · exact hL x hx
    have hRi : ∀ x ∈ (t.union res.2.2 r2).toList, t.compare i2 x < 0 := by
      intro x hx
      rcases (v2 x).mp hx with hx | ⟨hx, _⟩
      · exact (hc.antisymm i2 x).mpr (hr2 x hx)
      · exact hR x hx
    refine ⟨⟨hLi, fun x hx => (hc.antisymm i2 x).mp (hRi x hx), u1, v1⟩, ?_⟩
    intro x
    rw [hs]
    simp only [node.toList, List.mem_append, List.mem_cons]
    constructor
    · rintro (hx | rfl | hx)
      · rcases (u2 x).mp hx with hx1 | ⟨hx1, hx2⟩
        · exact Or.inl (Or.inl hx1)
        · refine Or.inr ⟨Or.inl (Or.inl hx1), ?_⟩
          rintro y (hy | rfl | hy)
          · exact hx2 y hy
          · have := hL x hx1
            omega
          · have := hc.lt_trans (hL x hx1) ((hc.antisymm i2 y).mpr (hr2 y hy))
            omega
      · exact Or.inl (Or.inr (Or.inl rfl))
      · rcases (v2 x).mp hx with hx1 | ⟨hx1, hx2⟩
        · exact Or.inl (Or.inr (Or.inr hx1))
        · refine Or.inr ⟨Or.inr hx1, ?_⟩
          rintro y (hy | rfl | hy)
          · have h1 := hc.lt_trans (hl2 y hy) (hR x hx1)
            have h2 := (hc.antisymm y x).mp h1
            omega
          · have h1 := (hc.antisymm y x).mp (hR x hx1)
            omega
          · exact hx2 y hy
    · rintro ((hx | rfl | hx) | ⟨(hx | hx) | hx, H⟩)
      · exact Or.inl ((u2 x).mpr (Or.inl hx))
      · exact Or.inr (Or.inl rfl)
      · exact Or.inr (Or.inr ((v2 x).mpr (Or.inl hx)))
      · exact Or.inl ((u2 x).mpr (Or.inr ⟨hx, fun y hy => H y (Or.inl hy)⟩))
      · have h1 := hM x (by simpa using hx)
        exact absurd (hc.eq_symm h1) (H i2 (Or.inr (Or.inl rfl)))
      · exact Or.inr (Or.inr ((v2 x).mpr (Or.inr ⟨hx, fun y hy => H y (Or.inr (Or.inr hy))⟩)))

/-! ## Upsert and Delete on ordered treaps -/

theorem upsert_ordered {α : Type} (t : Treap α) (hc : TotalOrder t.compare)
    (h : t.OrderInv) (x : α) (p : Int) : (t.Upsert x p).OrderInv :=
  (union_ordered_mem t hc t.root (.mk x p .nil .nil) h
    (by simp [node.Ordered, node.toList])).1

theorem upsert_mem {α : Type} (t : Treap α) (hc : TotalOrder t.compare)
    (h : t.OrderInv) (x : α) (p : Int) (y : α) :
    y ∈ (t.Upsert x p).root.toList ↔
      y = x ∨ (y ∈ t.root.toList ∧ t.compare y x ≠ 0) := by
  have := (union_ordered_mem t hc t.root (.mk x p .nil .nil) h
    (by simp [node.Ordered, node.toList])).2 y
  simpa [node.toList] using this

theorem delete_toList {α : Type} (t : Treap α) (d : α) :
    (t.Delete d).root.toList =
      (t.split t.root d).1.toList ++ (t.split t.root d).2.2.toList := by
  simp [Treap.Delete, join_toList]

/-- On an ordered treap `Delete` keeps, in order, exactly the items that do
not compare equal to the key. -/
theorem delete_toList_filter {α : Type} (t : Treap α) (hc : TotalOrder t.compare)
    (h : t.OrderInv) (d : α) :
    (t.Delete d).root.toList = t.root.toList.filter (fun x => t.compare x d ≠ 0) := by
  have hL := split_left_lt t hc t.root h d
  have hR := split_right_gt t hc t.root h d
  have hM := split_middle_item_eq t t.root d
  rw [delete_toList]
  conv_rhs => rw [split_toList t t.root d]
  rw [List.filter_append, List.filter_append]
  have e1 : (t.split t.root d).1.toList.filter (fun x => t.compare x d ≠ 0)
      = (t.split t.root d).1.toList := by
    rw [List.filter_eq_self]
    intro x hx
    have := hL x hx
    simp only [ne_eq, decide_not, Bool.not_eq_eq_eq_not, Bool.not_true, decide_eq_false_iff_not]
    omega
  have e2 : (t.split t.root d).2.2.toList.filter (fun x => t.compare x d ≠ 0)
      = (t.split t.root d).2.2.toList := by
    rw [List.filter_eq_self]
    intro x hx
    have := (hc.antisymm d x).mp (hR x hx)
    simp only [ne_eq, decide_not, Bool.not_eq_eq_eq_not, Bool.not_true, decide_eq_false_iff_not]
    omega
  have e3 : (t.split t.root d).2.1.item?.toList.filter (fun x => t.compare x d ≠ 0) = [] := by
    rw [List.filter_eq_nil_iff]
    intro x hx
    have := hc.eq_symm (hM x (by simpa using hx))
    simp [this]
  rw [e1, e2, e3, List.append_nil]

theorem delete_ordered {α : Type} (t : Treap α) (hc : TotalOrder t.compare)
    (h : t.OrderInv) (d : α) : (t.Delete d).OrderInv := by
  apply pairwise_ordered hc
  show (t.Delete d).root.toList.Pairwise _
  rw [delete_toList_filter t hc h d]
  exact (ordered_pairwise hc t.root h).sublist (List.filter_sublist _)

/-! ## Min and Max -/

theorem minLoop_head {α : Type} (l : node α) (i : α) (rest : List α) :
    (l.toList ++ i :: rest).head? = some (minLoop i l) := by
  induction l generalizing i rest with
  | nil => simp [node.toList, minLoop]
  | mk j q a b iha _ =>
    simp only [node.toList, minLoop, List.append_assoc, List.cons_append]
    exact iha j _

theorem maxLoop_last {α : Type} (r : node α) (i : α) (pre : List α) :
    (pre ++ i :: r.toList).getLast? = some (maxLoop i r) := by
  induction r generalizing i pre with
  | nil => simp [node.toList, maxLoop]
  | mk j q a b _ ihb =>
    simp only [node.toList, maxLoop]
    have := ihb j (pre ++ i :: a.toList)
    simpa using this

theorem min_eq_head {α : Type} (t : Treap α) : t.Min = t.root.toList.head? := by
  unfold Treap.Min
  cases t.root with
  | nil => rfl
  | mk i p l r => exact (minLoop_head l i r.toList).symm

theorem max_eq_last {α : Type} (t : Treap α) : t.Max = t.root.toList.getLast? := by
  unfold Treap.Max
  cases t.root with
  | nil => rfl
  | mk i p l r => exact (maxLoop_last r i l.toList).symm

theorem pairwise_head_le {α : Type} {R : α → α → Prop} {xs : List α} {m : α}
    (hp : xs.Pairwise R) (hm : xs.head? = some m) : ∀ x ∈ xs, x = m ∨ R m x := by
  cases xs with
  | nil => simp at hm
  | cons y ys =>
    simp only [List.head?_cons, Option.some.injEq] at hm
    subst hm
    intro x hx
    rcases List.mem_cons.mp hx with rfl | hx
    · exact Or.inl rfl
    · exact Or.inr ((List.pairwise_cons.mp hp).1 x hx)

theorem pairwise_last_ge {α : Type} {R : α → α → Prop} {xs : List α} {m : α}
    (hp : xs.Pairwise R) (hm : xs.getLast? = some m) : ∀ x ∈ xs, x = m ∨ R x m := by
  obtain ⟨ys, rfl⟩ := List.getLast?_eq_some_iff.mp hm
  intro x hx
  rcases List.mem_append.mp hx with hx | hx
  · exact Or.inr ((List.pairwise_append.mp hp).2.2 x hx m (List.mem_singleton_self m))
  · exact Or.inl (List.mem_singleton.mp hx)

/-! ## The push traversal -/

theorem runVisitor_append {α σ : Type} (v : σ → α → Bool × σ) (xs ys : List α)
    (st : σ) :
    runVisitor v (xs ++ ys) st =
      match runVisitor v xs st with
      | (false, st1) => (false, st1)
      | (true, st1) => runVisitor v ys st1 := by
  induction xs generalizing st with
  | nil => simp [runVisitor]
  | cons x xs ih =>
    simp only [List.cons_append, runVisitor]
    rcases hv : v st x with ⟨b, st1⟩
    cases b
    · simp
    · simp [ih]

/-- On a tree of any shape `visitAscend` feeds the visitor the sequence
`ascendSeq`, up to the first item on which the visitor answers false. -/
theorem visitAscend_eq_runVisitor {α σ : Type} (t : Treap α) (n : node α) (pivot : α)
    (v : σ → α → Bool × σ) (st : σ) :
    t.visitAscend n pivot v st = runVisitor v (ascendSeq t.compare pivot n) st := by
  induction n generalizing st with
  | nil => simp [Treap.visitAscend, ascendSeq, runVisitor]
  | mk i p l r ihl ihr =>
    simp only [Treap.visitAscend, ascendSeq]
    split_ifs with hc
    · rw [runVisitor_append, ihl]
      rcases hl : runVisitor v (ascendSeq t.compare pivot l) st with ⟨b, st1⟩
      cases b
      · simp
      · simp only [runVisitor]
        rcases hv : v st1 i with ⟨b2, st2⟩
        cases b2
        · simp
        · simp [ihr]
    · exact ihr st

/-- On a tree that satisfies the order invariant the sequence reached is the
in-order sequence without the items below the pivot. -/
theorem ascendSeq_eq_filter {α : Type} (t : Treap α) (hc : TotalOrder t.compare)
    (n : node α) (h : n.Ordered t.compare) (pivot : α) :
    ascendSeq t.compare pivot n = n.toList.filter (fun x => t.compare pivot x ≤ 0) := by
  induction n with
  | nil => simp [ascendSeq, node.toList]
  | mk i p l r ihl ihr =>
    obtain ⟨hl, hr, ol, orr⟩ := h
    simp only [ascendSeq, node.toList, List.filter_append, List.filter_cons]
    by_cases h1 : t.compare pivot i ≤ 0
    · simp [ihl ol, ihr orr, h1]
    · have hip : t.compare i pivot < 0 := (hc.gt_iff pivot i).mp (by omega)
      have e : l.toList.filter (fun x => t.compare pivot x ≤ 0) = [] := by
        rw [List.filter_eq_nil_iff]
        intro x hx
        have := (hc.antisymm x pivot).mp (hc.lt_trans (hl x hx) hip)
        simp only [decide_eq_true_eq]
        omega
      simp [e, ihr orr, h1]

theorem runVisitor_log_true {α : Type} (xs log : List α) :
    runVisitor (logVisitor (fun _ => true)) xs log = (true, log ++ xs) := by
  induction xs generalizing log with
  | nil => simp [runVisitor]
  | cons x xs ih => simp [runVisitor, logVisitor, ih]

theorem visitAscend_log_true {α : Type} (t : Treap α) (pivot : α) :
    t.VisitAscend pivot (logVisitor (fun _ => true)) [] = ascendSeq t.compare pivot t.root := by
  simp [Treap.VisitAscend, visitAscend_eq_runVisitor, runVisitor_log_true]

/-! ## Priorities under Upsert -/

theorem union_nil_right {α : Type} (t : Treap α) (n : node α) : t.union n .nil = n := by
  cases n <;> simp [Treap.union]

theorem mem_toList_of_mem_entries {α : Type} {n : node α} {e : α × Int}
    (h : e ∈ n.entries) : e.1 ∈ n.toList := by
  rw [node.toList_eq_map_entries]
  exact List.mem_map_of_mem _ h

/-- In a heap every stored priority is bounded by any bound on the root. -/
theorem heap_entries_le {α : Type} (n : node α) (h : n.Heap) (b : Int) (hb : n.prioLE b) :
    ∀ e ∈ n.entries, e.2 ≤ b := by
  induction n generalizing b with
  | nil => simp [node.entries]
  | mk i p l r ihl ihr =>
    obtain ⟨hl, hr, hpl, hpr⟩ := h
    have hpb : p ≤ b := hb
    intro e he
    simp only [node.entries, List.mem_append, List.mem_cons] at he
    rcases he with he | rfl | he
    · exact le_trans (ihl hpl p hl e he) hpb
    · exact hpb
    · exact le_trans (ihr hpr p hr e he) hpb

theorem map_replace_id {α : Type} (cmp : α → α → Int) (x : α) (v : Int)
    (es : List (α × Int)) (h : ∀ e ∈ es, cmp e.1 x ≠ 0) :
    es.map (fun e => if cmp e.1 x = 0 then (x, v) else e) = es := by
  induction es with
  | nil => rfl
  | cons e es ih =>
    simp only [List.map_cons]
    rw [if_neg (h e (List.mem_cons_self _ _)), ih (fun e he => h e (List.mem_cons_of_mem _ he))]

/-- Upsert of a key that is present, on an ordered heap: the in-order
sequence of `(item, priority)` pairs changes only at the entry of that key,
which becomes the new item with the greater of the stored and the supplied
priority. -/
theorem union_singleton_entries {α : Type} (t : Treap α) (hc : TotalOrder t.compare)
    (x : α) (p : Int) (y : α) (q : Int) (hxy : t.compare x y = 0) (n : node α) :
    n.Ordered t.compare → n.Heap → (y, q) ∈ n.entries →
      (t.union n (.mk x p .nil .nil)).entries =
        n.entries.map (fun e => if t.compare e.1 x = 0 then (x, if p < q then q else p)
          else e) := by
  induction n with
  | nil => simp [node.entries]
  | mk i pi l r ihl ihr =>
    intro ho hh hy
    obtain ⟨hl, hr, ol, orr⟩ := ho
    obtain ⟨hpl, hpr, hhl, hhr⟩ := hh
    have hyx : t.compare y x = 0 := hc.eq_symm hxy
    have hLid : ∀ (v : Int) (m : node α), (∀ z ∈ m.toList, t.compare z x < 0) →
        m.entries.map (fun e => if t.compare e.1 x = 0 then (x, v) else e) = m.entries := by
      intro v m hm
      apply map_replace_id
      intro e he
      have := hm e.1 (mem_toList_of_mem_entries he)
      omega
    have hRid : ∀ (v : Int) (m : node α), (∀ z ∈ m.toList, t.compare x z < 0) →
        m.entries.map (fun e => if t.compare e.1 x = 0 then (x, v) else e) = m.entries := by
      intro v m hm
      apply map_replace_id
      intro e he
      have := (hc.antisymm x e.1).mp (hm e.1 (mem_toList_of_mem_entries he))
      omega
    simp only [node.entries, List.mem_append, List.mem_cons] at hy
    rw [Treap.union]
    by_cases hp : pi > p
    · -- the stored root priority is greater: keep descending
      rw [if_pos hp]
      rcases lt_trichotomy (t.compare i x) 0 with hix | hix | hix
      · -- root below the key: the key is in the right subtree
        have hyr : (y, q) ∈ r.entries := by
          have hiy : t.compare i y < 0 := hc.lt_of_lt_of_le hix (le_of_eq hxy)
          rcases hy with hy | hy | hy
          · have h1 := hl y (mem_toList_of_mem_entries hy)
            have h2 := hc.antisymm i y
            omega
          · have h1 := hc.refl i
            simp only [Prod.mk.injEq] at hy
            rw [hy.1] at hiy
            omega
          · exact hy
        have e1 : t.split (.mk x p .nil .nil) i = (.nil, .nil, .mk x p .nil .nil) := by
          simp [Treap.split, hix, ne_of_lt hix]
        simp only [e1, union_nil_right, node.entries, List.map_append, List.map_cons]
        rw [ihr orr hhr hyr, if_neg (ne_of_lt hix)]
        rw [hLid _ l (fun z hz => hc.lt_trans (hl z hz) hix)]
      · -- the root holds the key
        have hiy : t.compare i y = 0 := hc.eq_trans hix hxy
        have hq : q = pi := by
          rcases hy with hy | hy | hy
          · have h1 := hl y (mem_toList_of_mem_entries hy)
            have h2 := hc.eq_symm hiy
            omega
          · simp only [Prod.mk.injEq] at hy
            exact hy.2
          · have h1 := hr y (mem_toList_of_mem_entries hy)
            have h2 := hc.eq_symm hiy
            omega
        have e1 : t.split (.mk x p .nil .nil) i = (.nil, .mk x p .nil .nil, .nil) := by
          simp [Treap.split, hix]
        simp only [e1, union_nil_right, node.entries, List.map_append, List.map_cons]
        rw [if_pos hix]
        rw [hLid _ l (fun z hz => hc.lt_of_lt_of_le (hl z hz) (le_of_eq hix))]
        rw [hRid _ r (fun z hz => hc.lt_of_le_of_lt (le_of_eq (hc.eq_symm hix))
          ((hc.antisymm i z).mpr (hr z hz)))]
        have : (if p < q then q else p) = pi := by
          rw [hq]
          exact if_pos hp
        rw [this]
      · -- root above the key: the key is in the left subtree
        have hxi : t.compare x i < 0 := (hc.antisymm x i).mpr hix
        have hyl : (y, q) ∈ l.entries := by
          have hyi : t.compare y i < 0 := hc.lt_of_le_of_lt (le_of_eq hyx) hxi
          rcases hy with hy | hy | hy
          · exact hy
          · have h1 := hc.refl i
            simp only [Prod.mk.injEq] at hy
            rw [hy.1] at hyi
            omega
          · have h1 := hr y (mem_toList_of_mem_entries hy)
            omega
        have e1 : t.split (.mk x p .nil .nil) i = (.mk x p .nil .nil, .nil, .nil) := by
          simp [Treap.split, ne_of_gt hix, not_lt_of_gt hix]
        simp only [e1, union_nil_right, node.entries, List.map_append, List.map_cons]
        rw [ihl ol hhl hyl, if_neg (ne_of_gt hix)]
        rw [hRid _ r (fun z hz => hc.lt_trans hxi ((hc.antisymm i z).mpr (hr z hz)))]
    · -- the supplied priority is not less than the root's: the new node is the root
      rw [if_neg hp]
      have hs := split_entries t (.mk i pi l r) x
      have hL := split_left_lt t hc (.mk i pi l r) ⟨hl, hr, ol, orr⟩ x
      have hR := split_right_gt t hc (.mk i pi l r) ⟨hl, hr, ol, orr⟩ x
      have hM := split_middle_eq t (.mk i pi l r) x
      have hq : q ≤ pi :=
        heap_entries_le (.mk i pi l r) ⟨hpl, hpr, hhl, hhr⟩ pi (le_refl pi) (y, q)
          (by simpa [node.entries] using hy)
      have hv : (if p < q then q else p) = p := if_neg (by omega)
      have hyn : (y, q) ∈ (node.mk i pi l r).entries := by simpa [node.entries] using hy
      rw [hs] at hyn
      simp only [List.mem_append] at hyn
      have hmid : (y, q) ∈ (t.split (.mk i pi l r) x).2.1.entry?.toList := by
        rcases hyn with (hyn | hyn) | hyn
        · have := hL y (mem_toList_of_mem_entries hyn)
          omega
        · exact hyn
        · have := hR y (mem_toList_of_mem_entries hyn)
          omega
      have hmid2 : (t.split (.mk i pi l r) x).2.1.entry?.toList = [(y, q)] := by
        cases hopt : (t.split (.mk i pi l r) x).2.1.entry? with
        | none => simp [hopt] at hmid
        | some e =>
          simp only [hopt, Option.toList, List.mem_singleton] at hmid
          simp [hmid]
      simp only [union_nil_right]
      conv_rhs => rw [hs, hmid2]
      simp only [node.entries, List.map_append, List.map_cons, List.map_nil]
      rw [hLid _ _ hL, hRid _ _ hR, if_pos hyx, hv]
      simp

/-! ## The pull iterator -/

theorem popStack_append {α : Type} (t : Treap α) (pivot : α) (s : List (stackNode α))
    (sn : stackNode α) :
    Iterator.popStack (Iterator.mk t pivot (s ++ [sn]))
      = ((sn.n, sn.visited), (Iterator.mk t pivot s)) := by
  simp [Iterator.popStack]

theorem Next_empty {α : Type} (t : Treap α) (pivot : α) :
    Iterator.Next (Iterator.mk t pivot [])
      = ((none, false), (Iterator.mk t pivot [])) := by
  rw [Iterator.Next]
  simp [Iterator.popStack]

theorem Next_nil_top {α : Type} (t : Treap α) (pivot : α) (s : List (stackNode α))
    (v : Bool) :
    Iterator.Next (Iterator.mk t pivot (s ++ [stackNode.mk .nil v]))
      = ((none, false), (Iterator.mk t pivot s)) := by
  rw [Iterator.Next]
  split
  · next snd it1 h =>
    rw [popStack_append] at h
    simp only [Prod.mk.injEq] at h
    rw [← h.2]
  · next i1 p1 l1 r1 visited it1 h =>
    rw [popStack_append] at h
    simp at h

theorem Next_visited {α : Type} (t : Treap α) (pivot : α) (s : List (stackNode α))
    (i : α) (p : Int) (l r : node α) :
    Iterator.Next (Iterator.mk t pivot (s ++ [stackNode.mk (.mk i p l r) true]))
      = ((some i, true), (Iterator.mk t pivot s)) := by
  rw [Iterator.Next]
  split
  · next snd it1 h =>
    rw [popStack_append] at h
    simp at h
  · next i1 p1 l1 r1 visited it1 h =>
    rw [popStack_append] at h
    simp only [Prod.mk.injEq, node.mk.injEq] at h
    obtain ⟨⟨⟨rfl, rfl, rfl, rfl⟩, rfl⟩, rfl⟩ := h
    simp

/-- One round of the loop of `Next` on an entry not yet expanded. -/
theorem Next_unvisited {α : Type} (t : Treap α) (pivot : α) (s : List (stackNode α))
    (i : α) (p : Int) (l r : node α) :
    Iterator.Next (Iterator.mk t pivot (s ++ [stackNode.mk (.mk i p l r) false]))
      = (if t.compare pivot i ≤ 0 then
          if l.isNil then ((some i, true), Iterator.mk t pivot (pushRight s r))
          else Iterator.Next (Iterator.mk t pivot
            (pushRight s r ++ [stackNode.mk (.mk i p l r) true] ++ [stackNode.mk l false]))
        else Iterator.Next (Iterator.mk t pivot (pushRight s r))) := by
  rw [Iterator.Next]
  split
  · next snd it1 h =>
    rw [popStack_append] at h
    simp at h
  · next i1 p1 l1 r1 visited it1 h =>
    rw [popStack_append] at h
    simp only [Prod.mk.injEq, node.mk.injEq] at h
    obtain ⟨⟨⟨rfl, rfl, rfl, rfl⟩, rfl⟩, rfl⟩ := h
    cases hr : r.isNil <;> simp [Iterator.pushStack, pushRight, hr]

theorem pendingOf_append {α : Type} (cmp : α → α → Int) (pivot : α)
    (a b : List (stackNode α)) :
    pendingOf cmp pivot (a ++ b) = pendingOf cmp pivot b ++ pendingOf cmp pivot a := by
  induction a with
  | nil => simp [pendingOf]
  | cons x a ih => simp [pendingOf, ih]

theorem pendingOf_single {α : Type} (cmp : α → α → Int) (pivot : α) (sn : stackNode α) :
    pendingOf cmp pivot [sn] = sn.pending cmp pivot := by
  simp [pendingOf]

theorem ascendSeq_of_isNil {α : Type} (cmp : α → α → Int) (pivot : α) (n : node α)
    (h : n.isNil = true) : ascendSeq cmp pivot n = [] := by
  cases n with
  | nil => rfl
  | mk i p l r => simp [node.isNil] at h

theorem pushRight_nonNil {α : Type} (s : List (stackNode α)) (r : node α)
    (hs : ∀ sn ∈ s, sn.n.isNil = false) : ∀ sn ∈ pushRight s r, sn.n.isNil = false := by
  intro sn hsn
  unfold pushRight at hsn
  cases hr : r.isNil
  · simp only [hr, Bool.false_eq_true, if_false, List.mem_append, List.mem_singleton] at hsn
    rcases hsn with hsn | rfl
    · exact hs sn hsn
    · exact hr
  · simp only [hr, if_true] at hsn
    exact hs sn hsn

theorem pushRight_pending {α : Type} (cmp : α → α → Int) (pivot : α)
    (s : List (stackNode α)) (r : node α) :
    pendingOf cmp pivot (pushRight s r) = ascendSeq cmp pivot r ++ pendingOf cmp pivot s := by
  unfold pushRight
  cases hr : r.isNil
  · simp [pendingOf_append, pendingOf_single, stackNode.pending]
  · simp [ascendSeq_of_isNil _ _ _ hr]

theorem pushRight_weight {α : Type} (t : Treap α) (pivot : α) (s : List (stackNode α))
    (r : node α) :
    Iterator.weight (Iterator.mk t pivot (pushRight s r))
      ≤ Iterator.weight (Iterator.mk t pivot s) + 2 * r.size := by
  unfold pushRight
  cases hr : r.isNil <;> simp [Iterator.weight, stackNode.weight]

/-- One call of `Next` on a stack without nil entries returns the first
item the stack still has to yield and leaves a stack that has the others to
yield; it reports false when nothing is left. -/
theorem Next_spec {α : Type} (t : Treap α) (pivot : α) (w : Nat) :
    ∀ s : List (stackNode α),
      Iterator.weight (Iterator.mk t pivot s) ≤ w →
      (∀ sn ∈ s, sn.n.isNil = false) →
      (Iterator.Next (Iterator.mk t pivot s)).1 = nextResult (pendingOf t.compare pivot s) ∧
        ∃ s2, (Iterator.Next (Iterator.mk t pivot s)).2 = Iterator.mk t pivot s2 ∧
          (∀ sn ∈ s2, sn.n.isNil = false) ∧
          pendingOf t.compare pivot s2 = (pendingOf t.compare pivot s).tail := by
  induction w with
  | zero =>
    intro s hw hs
    rcases List.eq_nil_or_concat s with rfl | ⟨s0, sn, hs0sn⟩
    · rw [Next_empty]
      exact ⟨rfl, [], rfl, by simp, rfl⟩
    · rw [List.concat_eq_append] at hs0sn
      subst hs0sn
      obtain ⟨n, v⟩ := sn
      have hn := hs ⟨n, v⟩ (by simp)
      cases n with
      | nil => simp [node.isNil] at hn
      | mk i p l r =>
        cases v <;>
          simp [Iterator.weight, stackNode.weight, node.size] at hw
  | succ w ih =>
    intro s hw hs
    rcases List.eq_nil_or_concat s with rfl | ⟨s0, sn, hs0sn⟩
    · rw [Next_empty]
      exact ⟨rfl, [], rfl, by simp, rfl⟩
    · rw [List.concat_eq_append] at hs0sn
      subst hs0sn
      obtain ⟨n, v⟩ := sn
      have hn := hs ⟨n, v⟩ (by simp)
      have hs0 : ∀ sn ∈ s0, sn.n.isNil = false := fun sn h => hs sn (by simp [h])
      cases n with
      | nil => simp [node.isNil] at hn
      | mk i p l r =>
        cases v with
        | true =>
          rw [Next_visited]
          refine ⟨?_, s0, rfl, hs0, ?_⟩ <;>
            simp [pendingOf_append, pendingOf_single, stackNode.pending, node.item?, nextResult]
        | false =>
          rw [Next_unvisited]
          have hs2 := pushRight_nonNil s0 r hs0
          have hp2 := pushRight_pending t.compare pivot s0 r
          have hw2 := pushRight_weight t pivot s0 r
          have hw0 : Iterator.weight (Iterator.mk t pivot s0)
              + 2 * (l.size + r.size + 1) ≤ w + 1 := by
            simpa [Iterator.weight, stackNode.weight, node.size] using hw
          by_cases hc : t.compare pivot i ≤ 0
          · rw [if_pos hc]
            cases hl : l.isNil
            · -- the left child is pushed above the node, marked visited
              simp only [Bool.false_eq_true, if_false]
              have e : Iterator.weight (Iterator.mk t pivot
                  (pushRight s0 r ++ [stackNode.mk (.mk i p l r) true] ++ [stackNode.mk l false]))
                  = Iterator.weight (Iterator.mk t pivot (pushRight s0 r)) + 1 + 2 * l.size := by
                simp [Iterator.weight, stackNode.weight]
                omega
              have hs3 : ∀ sn ∈ pushRight s0 r ++ [stackNode.mk (.mk i p l r) true]
                  ++ [stackNode.mk l false], sn.n.isNil = false := by
                intro sn hsn
                simp only [List.mem_append, List.mem_singleton] at hsn
                rcases hsn with (hsn | rfl) | rfl
                · exact hs2 sn hsn
                · rfl
                · exact hl
              obtain ⟨r1, s3, r2, r3, r4⟩ := ih _ (by omega) hs3
              have hp : pendingOf t.compare pivot
                  (pushRight s0 r ++ [stackNode.mk (.mk i p l r) true] ++ [stackNode.mk l false])
                  = pendingOf t.compare pivot (s0 ++ [stackNode.mk (.mk i p l r) false]) := by
                simp [pendingOf_append, pendingOf, stackNode.pending, node.item?, hp2,
                  ascendSeq, hc]
              rw [hp] at r1 r4
              exact ⟨r1, s3, r2, r3, r4⟩
            · -- no left child: the node is yielded in this round
              simp only [if_true]
              have hl0 := ascendSeq_of_isNil t.compare pivot l hl
              refine ⟨?_, _, rfl, hs2, ?_⟩
              · simp [pendingOf_append, pendingOf_single, stackNode.pending, ascendSeq, hc, hl0,
                  nextResult]
              · rw [hp2]
                simp [pendingOf_append, pendingOf_single, stackNode.pending, ascendSeq, hc, hl0]
          · -- the node is below the pivot: only its right child is looked at
            rw [if_neg hc]
            obtain ⟨r1, s3, r2, r3, r4⟩ := ih _ (by omega) hs2
            have hp : pendingOf t.compare pivot (pushRight s0 r)
                = pendingOf t.compare pivot (s0 ++ [stackNode.mk (.mk i p l r) false]) := by
              rw [hp2]
              simp [pendingOf_append, pendingOf_single, stackNode.pending, ascendSeq, hc]
            rw [hp] at r1 r4
            exact ⟨r1, s3, r2, r3, r4⟩

theorem pull_eq_take {α : Type} (t : Treap α) (pivot : α) (k : Nat) :
    ∀ s : List (stackNode α), (∀ sn ∈ s, sn.n.isNil = false) →
      Iterator.pull k (Iterator.mk t pivot s)
        = (pendingOf t.compare pivot s).take k := by
  induction k with
  | zero => intro s _; simp [Iterator.pull]
  | succ k ih =>
    intro s hs
    obtain ⟨r1, s2, r2, r3, r4⟩ := Next_spec t pivot _ s (le_refl _) hs
    rw [Iterator.pull]
    rcases hN : Iterator.Next (Iterator.mk t pivot s) with ⟨res, it1⟩
    rw [hN] at r1 r2
    simp only at r1 r2
    subst r2
    cases hp : pendingOf t.compare pivot s with
    | nil =>
      rw [hp] at r1
      simp [r1, nextResult]
    | cons x xs =>
      rw [hp] at r1 r4
      simp only [nextResult] at r1
      simp only [List.tail_cons] at r4
      rw [r1]
      simp [ih s2 r3, r4]

theorem after_spec {α : Type} (t : Treap α) (pivot : α) (k : Nat) :
    ∀ s : List (stackNode α), (∀ sn ∈ s, sn.n.isNil = false) →
      ∃ s2, Iterator.after k (Iterator.mk t pivot s)
          = (Iterator.mk t pivot s2) ∧
        (∀ sn ∈ s2, sn.n.isNil = false) ∧
        pendingOf t.compare pivot s2 = (pendingOf t.compare pivot s).drop k := by
  induction k with
  | zero => intro s hs; exact ⟨s, rfl, hs, rfl⟩
  | succ k ih =>
    intro s hs
    obtain ⟨_, s2, r2, r3, r4⟩ := Next_spec t pivot _ s (le_refl _) hs
    obtain ⟨s3, q1, q2, q3⟩ := ih s2 r3
    refine ⟨s3, ?_, q2, ?_⟩
    · rw [Iterator.after, r2, q1]
    · rw [q3, r4, List.drop_tail]

/-! ## Early stop and end of iteration -/

theorem runVisitor_log {α : Type} (f : α → Bool) (xs log : List α) :
    (runVisitor (logVisitor f) xs log).2 = log ++ stopAfter f xs := by
  induction xs generalizing log with
  | nil => simp [runVisitor, stopAfter]
  | cons x xs ih =>
    simp only [runVisitor, logVisitor, stopAfter]
    cases hf : f x
    · simp
    · simp only [if_true]
      rw [ih]
      simp

theorem stopAfter_spec {α : Type} (f : α → Bool) (xs : List α) :
    stopAfter f xs = xs.takeWhile f ++ (xs.dropWhile f).head?.toList ∧
      stopAfter f xs <+: xs ∧
      (∀ x ∈ (stopAfter f xs).dropLast, f x = true) ∧
      ((∀ x ∈ xs, f x = true) → stopAfter f xs = xs) ∧
      ((∃ x ∈ xs, f x = false) →
        ∃ y, (stopAfter f xs).getLast? = some y ∧ f y = false) := by
  induction xs with
  | nil => simp [stopAfter]
  | cons x xs ih =>
    obtain ⟨h1, h2, h3, h4, h5⟩ := ih
    cases hf : f x
    · simp [stopAfter, hf, List.takeWhile, List.dropWhile]
    · refine ⟨?_, ?_, ?_, ?_, ?_⟩
      · simp [stopAfter, hf, List.takeWhile, List.dropWhile, h1]
      · simp only [stopAfter, hf, if_true]
        exact (List.prefix_cons_inj x).mpr h2
      · simp only [stopAfter, hf, if_true]
        intro y hy
        cases hs : stopAfter f xs with
        | nil => simp [hs] at hy
        | cons z zs =>
          rw [hs, List.dropLast_cons₂] at hy
          rcases List.mem_cons.mp hy with rfl | hy
          · exact hf
          · exact h3 y (by rw [hs]; exact hy)
      · intro hall
        simp only [stopAfter, hf, if_true]
        rw [h4 (fun y hy => hall y (List.mem_cons_of_mem _ hy))]
      · rintro ⟨y, hy, hfy⟩
        rcases List.mem_cons.mp hy with rfl | hy
        · rw [hf] at hfy
          cases hfy
        · obtain ⟨z, hz1, hz2⟩ := h5 ⟨y, hy, hfy⟩
          refine ⟨z, ?_, hz2⟩
          simp only [stopAfter, hf, if_true]
          cases hs : stopAfter f xs with
          | nil => simp [hs] at hz1
          | cons w ws =>
            rw [hs] at hz1
            rw [List.getLast?_cons_cons]
            exact hz1

theorem Next_unvisited_single {α : Type} (t : Treap α) (pivot : α)
    (i : α) (p : Int) (l r : node α) :
    Iterator.Next (Iterator.mk t pivot [stackNode.mk (.mk i p l r) false])
      = (if t.compare pivot i ≤ 0 then
          if l.isNil then ((some i, true), Iterator.mk t pivot (pushRight [] r))
          else Iterator.Next (Iterator.mk t pivot
            (pushRight [] r ++ [stackNode.mk (.mk i p l r) true] ++ [stackNode.mk l false]))
        else Iterator.Next (Iterator.mk t pivot (pushRight [] r))) :=
  Next_unvisited t pivot [] i p l r

theorem nextResult_false {α : Type} (xs : List α) (h : (nextResult xs).2 = false) :
    xs = [] := by
  cases xs with
  | nil => rfl
  | cons x xs => simp [nextResult] at h

/-- After `newIterator` on an empty treap every call of `Next` reports false. -/
theorem after_nil_root {α : Type} (t : Treap α) (pivot : α) (k : Nat) :
    ((Iterator.after k (Iterator.mk t pivot ([] ++ [stackNode.mk .nil false]))).Next).1
        = (none, false) ∧
      (Iterator.after (k + 1) (Iterator.mk t pivot ([] ++ [stackNode.mk .nil false])))
        = Iterator.mk t pivot [] := by
  have hn : Iterator.Next (Iterator.mk t pivot ([] ++ [stackNode.mk .nil false]))
      = ((none, false), Iterator.mk t pivot []) := Next_nil_top t pivot [] false
  induction k with
  | zero =>
    simp only [Iterator.after]
    rw [hn]
    exact ⟨rfl, rfl⟩
  | succ k ih =>
    have e : Iterator.after (k + 1 + 1) (Iterator.mk t pivot ([] ++ [stackNode.mk .nil false]))
        = Iterator.mk t pivot [] := by
      have h1 : ∀ (j : Nat) (it : Iterator α),
          Iterator.after (j + 1) it = (Iterator.after j it).Next.2 := by
        intro j
        induction j with
        | zero => intro it; rfl
        | succ j ihj => intro it; rw [Iterator.after, ihj]; rfl
      rw [h1 (k + 1), ih.2, Next_empty]
    refine ⟨?_, e⟩
    rw [ih.2, Next_empty]

/-! ## The contract of split -/

/-- On an ordered tree the left part of `split` holds the entries below the
key and the right part the entries above it. -/
theorem split_entries_filter {α : Type} (t : Treap α) (hc : TotalOrder t.compare)
    (n : node α) (h : n.Ordered t.compare) (s : α) :
    (t.split n s).1.entries = n.entries.filter (fun e => t.compare e.1 s < 0) ∧
      (t.split n s).2.2.entries = n.entries.filter (fun e => t.compare s e.1 < 0) := by
  have hL := split_left_lt t hc n h s
  have hR := split_right_gt t hc n h s
  have hM := split_middle_eq t n s
  have hs := split_entries t n s
  have a1 : ∀ e ∈ (t.split n s).1.entries, t.compare e.1 s < 0 ∧ ¬ t.compare s e.1 < 0 := by
    intro e he
    have h1 := hL e.1 (mem_toList_of_mem_entries he)
    have h2 := hc.antisymm e.1 s
    exact ⟨h1, by omega⟩
  have a2 : ∀ e ∈ (t.split n s).2.2.entries,
      t.compare s e.1 < 0 ∧ ¬ t.compare e.1 s < 0 := by
    intro e he
    have h1 := hR e.1 (mem_toList_of_mem_entries he)
    have h2 := hc.antisymm s e.1
    exact ⟨h1, by omega⟩
  have a3 : ∀ e ∈ (t.split n s).2.1.entry?.toList,
      ¬ t.compare e.1 s < 0 ∧ ¬ t.compare s e.1 < 0 := by
    intro e he
    have h1 := hM e (by simpa using he)
    have h2 := hc.eq_symm h1
    exact ⟨by omega, by omega⟩
  constructor
  · conv_rhs => rw [hs]
    rw [List.filter_append, List.filter_append,
      List.filter_eq_self.mpr (fun e he => by simpa using (a1 e he).1),
      List.filter_eq_nil_iff.mpr (fun e he => by simpa using (a3 e he).1),
      List.filter_eq_nil_iff.mpr (fun e he => by simpa using (a2 e he).2)]
    simp
  · conv_rhs => rw [hs]
    rw [List.filter_append, List.filter_append,
      List.filter_eq_nil_iff.mpr (fun e he => by simpa using (a1 e he).2),
      List.filter_eq_nil_iff.mpr (fun e he => by simpa using (a3 e he).2),
      List.filter_eq_self.mpr (fun e he => by simpa using (a2 e he).1)]
    simp

/-- The middle node of `split`, when there is one, is a node of the input. -/
theorem split_middle_subtree {α : Type} (t : Treap α) (n : node α) (s : α) :
    (t.split n s).2.1 = .nil ∨ (t.split n s).2.1 ∈ n.subtrees := by
  induction n with
  | nil => simp [Treap.split]
  | mk i p l r ihl ihr =>
    simp only [Treap.split]
    split_ifs with h0 h1
    · simp [node.subtrees]
    · rcases ihl with h | h
      · exact Or.inl h
      · exact Or.inr (by simp [node.subtrees, h])
    · rcases ihr with h | h
      · exact Or.inl h
      · exact Or.inr (by simp [node.subtrees, h])

/-! ## Upsert of an absent key -/

/-- Upsert of a key that is absent, on an ordered tree: the new entry, with
the supplied priority, is put between the entries below and above the key. -/
theorem union_singleton_absent {α : Type} (t : Treap α) (hc : TotalOrder t.compare)
    (x : α) (p : Int) (n : node α) :
    n.Ordered t.compare → (∀ y ∈ n.toList, t.compare x y ≠ 0) →
      (t.union n (.mk x p .nil .nil)).entries =
        n.entries.filter (fun e => t.compare e.1 x < 0) ++
          (x, p) :: n.entries.filter (fun e => t.compare x e.1 < 0) := by
  induction n with
  | nil => intro _ _; simp [Treap.union, node.entries]
  | mk i pi l r ihl ihr =>
    intro ho hab
    have hsf := split_entries_filter t hc (.mk i pi l r) ho x
    obtain ⟨hl, hr, ol, orr⟩ := ho
    have hxi : t.compare x i ≠ 0 := hab i (by simp [node.toList])
    have habl : ∀ y ∈ l.toList, t.compare x y ≠ 0 :=
      fun y hy => hab y (by simp [node.toList, hy])
    have habr : ∀ y ∈ r.toList, t.compare x y ≠ 0 :=
      fun y hy => hab y (by simp [node.toList, hy])
    have hbelow : ∀ (m : node α), (∀ z ∈ m.toList, t.compare z x < 0) →
        m.entries.filter (fun e => t.compare e.1 x < 0) = m.entries ∧
          m.entries.filter (fun e => t.compare x e.1 < 0) = [] := by
      intro m hm
      constructor
      · rw [List.filter_eq_self]
        intro e he
        simpa using hm e.1 (mem_toList_of_mem_entries he)
      · rw [List.filter_eq_nil_iff]
        intro e he
        have h1 := hm e.1 (mem_toList_of_mem_entries he)
        have h2 := hc.antisymm e.1 x
        simp only [decide_eq_true_eq]
        omega
    have habove : ∀ (m : node α), (∀ z ∈ m.toList, t.compare x z < 0) →
        m.entries.filter (fun e => t.compare x e.1 < 0) = m.entries ∧
          m.entries.filter (fun e => t.compare e.1 x < 0) = [] := by
      intro m hm
      constructor
      · rw [List.filter_eq_self]
        intro e he
        simpa using hm e.1 (mem_toList_of_mem_entries he)
      · rw [List.filter_eq_nil_iff]
        intro e he
        have h1 := hm e.1 (mem_toList_of_mem_entries he)
        have h2 := hc.antisymm x e.1
        simp only [decide_eq_true_eq]
        omega
    rw [Treap.union]
    by_cases hp : pi > p
    · rw [if_pos hp]
      rcases lt_trichotomy (t.compare i x) 0 with hix | hix | hix
      · -- root below the key: the new node goes to the right subtree
        have hxi2 : ¬ t.compare x i < 0 := by
          have := hc.antisymm i x
          omega
        have e1 : t.split (.mk x p .nil .nil) i = (.nil, .nil, .mk x p .nil .nil) := by
          simp [Treap.split, hix, ne_of_lt hix]
        obtain ⟨b1, b2⟩ := hbelow l (fun z hz => hc.lt_trans (hl z hz) hix)
        simp only [e1, union_nil_right, node.entries, List.filter_append, List.filter_cons]
        rw [ihr orr habr, b1, b2]
        simp [hix, hxi2]
      · exact absurd (hc.eq_symm hix) hxi
      · -- root above the key: the new node goes to the left subtree
        have hxi1 : t.compare x i < 0 := (hc.antisymm x i).mpr hix
        have hix2 : ¬ t.compare i x < 0 := by omega
        have e1 : t.split (.mk x p .nil .nil) i = (.mk x p .nil .nil, .nil, .nil) := by
          simp [Treap.split, ne_of_gt hix, not_lt_of_gt hix]
        obtain ⟨b1, b2⟩ := habove r
          (fun z hz => hc.lt_trans hxi1 ((hc.antisymm i z).mpr (hr z hz)))
        simp only [e1, union_nil_right, node.entries, List.filter_append, List.filter_cons]
        rw [ihl ol habl, b1, b2]
        simp [hxi1, hix2]
    · -- the supplied priority is not less than the root's: the new node is the root
      rw [if_neg hp]
      simp only [union_nil_right]
      show (t.split (.mk i pi l r) x).1.entries ++ (x, p) :: (t.split (.mk i pi l r) x).2.2.entries
        = _
      rw [hsf.1, hsf.2]

theorem delete_entries {α : Type} (t : Treap α) (hc : TotalOrder t.compare)
    (h : t.OrderInv) (d : α) :
    (t.Delete d).root.entries =
      t.root.entries.filter (fun e => t.compare e.1 d < 0) ++
        t.root.entries.filter (fun e => t.compare d e.1 < 0) := by
  obtain ⟨e1, e2⟩ := split_entries_filter t hc t.root h d
  simp only [Treap.Delete, join_entries]
  rw [e1, e2]

/-! ## join on ordered heaps -/

theorem join_nil_right {α : Type} (t : Treap α) (n : node α) : t.join n .nil = n := by
  cases n <;> simp [Treap.join]

theorem join_ordered {α : Type} (t : Treap α) (hc : TotalOrder t.compare) (a b : node α)
    (ha : a.Ordered t.compare) (hb : b.Ordered t.compare)
    (hab : ∀ x ∈ a.toList, ∀ y ∈ b.toList, t.compare x y < 0) :
    (t.join a b).Ordered t.compare := by
  apply pairwise_ordered hc
  rw [join_toList, List.pairwise_append]
  exact ⟨ordered_pairwise hc a ha, ordered_pairwise hc b hb, hab⟩

/-! ## Termination measures -/

theorem split_size {α : Type} (t : Treap α) (n : node α) (s : α) :
    (t.split n s).1.size + (t.split n s).2.2.size ≤ n.size := by
  induction n with
  | nil => simp [Treap.split, node.size]
  | mk i p l r ihl ihr =>
    simp only [Treap.split]
    split_ifs <;> simp only [node.size] <;> omega

theorem popStack_weight {α : Type} (it it1 : Iterator α) (n : node α) (v : Bool)
    (h : it.popStack = ((n, v), it1)) (hn : n.isNil = false) :
    it.weight = it1.weight + (stackNode.mk n v).weight ∧ it1.t = it.t ∧
      it1.pivot = it.pivot := by
  unfold Iterator.popStack at h
  split at h
  · simp only [Prod.mk.injEq] at h
    rw [← h.1.1] at hn
    cases hn
  · next sn hsn =>
    obtain ⟨x, hx⟩ := List.getLast?_eq_some_iff.mp hsn
    simp only [Prod.mk.injEq] at h
    obtain ⟨⟨h1, h2⟩, h3⟩ := h
    subst h3
    obtain ⟨sn1, sn2⟩ := sn
    simp only at h1 h2
    subst h1 h2
    simp [Iterator.weight, hx]

theorem pushStack_weight {α : Type} (it : Iterator α) (n : node α) (v : Bool) :
    (it.pushStack n v).weight = it.weight + (stackNode.mk n v).weight := by
  simp [Iterator.pushStack, Iterator.weight]

/-- A round of the loop of `Next` either returns what `Next` returns, or
goes on with an iterator of smaller weight on which `Next` returns the same. -/
theorem round_spec {α : Type} (it : Iterator α) :
    (∀ res, it.round = .inl res → it.Next = res) ∧
      (∀ it1, it.round = .inr it1 → it.Next = it1.Next ∧ it1.weight < it.weight) := by
  rw [Iterator.Next]
  split
  · next snd it1 h =>
    simp [Iterator.round, h]
  · next i p l r visited it1 h =>
    have hw := (popStack_weight it it1 _ visited h rfl).1
    cases visited with
    | true => simp [Iterator.round, h]
    | false =>
      simp only [stackNode.weight, Bool.false_eq_true, if_false, node.size] at hw
      simp only [Iterator.round, h, Bool.false_eq_true, if_false]
      by_cases hc : (if r.isNil = true then it1 else it1.pushStack r false).t.compare
          (if r.isNil = true then it1 else it1.pushStack r false).pivot i ≤ 0
      · simp only [hc, if_true]
        cases hl : l.isNil
        · simp only [Bool.false_eq_true, if_false]
          refine ⟨fun res hres => (by cases hres), fun it2 hit2 => ?_⟩
          simp only [Sum.inr.injEq] at hit2
          subst hit2
          refine ⟨rfl, ?_⟩
          rw [pushStack_weight, pushStack_weight, hw]
          cases hr : r.isNil <;>
            simp only [hr, if_true, Bool.false_eq_true, if_false, pushStack_weight,
              stackNode.weight] <;> omega
        · simp only [if_true]
          exact ⟨fun res hres => by simp only [Sum.inl.injEq] at hres; exact hres,
            fun it2 hit2 => by cases hit2⟩
      · simp only [hc, if_false]
        refine ⟨fun res hres => (by cases hres), fun it2 hit2 => ?_⟩
        simp only [Sum.inr.injEq] at hit2
        subst hit2
        refine ⟨rfl, ?_⟩
        rw [hw]
        cases hr : r.isNil <;>
          simp only [hr, if_true, Bool.false_eq_true, if_false, pushStack_weight,
            stackNode.weight] <;> omega

theorem loop_eq_Next {α : Type} (fuel : Nat) :
    ∀ it : Iterator α, it.weight < fuel → Iterator.loop fuel it = some it.Next := by
  induction fuel with
  | zero => intro it h; omega
  | succ fuel ih =>
    intro it h
    obtain ⟨h1, h2⟩ := round_spec it
    rw [Iterator.loop]
    cases hr : it.round with
    | inl res => simp only []; rw [h1 res hr]
    | inr it1 =>
      simp only []
      obtain ⟨e, hlt⟩ := h2 it1 hr
      rw [e]
      exact ih it1 (by omega)

/-! ## Delete of an absent key on a strict heap -/

theorem prioLT_mono {α : Type} (n : node α) {p q : Int} (hpq : p ≤ q) (h : n.prioLT p) :
    n.prioLT q := by
  cases n with
  | nil => trivial
  | mk i r a b => exact lt_of_lt_of_le h hpq

/-- The roots of the parts `split` returns are strictly below any strict
bound on the root of a strict heap. -/
theorem split_prioLT {α : Type} (t : Treap α) (n : node α) (s : α) (h : n.StrictHeap)
    (q : Int) (hq : n.prioLT q) :
    (t.split n s).1.prioLT q ∧ (t.split n s).2.2.prioLT q := by
  induction n generalizing q with
  | nil => simp [Treap.split, node.prioLT]
  | mk i p l r ihl ihr =>
    obtain ⟨hl, hr, hsl, hsr⟩ := h
    have hpq : p < q := hq
    simp only [Treap.split]
    split_ifs with h0 h1
    · exact ⟨prioLT_mono l (le_of_lt hpq) hl, prioLT_mono r (le_of_lt hpq) hr⟩
    · exact ⟨(ihl hsl q (prioLT_mono l (le_of_lt hpq) hl)).1, hpq⟩
    · exact ⟨hpq, (ihr hsr q (prioLT_mono r (le_of_lt hpq) hr)).2⟩

/-- On a strict heap, joining the two parts of a `split` that found no
equal item gives back the tree. -/
theorem join_split_absent {α : Type} (t : Treap α) (n : node α) (k : α)
    (h : n.StrictHeap) (hk : (t.split n k).2.1 = .nil) :
    t.join (t.split n k).1 (t.split n k).2.2 = n := by
  induction n with
  | nil => simp [Treap.split, Treap.join]
  | mk i p l r ihl ihr =>
    obtain ⟨hl, hr, hsl, hsr⟩ := h
    by_cases h0 : t.compare k i = 0
    · simp only [Treap.split, h0, if_true] at hk
      cases hk
    by_cases h1 : t.compare k i < 0
    · simp only [Treap.split, h0, h1, if_true, if_false] at hk ⊢
      have ih := ihl hsl hk
      have hb := (split_prioLT t l k hsl p hl).1
      cases hL : (t.split l k).1 with
      | nil =>
        rw [hL] at ih
        simp only [Treap.join] at ih ⊢
        rw [ih]
      | mk i1 p1 l1 r1 =>
        rw [hL] at ih hb
        have hp : ¬ p1 > p := by
          have : p1 < p := hb
          omega
        rw [Treap.join, if_neg hp, ih]
    · simp only [Treap.split, h0, h1, if_false] at hk ⊢
      have ih := ihr hsr hk
      have hb := (split_prioLT t r k hsr p hr).2
      cases hR : (t.split r k).2.2 with
      | nil =>
        rw [hR] at ih
        rw [join_nil_right] at ih ⊢
        rw [ih]
      | mk i1 p1 l1 r1 =>
        rw [hR] at ih hb
        have hp : p > p1 := hb
        rw [Treap.join, if_pos hp, ih]

/-- With equal priorities the shape can change: deleting the absent key 6
from the tree `5/10` with right child `7/10` makes `7/10` the root. -/
theorem delete_absent_tie_example :
    (Treap.Delete { compare := intCompare, root := .mk 5 10 .nil (.mk 7 10 .nil .nil) } 6).root
      = .mk 7 10 (.mk 5 10 .nil .nil) .nil := by
  simp [Treap.Delete, Treap.split, Treap.join, intCompare]

/-! ## A heap with distinct priorities is determined by its in-order sequence -/

theorem append_cons_unique {β γ : Type} (f : β → γ) (xs : List β) :
    ∀ (xs2 ys ys2 : List β) (a a2 : β), xs ++ a :: ys = xs2 ++ a2 :: ys2 → f a = f a2 →
      ((xs ++ a :: ys).map f).Nodup → xs = xs2 ∧ a = a2 ∧ ys = ys2 := by
  induction xs with
  | nil =>
    intro xs2 ys ys2 a a2 he hf hnd
    cases xs2 with
    | nil =>
      simp only [List.nil_append, List.cons.injEq] at he
      exact ⟨rfl, he.1, he.2⟩
    | cons b xs2 =>
      simp only [List.nil_append, List.cons_append, List.cons.injEq] at he
      obtain ⟨rfl, rfl⟩ := he
      simp only [List.nil_append, List.map_cons, List.nodup_cons, List.map_append,
        List.mem_append, List.mem_cons, List.mem_map] at hnd
      exact absurd (Or.inr (Or.inl hf)) hnd.1
  | cons x xs ih =>
    intro xs2 ys ys2 a a2 he hf hnd
    cases xs2 with
    | nil =>
      simp only [List.nil_append, List.cons_append, List.cons.injEq] at he
      obtain ⟨rfl, rfl⟩ := he
      simp only [List.cons_append, List.map_cons, List.nodup_cons, List.map_append,
        List.mem_append, List.mem_cons, List.mem_map] at hnd
      exact absurd (Or.inr (Or.inl hf.symm)) hnd.1
    | cons b xs2 =>
      simp only [List.cons_append, List.cons.injEq] at he
      obtain ⟨rfl, he⟩ := he
      simp only [List.cons_append, List.map_cons, List.nodup_cons] at hnd
      obtain ⟨e1, e2, e3⟩ := ih xs2 ys ys2 a a2 he hf hnd.2
      exact ⟨by rw [e1], e2, e3⟩

/-- Two heaps with the same in-order sequence of `(item, priority)` pairs,
in which no priority occurs twice, are the same tree. -/
theorem heap_unique {α : Type} (n1 : node α) :
    ∀ n2 : node α, n1.Heap → n2.Heap → (n1.entries.map Prod.snd).Nodup →
      n1.entries = n2.entries → n1 = n2 := by
  induction n1 with
  | nil =>
    intro n2 _ _ _ he
    cases n2 with
    | nil => rfl
    | mk i p l r => simp [node.entries] at he
  | mk i p l r ihl ihr =>
    intro n2 h1 h2 hnd he
    cases n2 with
    | nil => simp [node.entries] at he
    | mk i2 p2 l2 r2 =>
      have hle1 := heap_entries_le (.mk i p l r) h1 p (le_refl p)
      have hle2 := heap_entries_le (.mk i2 p2 l2 r2) h2 p2 (le_refl p2)
      have m1 : (i2, p2) ∈ (node.mk i p l r).entries := by
        rw [he]
        simp [node.entries]
      have m2 : (i, p) ∈ (node.mk i2 p2 l2 r2).entries := by
        rw [← he]
        simp [node.entries]
      have hpp : p = p2 := le_antisymm (hle2 _ m2) (hle1 _ m1)
      simp only [node.entries] at he hnd
      obtain ⟨e1, e2, e3⟩ := append_cons_unique Prod.snd l.entries l2.entries r.entries
        r2.entries (i, p) (i2, p2) he hpp hnd
      simp only [List.map_append, List.map_cons] at hnd
      have hndl : (l.entries.map Prod.snd).Nodup := (List.nodup_append.mp hnd).1
      have hndr : (r.entries.map Prod.snd).Nodup :=
        (List.nodup_cons.mp (List.nodup_append.mp hnd).2.1).2
      obtain ⟨_, _, hl, hr⟩ := h1
      obtain ⟨_, _, hl2, hr2⟩ := h2
      rw [ihl l2 hl hl2 hndl e1, ihr r2 hr hr2 hndr e3]
      simp only [Prod.mk.injEq] at e2
      rw [e2.1, e2.2]

/-- Two lists sorted by the same asymmetric relation that have the same
members are equal. -/
theorem sorted_ext {β : Type} (R : β → β → Prop) (hR : ∀ a b, R a b → ¬ R b a)
    (l1 : List β) :
    ∀ l2 : List β, l1.Pairwise R → l2.Pairwise R → (∀ x, x ∈ l1 ↔ x ∈ l2) →
      l1 = l2 := by
  induction l1 with
  | nil =>
    intro l2 _ _ hm
    cases l2 with
    | nil => rfl
    | cons y ys => exact absurd ((hm y).mpr (List.mem_cons_self _ _)) (List.not_mem_nil _)
  | cons x xs ih =>
    intro l2 h1 h2 hm
    cases l2 with
    | nil => exact absurd ((hm x).mp (List.mem_cons_self _ _)) (List.not_mem_nil _)
    | cons y ys =>
      rw [List.pairwise_cons] at h1 h2
      have hxy : x = y := by
        rcases List.mem_cons.mp ((hm x).mp (List.mem_cons_self _ _)) with h | h
        · exact h
        · rcases List.mem_cons.mp ((hm y).mpr (List.mem_cons_self _ _)) with h3 | h3
          · exact h3.symm
          · exact absurd (h1.1 y h3) (hR _ _ (h2.1 x h))
      subst hxy
      have hm2 : ∀ z, z ∈ xs ↔ z ∈ ys := by
        intro z
        constructor
        · intro hz
          rcases List.mem_cons.mp ((hm z).mp (List.mem_cons_of_mem _ hz)) with h | h
          · subst h
            exact absurd (h1.1 z hz) (hR _ _ (h1.1 z hz))
          · exact h
        · intro hz
          rcases List.mem_cons.mp ((hm z).mpr (List.mem_cons_of_mem _ hz)) with h | h
          · subst h
            exact absurd (h2.1 z hz) (hR _ _ (h2.1 z hz))
          · exact h
      rw [ih ys h1.2 h2.2 hm2]

/-- The entries after an Upsert of an absent key are the new entry and the
old entries, rearranged. -/
theorem upsert_absent_perm {α : Type} (t : Treap α) (hc : TotalOrder t.compare)
    (ho : t.OrderInv) (x : α) (p : Int) (hab : ∀ y ∈ t.root.toList, t.compare x y ≠ 0) :
    (t.Upsert x p).root.entries.Perm ((x, p) :: t.root.entries) := by
  have h1 := union_singleton_absent t hc x p t.root ho hab
  have h2 : t.root.entries.filter (fun e => t.compare x e.1 < 0)
      = t.root.entries.filter (fun e => !decide (t.compare e.1 x < 0)) := by
    apply List.filter_congr
    intro e he
    have h3 := hab e.1 (mem_toList_of_mem_entries he)
    have h4 := hc.antisymm x e.1
    have h5 := hc.antisymm e.1 x
    by_cases h6 : t.compare e.1 x < 0
    · simp only [h6, decide_True, Bool.not_true, decide_eq_false_iff_not]
      omega
    · simp only [h6, decide_False, Bool.not_false, decide_eq_true_eq]
      omega
  show (t.union t.root (.mk x p .nil .nil)).entries.Perm _
  rw [h1, h2]
  exact List.perm_middle.trans
    ((List.filter_append_perm (fun e => decide (t.compare e.1 x < 0)) t.root.entries).cons _)

theorem entries_pairwise {α : Type} {cmp : α → α → Int} (hc : TotalOrder cmp)
    (n : node α) (h : n.Ordered cmp) :
    n.entries.Pairwise (fun e1 e2 => cmp e1.1 e2.1 < 0) := by
  have := ordered_pairwise hc n h
  rw [node.toList_eq_map_entries, List.pairwise_map] at this
  exact this

/-! ## The operations over the memory -/

theorem prefix_lookup {β : Type} {h h2 : List β} (hp : h <+: h2) {a : Nat} {c : β}
    (hc : h[a]? = some c) : h2[a]? = some c := by
  obtain ⟨k, rfl⟩ := hp
  have hlt : a < h.length := by
    by_contra hge
    rw [List.getElem?_eq_none (by omega)] at hc
    cases hc
  rw [List.getElem?_append_left hlt]
  exact hc

theorem lookup_new {β : Type} (h : List β) (c : β) : (h ++ [c])[h.length]? = some c := by
  simp

theorem Rep_mono {α : Type} {h h2 : Store α} (hp : h <+: h2) (n : node α) :
    ∀ p, Rep h p n → Rep h2 p n := by
  induction n with
  | nil => intro p hr; cases p <;> simp [Rep] at hr ⊢
  | mk i pr l r ihl ihr =>
    intro p hr
    cases p with
    | none => simp [Rep] at hr
    | some a =>
      obtain ⟨c, hc, h1, h2, h3, h4⟩ := hr
      exact ⟨c, prefix_lookup hp hc, h1, h2, ihl _ h3, ihr _ h4⟩

theorem Rep_nil {α : Type} {h : Store α} {p : Option Nat} (hr : Rep h p (node.nil : node α)) :
    p = none := by
  cases p with
  | none => rfl
  | some a => simp [Rep] at hr

/-- `split` over the memory returns, within a depth of the node count plus
one, pointers to the parts the value model computes, in a memory that
extends the old one. -/
theorem splitM_spec {α : Type} (t : TreapM α) (u : Treap α) (hu : u.compare = t.compare)
    (s : α) (n : node α) :
    ∀ (fuel : Nat) (h : Store α) (p : Option Nat), Rep h p n → n.size < fuel →
      ∃ res, t.split fuel h p s = some res ∧ h <+: res.1 ∧
        Rep res.1 res.2.1 (u.split n s).1 ∧ Rep res.1 res.2.2.1 (u.split n s).2.1 ∧
        Rep res.1 res.2.2.2 (u.split n s).2.2 := by
  induction n with
  | nil =>
    intro fuel h p hr hf
    cases Rep_nil hr
    cases fuel with
    | zero => omega
    | succ fuel =>
      exact ⟨(h, none, none, none), rfl, List.prefix_refl h, trivial, trivial, trivial⟩
  | mk i pr l r ihl ihr =>
    intro fuel h p hr hf
    cases p with
    | none => simp [Rep] at hr
    | some a =>
      obtain ⟨c, hc, rfl, rfl, hl, hrr⟩ := hr
      cases fuel with
      | zero => omega
      | succ fuel =>
        simp only [node.size] at hf
        simp only [TreapM.split, hc, Option.bind_eq_bind, Option.some_bind, Treap.split, hu]
        by_cases h0 : t.compare s c.item = 0
        · simp only [h0, if_true]
          exact ⟨_, rfl, List.prefix_refl h, hl, ⟨c, hc, rfl, rfl, hl, hrr⟩, hrr⟩
        · by_cases h1 : t.compare s c.item < 0
          · simp only [h0, h1, if_true, if_false]
            obtain ⟨res, e, hp, r1, r2, r3⟩ := ihl fuel h c.left hl (by omega)
            simp only [e, Option.some_bind]
            have hp2 : res.1 <+: res.1 ++ [cell.mk c.item c.priority res.2.2.2 c.right] :=
              List.prefix_append _ _
            refine ⟨_, rfl, hp.trans hp2, Rep_mono hp2 _ _ r1, Rep_mono hp2 _ _ r2, ?_⟩
            exact ⟨_, lookup_new _ _, rfl, rfl, Rep_mono hp2 _ _ r3,
              Rep_mono (hp.trans hp2) _ _ hrr⟩
          · simp only [h0, h1, if_false]
            obtain ⟨res, e, hp, r1, r2, r3⟩ := ihr fuel h c.right hrr (by omega)
            simp only [e, Option.some_bind]
            have hp2 : res.1 <+: res.1 ++ [cell.mk c.item c.priority c.left res.2.1] :=
              List.prefix_append _ _
            refine ⟨_, rfl, hp.trans hp2, ?_, Rep_mono hp2 _ _ r2, Rep_mono hp2 _ _ r3⟩
            exact ⟨_, lookup_new _ _, rfl, rfl, Rep_mono (hp.trans hp2) _ _ hl,
              Rep_mono hp2 _ _ r1⟩

/-- `join` over the memory returns a pointer to the tree the value model
computes, in a memory that extends the old one. -/
theorem joinM_spec {α : Type} (t : TreapM α) (u : Treap α) (a b : node α) :
    ∀ (fuel : Nat) (h : Store α) (pa pb : Option Nat), Rep h pa a → Rep h pb b →
      a.size + b.size < fuel →
      ∃ res, t.join fuel h pa pb = some res ∧ h <+: res.1 ∧ Rep res.1 res.2 (u.join a b) := by
  induction a, b using Treap.join.induct u with
  | case1 that =>
    intro fuel h pa pb ha hb hf
    cases Rep_nil ha
    cases fuel with
    | zero => omega
    | succ fuel =>
      refine ⟨(h, pb), rfl, List.prefix_refl h, ?_⟩
      simpa [Treap.join] using hb
  | case2 i p l r =>
    intro fuel h pa pb ha hb hf
    cases Rep_nil hb
    cases pa with
    | none => simp [Rep] at ha
    | some x =>
      cases fuel with
      | zero => omega
      | succ fuel =>
        refine ⟨(h, some x), rfl, List.prefix_refl h, ?_⟩
        simpa [Treap.join] using ha
  | case3 i p l r i2 p2 l2 r2 hp ih =>
    intro fuel h pa pb ha hb hf
    cases pa with
    | none => simp [Rep] at ha
    | some x =>
    cases pb with
    | none => simp [Rep] at hb
    | some y =>
    cases fuel with
    | zero => omega
    | succ fuel =>
      obtain ⟨ca, hca, rfl, rfl, hal, har⟩ := ha
      obtain ⟨cb, hcb, rfl, rfl, hbl, hbr⟩ := hb
      simp only [node.size] at hf
      obtain ⟨res, e, hpre, r1⟩ := ih fuel h ca.right (some y) har
        ⟨cb, hcb, rfl, rfl, hbl, hbr⟩ (by simp only [node.size]; omega)
      have hp2 : res.1 <+: res.1 ++ [cell.mk ca.item ca.priority ca.left res.2] :=
        List.prefix_append _ _
      rw [Treap.join, if_pos hp]
      simp only [TreapM.join, hca, hcb, Option.bind_eq_bind, Option.some_bind, if_pos hp, e]
      refine ⟨_, rfl, hpre.trans hp2, ?_⟩
      exact ⟨_, lookup_new _ _, rfl, rfl, Rep_mono (hpre.trans hp2) _ _ hal,
        Rep_mono hp2 _ _ r1⟩
  | case4 i p l r i2 p2 l2 r2 hp ih =>
    intro fuel h pa pb ha hb hf
    cases pa with
    | none => simp [Rep] at ha
    | some x =>
    cases pb with
    | none => simp [Rep] at hb
    | some y =>
    cases fuel with
    | zero => omega
    | succ fuel =>
      obtain ⟨ca, hca, rfl, rfl, hal, har⟩ := ha
      obtain ⟨cb, hcb, rfl, rfl, hbl, hbr⟩ := hb
      simp only [node.size] at hf
      obtain ⟨res, e, hpre, r1⟩ := ih fuel h (some x) cb.left
        ⟨ca, hca, rfl, rfl, hal, har⟩ hbl (by simp only [node.size]; omega)
      have hp2 : res.1 <+: res.1 ++ [cell.mk cb.item cb.priority res.2 cb.right] :=
        List.prefix_append _ _
      rw [Treap.join, if_neg hp]
      simp only [TreapM.join, hca, hcb, Option.bind_eq_bind, Option.some_bind, if_neg hp, e]
      refine ⟨_, rfl, hpre.trans hp2, ?_⟩
      exact ⟨_, lookup_new _ _, rfl, rfl, Rep_mono hp2 _ _ r1,
        Rep_mono (hpre.trans hp2) _ _ hbr⟩

/-- `union` over the memory returns a pointer to the tree the value model
computes, in a memory that extends the old one. -/
theorem unionM_spec {α : Type} (t : TreapM α) (u : Treap α) (hu : u.compare = t.compare)
    (a b : node α) :
    ∀ (fuel : Nat) (h : Store α) (pa pb : Option Nat), Rep h pa a → Rep h pb b →
      a.size + b.size < fuel →
      ∃ res, t.union fuel h pa pb = some res ∧ h <+: res.1 ∧
        Rep res.1 res.2 (u.union a b) := by
  induction a, b using Treap.union.induct u with
  | case1 that =>
    intro fuel h pa pb ha hb hf
    cases Rep_nil ha
    cases fuel with
    | zero => omega
    | succ fuel =>
      refine ⟨(h, pb), rfl, List.prefix_refl h, ?_⟩
      simpa [Treap.union] using hb
  | case2 i p l r =>
    intro fuel h pa pb ha hb hf
    cases Rep_nil hb
    cases pa with
    | none => simp [Rep] at ha
    | some x =>
      cases fuel with
      | zero => omega
      | succ fuel =>
        refine ⟨(h, some x), rfl, List.prefix_refl h, ?_⟩
        simpa [Treap.union] using ha
  | case3 i p l r i2 p2 l2 r2 hp res hm ih1 ih2 =>
    intro fuel h pa pb ha hb hf
    cases pa with
    | none => simp [Rep] at ha
    | some x =>
    cases pb with
    | none => simp [Rep] at hb
    | some y =>
    cases fuel with
    | zero => omega
    | succ fuel =>
      have hsz : res.1.size + res.2.2.size ≤ (node.mk i2 p2 l2 r2).size :=
        split_size u (.mk i2 p2 l2 r2) i
      obtain ⟨sres, e, hpre1, s1, s2, s3⟩ := splitM_spec t u hu i (.mk i2 p2 l2 r2) fuel h
        (some y) hb (by simp only [node.size] at hf ⊢; omega)
      obtain ⟨ca, hca, rfl, rfl, hal, har⟩ := ha
      obtain ⟨cb, hcb, rfl, rfl, hbl, hbr⟩ := hb
      simp only [node.size] at hf hsz
      rw [show (u.split (.mk cb.item cb.priority l2 r2) ca.item).2.1 = node.nil from hm] at s2
      have hnone := Rep_nil s2
      obtain ⟨ul, e1, hpre2, u1⟩ := ih1 fuel sres.1 ca.left sres.2.1
        (Rep_mono hpre1 _ _ hal) s1 (by omega)
      obtain ⟨ur, e2, hpre3, u2⟩ := ih2 fuel ul.1 ca.right sres.2.2.2
        (Rep_mono (hpre1.trans hpre2) _ _ har) (Rep_mono hpre2 _ _ s3) (by omega)
      have hp4 : ur.1 <+: ur.1 ++ [cell.mk ca.item ca.priority ul.2 ur.2] :=
        List.prefix_append _ _
      rw [Treap.union, if_pos hp]
      simp only []
      rw [show (u.split (.mk cb.item cb.priority l2 r2) ca.item).2.1 = node.nil from hm]
      simp only [TreapM.union, hca, hcb, Option.bind_eq_bind, Option.some_bind, if_pos hp, e,
        hnone, e1, e2]
      refine ⟨_, rfl, ((hpre1.trans hpre2).trans hpre3).trans hp4, ?_⟩
      exact ⟨_, lookup_new _ _, rfl, rfl, Rep_mono (hpre3.trans hp4) _ _ u1,
        Rep_mono hp4 _ _ u2⟩
  | case4 i p l r i2 p2 l2 r2 hp res mi mp ml mr hm ih1 ih2 =>
    intro fuel h pa pb ha hb hf
    cases pa with
    | none => simp [Rep] at ha
    | some x =>
    cases pb with
    | none => simp [Rep] at hb
    | some y =>
    cases fuel with
    | zero => omega
    | succ fuel =>
      have hsz : res.1.size + res.2.2.size ≤ (node.mk i2 p2 l2 r2).size :=
        split_size u (.mk i2 p2 l2 r2) i
      obtain ⟨sres, e, hpre1, s1, s2, s3⟩ := splitM_spec t u hu i (.mk i2 p2 l2 r2) fuel h
        (some y) hb (by simp only [node.size] at hf ⊢; omega)
      obtain ⟨ca, hca, rfl, rfl, hal, har⟩ := ha
      obtain ⟨cb, hcb, rfl, rfl, hbl, hbr⟩ := hb
      simp only [node.size] at hf hsz
      rw [show (u.split (.mk cb.item cb.priority l2 r2) ca.item).2.1 = node.mk mi mp ml mr
        from hm] at s2
      cases hmid : sres.2.2.1 with
      | none => rw [hmid] at s2; simp [Rep] at s2
      | some m =>
      rw [hmid] at s2
      obtain ⟨cm, hcm, hcmi, _, _, _⟩ := s2
      obtain ⟨ul, e1, hpre2, u1⟩ := ih1 fuel sres.1 ca.left sres.2.1
        (Rep_mono hpre1 _ _ hal) s1 (by omega)
      obtain ⟨ur, e2, hpre3, u2⟩ := ih2 fuel ul.1 ca.right sres.2.2.2
        (Rep_mono (hpre1.trans hpre2) _ _ har) (Rep_mono hpre2 _ _ s3) (by omega)
      have hp4 : ur.1 <+: ur.1 ++ [cell.mk mi ca.priority ul.2 ur.2] :=
        List.prefix_append _ _
      rw [Treap.union, if_pos hp]
      simp only []
      rw [show (u.split (.mk cb.item cb.priority l2 r2) ca.item).2.1 = node.mk mi mp ml mr
        from hm]
      simp only [TreapM.union, hca, hcb, Option.bind_eq_bind, Option.some_bind, if_pos hp, e,
        hmid, hcm, Option.map_some', hcmi, e1, e2]
      refine ⟨_, rfl, ((hpre1.trans hpre2).trans hpre3).trans hp4, ?_⟩
      exact ⟨_, lookup_new _ _, rfl, rfl, Rep_mono (hpre3.trans hp4) _ _ u1,
        Rep_mono hp4 _ _ u2⟩
  | case5 i p l r i2 p2 l2 r2 hp res ih1 ih2 =>
    intro fuel h pa pb ha hb hf
    cases pa with
    | none => simp [Rep] at ha
    | some x =>
    cases pb with
    | none => simp [Rep] at hb
    | some y =>
    cases fuel with
    | zero => omega
    | succ fuel =>
      have hsz : res.1.size + res.2.2.size ≤ (node.mk i p l r).size :=
        split_size u (.mk i p l r) i2
      obtain ⟨sres, e, hpre1, s1, s2, s3⟩ := splitM_spec t u hu i2 (.mk i p l r) fuel h
        (some x) ha (by simp only [node.size] at hf ⊢; omega)
      obtain ⟨ca, hca, rfl, rfl, hal, har⟩ := ha
      obtain ⟨cb, hcb, rfl, rfl, hbl, hbr⟩ := hb
      simp only [node.size] at hf hsz
      obtain ⟨ul, e1, hpre2, u1⟩ := ih1 fuel sres.1 sres.2.1 cb.left s1
        (Rep_mono hpre1 _ _ hbl) (by omega)
      obtain ⟨ur, e2, hpre3, u2⟩ := ih2 fuel ul.1 sres.2.2.2 cb.right
        (Rep_mono hpre2 _ _ s3) (Rep_mono (hpre1.trans hpre2) _ _ hbr) (by omega)
      have hp4 : ur.1 <+: ur.1 ++ [cell.mk cb.item cb.priority ul.2 ur.2] :=
        List.prefix_append _ _
      rw [Treap.union, if_neg hp]
      simp only [TreapM.union, hca, hcb, Option.bind_eq_bind, Option.some_bind, if_neg hp, e,
        e1, e2]
      refine ⟨_, rfl, ((hpre1.trans hpre2).trans hpre3).trans hp4, ?_⟩
      exact ⟨_, lookup_new _ _, rfl, rfl, Rep_mono (hpre3.trans hp4) _ _ u1,
        Rep_mono hp4 _ _ u2⟩

/-- A pointer holds at most one tree. -/
theorem Rep_unique {α : Type} (h : Store α) (n : node α) :
    ∀ (p : Option Nat) (m : node α), Rep h p n → Rep h p m → m = n := by
  induction n with
  | nil =>
    intro p m hn hm
    cases Rep_nil hn
    cases m with
    | nil => rfl
    | mk i pr l r => simp [Rep] at hm
  | mk i pr l r ihl ihr =>
    intro p m hn hm
    cases p with
    | none => simp [Rep] at hn
    | some a =>
      cases m with
      | nil => simp [Rep] at hm
      | mk i2 pr2 l2 r2 =>
        obtain ⟨c, hc, rfl, rfl, hl, hr⟩ := hn
        obtain ⟨c2, hc2, rfl, rfl, hl2, hr2⟩ := hm
        rw [hc] at hc2
        cases hc2
        rw [ihl _ _ hl hl2, ihr _ _ hr hr2]

theorem UpsertM_spec {α : Type} (t : TreapM α) (h : Store α) (n : node α)
    (hrep : Rep h t.root n) (item : α) (priority : Int) (fuel : Nat)
    (hf : n.size + 1 < fuel) :
    ∃ h1 t1, t.Upsert fuel h item priority = some (h1, t1) ∧ h <+: h1 ∧
      Rep h1 t1.root ((t.toTreap n).Upsert item priority).root := by
  have hp0 : h <+: h ++ [cell.mk item priority none none] := List.prefix_append _ _
  have hnew : Rep (h ++ [cell.mk item priority none none]) (some h.length)
      (.mk item priority .nil .nil) :=
    ⟨_, lookup_new _ _, rfl, rfl, trivial, trivial⟩
  obtain ⟨res, e, hpre, r1⟩ := unionM_spec t (t.toTreap n) rfl n (.mk item priority .nil .nil)
    fuel _ t.root (some h.length) (Rep_mono hp0 _ _ hrep) hnew (by simp only [node.size]; omega)
  refine ⟨res.1, { compare := t.compare, root := res.2 }, ?_, hp0.trans hpre, r1⟩
  simp [TreapM.Upsert, e]

theorem DeleteM_spec {α : Type} (t : TreapM α) (h : Store α) (n : node α)
    (hrep : Rep h t.root n) (key : α) (fuel : Nat) (hf : n.size + 1 < fuel) :
    ∃ h2 t2, t.Delete fuel h key = some (h2, t2) ∧ h <+: h2 ∧
      Rep h2 t2.root ((t.toTreap n).Delete key).root := by
  have hsz := split_size (t.toTreap n) n key
  obtain ⟨sres, e, hpre1, s1, _, s3⟩ := splitM_spec t (t.toTreap n) rfl key n fuel h t.root
    hrep (by omega)
  obtain ⟨j, e2, hpre2, j1⟩ := joinM_spec t (t.toTreap n) _ _ fuel sres.1 sres.2.1 sres.2.2.2
    s1 s3 (by omega)
  refine ⟨j.1, { compare := t.compare, root := j.2 }, ?_, hpre1.trans hpre2, j1⟩
  simp [TreapM.Delete, e, e2]

/-! ## The nil Item -/

theorem minItem_eq {α : Type} (t : Treap α) (nilItem : α) :
    t.MinItem nilItem = t.Min.getD nilItem := by
  unfold Treap.MinItem Treap.Min
  cases t.root <;> rfl

theorem maxItem_eq {α : Type} (t : Treap α) (nilItem : α) :
    t.MaxItem nilItem = t.Max.getD nilItem := by
  unfold Treap.MaxItem Treap.Max
  cases t.root <;> rfl

theorem getItemLoop_eq {α : Type} (nilItem : α) (cmp : α → α → Int) (k : α) (n : node α) :
    getItemLoop nilItem cmp k n = (getLoop cmp k n).getD nilItem := by
  induction n with
  | nil => rfl
  | mk i p l r ihl ihr =>
    simp only [getItemLoop, getLoop]
    split_ifs <;> simp [ihl, ihr]

theorem getItem_eq {α : Type} (t : Treap α) (nilItem : α) (k : α) :
    t.GetItem nilItem k = (t.Get k).getD nilItem :=
  getItemLoop_eq nilItem t.compare k t.root

theorem optCompare_totalOrder : TotalOrder optCompare := by
  constructor
  · intro a b
    cases a <;> cases b <;> simp [optCompare]
    exact intCompare_totalOrder.antisymm _ _
  · intro a b c
    cases a <;> cases b <;> cases c <;> simp [optCompare]
    exact intCompare_totalOrder.le_trans _ _ _

/-- On an ordered treap the node `Min` stops at holds the first and the node
`Max` stops at the last item of the in-order sequence, below and above
every other item; there is no such node exactly when the treap is empty. -/
theorem min_max_found {α : Type} (t : Treap α) (hc : TotalOrder t.compare)
    (h : t.OrderInv) :
    t.Min = t.root.toList.head? ∧ t.Max = t.root.toList.getLast? ∧
      (∀ m, t.Min = some m →
        m ∈ t.root.toList ∧ ∀ x ∈ t.root.toList, x = m ∨ t.compare m x < 0) ∧
      (∀ m, t.Max = some m →
        m ∈ t.root.toList ∧ ∀ x ∈ t.root.toList, x = m ∨ t.compare x m < 0) ∧
      (t.Min = none ↔ t.root.toList = []) ∧ (t.Max = none ↔ t.root.toList = []) := by
  have hp := ordered_pairwise hc t.root h
  refine ⟨min_eq_head t, max_eq_last t, ?_, ?_, ?_, ?_⟩
  · intro m hm
    rw [min_eq_head] at hm
    exact ⟨List.mem_of_mem_head? hm, pairwise_head_le hp hm⟩
  · intro m hm
    rw [max_eq_last] at hm
    exact ⟨List.mem_of_getLast?_eq_some hm, pairwise_last_ge hp hm⟩
  · rw [min_eq_head]
    exact List.head?_eq_none_iff
  · rw [max_eq_last]
    exact List.getLast?_eq_none_iff

/-- On an ordered treap, when the loop of `Get k` finds no node, `Delete k`
has the same in-order item sequence, and the outcomes of `Get`, `Min`, `Max`
and `VisitAscend` (any pivot, any visitor) are the same on both. -/
theorem delete_not_found_noop {α : Type} (t : Treap α) (hc : TotalOrder t.compare)
    (h : t.OrderInv) (k : α) (hk : t.Get k = none) :
    (t.Delete k).root.toList = t.root.toList ∧
      (∀ q, (t.Delete k).Get q = t.Get q) ∧
      (t.Delete k).Min = t.Min ∧ (t.Delete k).Max = t.Max ∧
      ∀ (σ : Type) (pivot : α) (visitor : σ → α → Bool × σ) (st : σ),
        (t.Delete k).VisitAscend pivot visitor st = t.VisitAscend pivot visitor st := by
  have hD := delete_ordered t hc h k
  have e : (t.Delete k).root.toList = t.root.toList := by
    have hm : (t.split t.root k).2.1.item? = none := by
      rw [split_middle_item]
      exact hk
    rw [delete_toList]
    conv_rhs => rw [split_toList t t.root k, hm]
    simp
  refine ⟨e, ?_, ?_, ?_, ?_⟩
  · intro q
    exact getLoop_congr hc _ _ hD h (fun x => by rw [e]) q
  · rw [min_eq_head, min_eq_head, e]
  · rw [max_eq_last, max_eq_last, e]
  · intro σ pivot visitor st
    unfold Treap.VisitAscend
    rw [visitAscend_eq_runVisitor, visitAscend_eq_runVisitor]
    show (runVisitor visitor (ascendSeq t.compare pivot (t.Delete k).root) st).2 = _
    rw [ascendSeq_eq_filter t hc _ hD, ascendSeq_eq_filter t hc _ h, e]

/-! ## The claims -/

/-- C1. Read-your-writes for Upsert: on a treap that satisfies the order
invariant under a total-order comparator, `Get` after `Upsert x p` returns
`x` for every key that compares equal to `x`, and for every other key what
`Get` returned before; that is empty when the treap held no item equal to
the key. -/
theorem get_upsert {α : Type} (t : Treap α) (hc : TotalOrder t.compare)
    (h : t.OrderInv) (x : α) (p : Int) (k : α) :
    (t.Upsert x p).Get k = (if t.compare k x = 0 then some x else t.Get k) ∧
      (t.compare k x ≠ 0 → (∀ y ∈ t.root.toList, t.compare k y ≠ 0) →
        (t.Upsert x p).Get k = none) := by
  have hU := upsert_ordered t hc h x p
  have key : (t.Upsert x p).Get k = (if t.compare k x = 0 then some x else t.Get k) := by
    split_ifs with hk
    · exact (getLoop_eq_some_iff hc _ hU k x).mpr
        ⟨(upsert_mem t hc h x p x).mpr (Or.inl rfl), hk⟩
    · apply Option.ext
      intro y
      simp only [Option.mem_def]
      show getLoop t.compare k (t.Upsert x p).root = some y ↔ getLoop t.compare k t.root = some y
      rw [getLoop_eq_some_iff hc _ hU, getLoop_eq_some_iff hc _ h, upsert_mem t hc h x p y]
      constructor
      · rintro ⟨rfl | ⟨hy, _⟩, hky⟩
        · exact absurd hky hk
        · exact ⟨hy, hky⟩
      · rintro ⟨hy, hky⟩
        refine ⟨Or.inr ⟨hy, fun hyx => hk (hc.eq_trans hky hyx)⟩, hky⟩
  refine ⟨key, fun hk hno => ?_⟩
  rw [key, if_neg hk]
  exact (getLoop_eq_none_iff hc _ h k).mpr hno

theorem get_upsert_witness :
    sampleTreap.OrderInv ∧
      (sampleTreap.Upsert 5 4).Get 5
        = (if sampleTreap.compare 5 5 = 0 then some 5 else sampleTreap.Get 5) ∧
      (sampleTreap.compare 5 5 ≠ 0 →
        (∀ y ∈ sampleTreap.root.toList, sampleTreap.compare 5 y ≠ 0) →
        (sampleTreap.Upsert 5 4).Get 5 = none) :=
  ⟨by simp [Treap.OrderInv, sampleTreap, node.Ordered, node.toList, intCompare],
    get_upsert sampleTreap intCompare_totalOrder
      (by simp [Treap.OrderInv, sampleTreap, node.Ordered, node.toList, intCompare]) 5 4 5⟩

/-- C2. Read-your-writes for Delete: on a treap that satisfies the order
invariant under a total-order comparator, `Get` after `Delete d` returns
empty for every key that compares equal to `d` and for every other key what
`Get` returned before; the items left are, in order, exactly the items that
do not compare equal to `d`, so at most one item is gone. -/
theorem get_delete {α : Type} (t : Treap α) (hc : TotalOrder t.compare)
    (h : t.OrderInv) (d k : α) :
    (t.Delete d).Get k = (if t.compare k d = 0 then none else t.Get k) ∧
      (t.Delete d).root.toList = t.root.toList.filter (fun x => t.compare x d ≠ 0) ∧
      t.root.toList.length ≤ (t.Delete d).root.toList.length + 1 := by
  have hD := delete_ordered t hc h d
  have hf := delete_toList_filter t hc h d
  have hmem : ∀ y, y ∈ (t.Delete d).root.toList ↔
      y ∈ t.root.toList ∧ t.compare y d ≠ 0 := by
    intro y
    rw [hf]
    simp
  refine ⟨?_, hf, ?_⟩
  · split_ifs with hk
    · apply (getLoop_eq_none_iff hc _ hD k).mpr
      intro y hy hky
      exact ((hmem y).mp hy).2 (hc.eq_trans (hc.eq_symm hky) hk)
    · apply Option.ext
      intro y
      simp only [Option.mem_def]
      show getLoop t.compare k (t.Delete d).root = some y ↔ getLoop t.compare k t.root = some y
      rw [getLoop_eq_some_iff hc _ hD, getLoop_eq_some_iff hc _ h, hmem]
      constructor
      · rintro ⟨⟨hy, _⟩, hky⟩
        exact ⟨hy, hky⟩
      · rintro ⟨hy, hky⟩
        exact ⟨⟨hy, fun hyd => hk (hc.eq_trans hky hyd)⟩, hky⟩
  · rw [delete_toList]
    have hs := congrArg List.length (split_toList t t.root d)
    simp only [List.length_append] at hs ⊢
    have : (t.split t.root d).2.1.item?.toList.length ≤ 1 := by
      cases (t.split t.root d).2.1.item? <;> simp
    omega

theorem get_delete_witness :
    sampleTreap.OrderInv ∧
      (sampleTreap.Delete 4).Get 4
        = (if sampleTreap.compare 4 4 = 0 then none else sampleTreap.Get 4) ∧
      (sampleTreap.Delete 4).root.toList
        = sampleTreap.root.toList.filter (fun x => sampleTreap.compare x 4 ≠ 0) ∧
      sampleTreap.root.toList.length ≤ (sampleTreap.Delete 4).root.toList.length + 1 :=
  ⟨by simp [Treap.OrderInv, sampleTreap, node.Ordered, node.toList, intCompare],
    get_delete sampleTreap intCompare_totalOrder
      (by simp [Treap.OrderInv, sampleTreap, node.Ordered, node.toList, intCompare]) 4 4⟩

/-- C3. The order invariant is an invariant of the container: the empty
treap of `NewTreap` satisfies it, and `Upsert` and `Delete` on a treap that
satisfies it under a total-order comparator return a treap that satisfies it. -/
theorem order_invariant_preserved {α : Type} (c : α → α → Int) (t : Treap α)
    (hc : TotalOrder t.compare) (h : t.OrderInv) (item : α) (priority : Int) (key : α) :
    (NewTreap c).OrderInv ∧ (t.Upsert item priority).OrderInv ∧
      (t.Delete key).OrderInv :=
  ⟨trivial, upsert_ordered t hc h item priority, delete_ordered t hc h key⟩

theorem order_invariant_preserved_witness :
    sampleTreap.OrderInv ∧ (NewTreap intCompare).OrderInv ∧
      (sampleTreap.Upsert 7 3).OrderInv ∧
      (sampleTreap.Delete 5).OrderInv :=
  ⟨by simp [Treap.OrderInv, sampleTreap, node.Ordered, node.toList, intCompare],
    order_invariant_preserved intCompare sampleTreap intCompare_totalOrder
      (by simp [Treap.OrderInv, sampleTreap, node.Ordered, node.toList, intCompare]) 7 3 5⟩

/-- C4. Order property of the push traversal: on a treap that satisfies the
order invariant (under a total-order comparator), `VisitAscend` with a
visitor that always returns true visits the in-order item sequence of the
tree filtered by item >= pivot, which is strictly increasing and holds
exactly the items of the treap that compare greater than or equal to the
pivot, each once. -/
theorem visitAscend_order {α : Type} (t : Treap α) (hc : TotalOrder t.compare)
    (h : t.OrderInv) (pivot : α) :
    t.VisitAscend pivot (logVisitor (fun _ => true)) []
        = t.root.toList.filter (fun x => t.compare pivot x ≤ 0) ∧
      (t.VisitAscend pivot (logVisitor (fun _ => true)) []).Pairwise
        (fun a b => t.compare a b < 0) ∧
      (t.VisitAscend pivot (logVisitor (fun _ => true)) []).Nodup ∧
      ∀ x, x ∈ t.VisitAscend pivot (logVisitor (fun _ => true)) [] ↔
        (x ∈ t.root.toList ∧ 0 ≤ t.compare x pivot) := by
  have e : t.VisitAscend pivot (logVisitor (fun _ => true)) []
      = t.root.toList.filter (fun x => t.compare pivot x ≤ 0) := by
    rw [visitAscend_log_true, ascendSeq_eq_filter t hc t.root h]
  have hp : (t.VisitAscend pivot (logVisitor (fun _ => true)) []).Pairwise
      (fun a b => t.compare a b < 0) := by
    rw [e]
    exact (ordered_pairwise hc t.root h).sublist (List.filter_sublist _)
  refine ⟨e, hp, ?_, ?_⟩
  · refine hp.imp ?_
    intro a b hab hEq
    subst hEq
    have := hc.refl a
    omega
  · intro x
    rw [e, List.mem_filter]
    have h1 := hc.antisymm x pivot
    have h2 := hc.antisymm pivot x
    simp only [decide_eq_true_eq]
    constructor
    · rintro ⟨hx, hle⟩
      exact ⟨hx, by omega⟩
    · rintro ⟨hx, hle⟩
      exact ⟨hx, by omega⟩

theorem visitAscend_order_witness :
    sampleTreap.OrderInv ∧
      (sampleTreap.VisitAscend 5 (logVisitor (fun _ => true)) []
        = sampleTreap.root.toList.filter (fun x => sampleTreap.compare 5 x ≤ 0) ∧
      (sampleTreap.VisitAscend 5 (logVisitor (fun _ => true)) []).Pairwise
        (fun a b => sampleTreap.compare a b < 0) ∧
      (sampleTreap.VisitAscend 5 (logVisitor (fun _ => true)) []).Nodup ∧
      ∀ x, x ∈ sampleTreap.VisitAscend 5 (logVisitor (fun _ => true)) [] ↔
        (x ∈ sampleTreap.root.toList ∧ 0 ≤ sampleTreap.compare x 5)) :=
  ⟨by simp [Treap.OrderInv, sampleTreap, node.Ordered, node.toList, intCompare],
    visitAscend_order sampleTreap intCompare_totalOrder
      (by simp [Treap.OrderInv, sampleTreap, node.Ordered, node.toList, intCompare]) 5⟩

/-- C5. Iterator/visitor equivalence: for a treap of any tree shape and any
pivot, the first `k` items pulled by `Next` from `Iterator(pivot)` are the
first `k` items `VisitAscend(pivot, visitor)` passes to a visitor that always
returns true, for every `k`; pulling as many items as were pushed gives the
whole pushed sequence, and the call of `Next` after those reports false. -/
theorem iterator_visitor_equiv {α : Type} (t : Treap α) (pivot : α) :
    (∀ k, (t.Iterator pivot).pull k
        = (t.VisitAscend pivot (logVisitor (fun _ => true)) []).take k) ∧
      (t.Iterator pivot).pull (t.VisitAscend pivot (logVisitor (fun _ => true)) []).length
        = t.VisitAscend pivot (logVisitor (fun _ => true)) [] ∧
      (((t.Iterator pivot).after
        (t.VisitAscend pivot (logVisitor (fun _ => true)) []).length).Next).1
        = (none, false) := by
  rw [visitAscend_log_true]
  have hit : t.Iterator pivot
      = (Iterator.mk t pivot ([] ++ [stackNode.mk t.root false])) := rfl
  have main : (∀ k, (t.Iterator pivot).pull k = (ascendSeq t.compare pivot t.root).take k) ∧
      (((t.Iterator pivot).after (ascendSeq t.compare pivot t.root).length).Next).1
        = (none, false) := by
    rw [hit]
    cases hroot : t.root with
    | nil =>
      have hn : Iterator.Next (Iterator.mk t pivot [stackNode.mk .nil false])
          = ((none, false), Iterator.mk t pivot []) := Next_nil_top t pivot [] false
      constructor
      · intro k
        cases k with
        | zero => simp [Iterator.pull]
        | succ k => simp [Iterator.pull, hn, ascendSeq]
      · simp [ascendSeq, Iterator.after, hn]
    | mk i p l r =>
      have hs : ∀ sn ∈ ([] ++ [stackNode.mk (node.mk i p l r) false] : List (stackNode α)),
          sn.n.isNil = false := by
        intro sn hsn
        simp only [List.nil_append, List.mem_singleton] at hsn
        subst hsn
        rfl
      have hp : pendingOf t.compare pivot
          ([] ++ [stackNode.mk (node.mk i p l r) false])
          = ascendSeq t.compare pivot (node.mk i p l r) := by
        simp [pendingOf, stackNode.pending]
      constructor
      · intro k
        rw [pull_eq_take t pivot k _ hs, hp]
      · obtain ⟨s2, q1, q2, q3⟩ := after_spec t pivot
          (ascendSeq t.compare pivot (node.mk i p l r)).length _ hs
        rw [q1, (Next_spec t pivot _ s2 (le_refl _) q2).1, q3, hp]
        simp [nextResult]
  refine ⟨main.1, ?_, main.2⟩
  rw [main.1, List.take_length]

/-- C6. Extremes, with the nil Item a value an item can take: on a treap that
satisfies the order invariant (under a total-order comparator) `Min` returns
the first and `Max` the last item of the in-order sequence when the treap has
items, and that item compares less (greater) than every other item; both
return nil when the treap has no items; and when the nil Item is not stored
in the treap, each returns nil exactly when the treap has no items. -/
theorem min_max_items {α : Type} (t : Treap α) (hc : TotalOrder t.compare)
    (h : t.OrderInv) (nilItem : α) :
    t.MinItem nilItem = t.root.toList.head?.getD nilItem ∧
      t.MaxItem nilItem = t.root.toList.getLast?.getD nilItem ∧
      (t.root.toList ≠ [] → t.MinItem nilItem ∈ t.root.toList ∧
        ∀ x ∈ t.root.toList, x = t.MinItem nilItem ∨ t.compare (t.MinItem nilItem) x < 0) ∧
      (t.root.toList ≠ [] → t.MaxItem nilItem ∈ t.root.toList ∧
        ∀ x ∈ t.root.toList, x = t.MaxItem nilItem ∨ t.compare x (t.MaxItem nilItem) < 0) ∧
      (t.root.toList = [] → t.MinItem nilItem = nilItem ∧ t.MaxItem nilItem = nilItem) ∧
      (nilItem ∉ t.root.toList →
        (t.MinItem nilItem = nilItem ↔ t.root.toList = []) ∧
        (t.MaxItem nilItem = nilItem ↔ t.root.toList = [])) := by
  obtain ⟨hmin, hmax, hlo, hhi, hmn, hxn⟩ := min_max_found t hc h
  rw [minItem_eq, maxItem_eq]
  refine ⟨by rw [hmin], by rw [hmax], ?_, ?_, ?_, ?_⟩
  · intro hne
    cases hm : t.Min with
    | none => exact absurd (hmn.1 hm) hne
    | some m => exact hlo m hm
  · intro hne
    cases hm : t.Max with
    | none => exact absurd (hxn.1 hm) hne
    | some m => exact hhi m hm
  · intro he
    rw [hmn.2 he, hxn.2 he]
    exact ⟨rfl, rfl⟩
  · intro hnot
    refine ⟨⟨?_, ?_⟩, ⟨?_, ?_⟩⟩
    · intro hm
      cases hq : t.Min with
      | none => exact hmn.1 hq
      | some m =>
        rw [hq] at hm
        have e : m = nilItem := hm
        exact absurd (e ▸ (hlo m hq).1) hnot
    · intro he
      rw [hmn.2 he]
      rfl
    · intro hm
      cases hq : t.Max with
      | none => exact hxn.1 hq
      | some m =>
        rw [hq] at hm
        have e : m = nilItem := hm
        exact absurd (e ▸ (hhi m hq).1) hnot
    · intro he
      rw [hxn.2 he]
      rfl

theorem min_max_items_witness :
    (TotalOrder optTreap.compare ∧ optTreap.OrderInv) ∧
      (optTreap.MinItem none = optTreap.root.toList.head?.getD none ∧
      optTreap.MaxItem none = optTreap.root.toList.getLast?.getD none ∧
      (optTreap.root.toList ≠ [] → optTreap.MinItem none ∈ optTreap.root.toList ∧
        ∀ x ∈ optTreap.root.toList,
          x = optTreap.MinItem none ∨ optTreap.compare (optTreap.MinItem none) x < 0) ∧
      (optTreap.root.toList ≠ [] → optTreap.MaxItem none ∈ optTreap.root.toList ∧
        ∀ x ∈ optTreap.root.toList,
          x = optTreap.MaxItem none ∨ optTreap.compare x (optTreap.MaxItem none) < 0) ∧
      (optTreap.root.toList = [] →
        optTreap.MinItem none = none ∧ optTreap.MaxItem none = none) ∧
      (none ∉ optTreap.root.toList →
        (optTreap.MinItem none = none ↔ optTreap.root.toList = []) ∧
        (optTreap.MaxItem none = none ↔ optTreap.root.toList = []))) :=
  ⟨⟨optCompare_totalOrder,
      by simp [Treap.OrderInv, optTreap, node.Ordered, node.toList, optCompare]⟩,
    min_max_items optTreap optCompare_totalOrder
      (by simp [Treap.OrderInv, optTreap, node.Ordered, node.toList, optCompare]) none⟩

/-- The treap after `Upsert(nil, 1)` on the empty treap satisfies the order
invariant and holds one item, the nil Item; `Min` and `Max` return that item,
which is nil, so neither "returns nil exactly when the treap has no items". -/
theorem min_max_nil_item_counterexample :
    TotalOrder nilItemTreap.compare ∧ nilItemTreap.OrderInv ∧
      nilItemTreap.root.toList = [none] ∧
      nilItemTreap.MinItem none = none ∧ nilItemTreap.MaxItem none = none ∧
      ¬ (nilItemTreap.MinItem none = none ↔ nilItemTreap.root.toList = []) ∧
      ¬ (nilItemTreap.MaxItem none = none ↔ nilItemTreap.root.toList = []) := by
  have hr : nilItemTreap.root = node.mk none 1 node.nil node.nil := by
    simp [nilItemTreap, Treap.Upsert, Treap.union, NewTreap]
  have hl : nilItemTreap.root.toList = [none] := by
    rw [hr]
    simp [node.toList]
  have hmin : nilItemTreap.MinItem none = none := by
    simp [Treap.MinItem, hr, minLoop]
  have hmax : nilItemTreap.MaxItem none = none := by
    simp [Treap.MaxItem, hr, maxLoop]
  refine ⟨optCompare_totalOrder, ?_, hl, hmin, hmax, ?_, ?_⟩
  · simp [Treap.OrderInv, hr, node.Ordered, node.toList]
  · rw [hl, hmin]
    simp
  · rw [hl, hmax]
    simp

/-- C7. Priority retention asymmetry: on a treap that satisfies the order
and heap invariants and stores an item equal to `x` with priority `q`,
`Upsert x p` with `p < q` leaves the node of that key holding `x` with
priority `q`, and with `p >= q` holding `x` with priority `p`; in both cases
every other node keeps its item and priority. -/
theorem upsert_priority_asymmetry {α : Type} (t : Treap α) (hc : TotalOrder t.compare)
    (ho : t.OrderInv) (hh : t.HeapInv) (x y : α) (q p : Int)
    (hy : (y, q) ∈ t.root.entries) (hxy : t.compare x y = 0) :
    (p < q → (x, q) ∈ (t.Upsert x p).root.entries ∧
        (t.Upsert x p).root.entries =
          t.root.entries.map (fun e => if t.compare e.1 x = 0 then (x, q) else e)) ∧
      (q ≤ p → (x, p) ∈ (t.Upsert x p).root.entries ∧
        (t.Upsert x p).root.entries =
          t.root.entries.map (fun e => if t.compare e.1 x = 0 then (x, p) else e)) := by
  have key := union_singleton_entries t hc x p y q hxy t.root ho hh hy
  have hyx : t.compare y x = 0 := hc.eq_symm hxy
  constructor
  · intro hpq
    rw [if_pos hpq] at key
    refine ⟨?_, key⟩
    show (x, q) ∈ (t.union t.root (.mk x p .nil .nil)).entries
    rw [key]
    refine List.mem_map.mpr ⟨(y, q), hy, ?_⟩
    simp [hyx]
  · intro hqp
    rw [if_neg (by omega)] at key
    refine ⟨?_, key⟩
    show (x, p) ∈ (t.union t.root (.mk x p .nil .nil)).entries
    rw [key]
    refine List.mem_map.mpr ⟨(y, q), hy, ?_⟩
    simp [hyx]

theorem upsert_priority_asymmetry_witness :
    (sampleTreap.OrderInv ∧ sampleTreap.HeapInv ∧
        ((5 : Int), (20 : Int)) ∈ sampleTreap.root.entries) ∧
      (((4 : Int) < 20 → ((5 : Int), (20 : Int)) ∈ (sampleTreap.Upsert 5 4).root.entries ∧
        (sampleTreap.Upsert 5 4).root.entries =
          sampleTreap.root.entries.map
            (fun e => if sampleTreap.compare e.1 5 = 0 then (5, 20) else e)) ∧
      ((20 : Int) ≤ 4 → ((5 : Int), (4 : Int)) ∈ (sampleTreap.Upsert 5 4).root.entries ∧
        (sampleTreap.Upsert 5 4).root.entries =
          sampleTreap.root.entries.map
            (fun e => if sampleTreap.compare e.1 5 = 0 then (5, 4) else e))) :=
  ⟨⟨by simp [Treap.OrderInv, sampleTreap, node.Ordered, node.toList, intCompare],
      by simp [Treap.HeapInv, sampleTreap, node.Heap, node.prioLE],
      by simp [sampleTreap, node.entries]⟩,
    upsert_priority_asymmetry sampleTreap intCompare_totalOrder
      (by simp [Treap.OrderInv, sampleTreap, node.Ordered, node.toList, intCompare])
      (by simp [Treap.HeapInv, sampleTreap, node.Heap, node.prioLE]) 5 5 20 4
      (by simp [sampleTreap, node.entries]) (by simp [sampleTreap, intCompare])⟩

/-- C8. Priority is fixed at first insert: the code does not keep it.  After
the upserts 1/100, 2/200, 3/300 of `TestTreap` the treap is an ordered heap
that stores item 1 with priority 100; the update `Upsert 1 400` of the same
test stores it with priority 400. -/
theorem upsert_existing_raises_priority :
    ((((NewTreap intCompare).Upsert 1 100).Upsert 2 200).Upsert 3 300).root
        = .mk 3 300 (.mk 2 200 (.mk 1 100 .nil .nil) .nil) .nil ∧
      (((((NewTreap intCompare).Upsert 1 100).Upsert 2 200).Upsert 3 300).Upsert 1 400).root.entries
        = [(1, 400), (2, 200), (3, 300)] := by
  simp [NewTreap, Treap.Upsert, Treap.union, Treap.split, node.entries, intCompare]

/-- C9. The heap invariant is an invariant of the container: the empty treap
satisfies it, and on a treap in which every node's priority is greater than
or equal to that of each of its direct children, `Upsert` (any item, any
priority, key new or present) and `Delete` return a treap with the same
property.  Nothing is assumed of the comparator. -/
theorem heap_invariant_preserved {α : Type} (c : α → α → Int) (t : Treap α)
    (h : t.HeapInv) (item : α) (priority : Int) (key : α) :
    (NewTreap c).HeapInv ∧ (t.Upsert item priority).HeapInv ∧
      (t.Delete key).HeapInv := by
  refine ⟨trivial, ?_, ?_⟩
  · exact (union_heap t t.root (.mk item priority .nil .nil) h
      ⟨trivial, trivial, trivial, trivial⟩).1
  · obtain ⟨⟨s1, s2⟩, _⟩ := split_heap t t.root key h
    exact (join_heap t _ _ s1 s2).1

theorem heap_invariant_preserved_witness :
    sampleTreap.HeapInv ∧ (NewTreap intCompare).HeapInv ∧
      (sampleTreap.Upsert 5 40).HeapInv ∧ (sampleTreap.Delete 5).HeapInv :=
  ⟨by simp [Treap.HeapInv, sampleTreap, node.Heap, node.prioLE],
    heap_invariant_preserved intCompare sampleTreap
      (by simp [Treap.HeapInv, sampleTreap, node.Heap, node.prioLE]) 5 40 5⟩

/-- C10. Deleting an absent key is a no-op on the item set, absent meaning
that `Get` finds nothing: on a treap that satisfies the order invariant
(under a total-order comparator), when `Get k` returns nil and no item of the
treap that compares equal to `k` is the nil Item, `Delete k` has the same
in-order item sequence, and `Get`, `Min`, `Max` and `VisitAscend` (any pivot,
any visitor) return the same results on both. -/
theorem delete_absent_noop_items {α : Type} (t : Treap α) (hc : TotalOrder t.compare)
    (h : t.OrderInv) (nilItem k : α) (hk : t.GetItem nilItem k = nilItem)
    (hnil : ∀ y ∈ t.root.toList, t.compare k y = 0 → y ≠ nilItem) :
    (t.Delete k).root.toList = t.root.toList ∧
      (∀ q, (t.Delete k).GetItem nilItem q = t.GetItem nilItem q) ∧
      (t.Delete k).MinItem nilItem = t.MinItem nilItem ∧
      (t.Delete k).MaxItem nilItem = t.MaxItem nilItem ∧
      ∀ (σ : Type) (pivot : α) (visitor : σ → α → Bool × σ) (st : σ),
        (t.Delete k).VisitAscend pivot visitor st = t.VisitAscend pivot visitor st := by
  have hg : t.Get k = none := by
    cases hq : t.Get k with
    | none => rfl
    | some y =>
      have hy := (getLoop_eq_some_iff hc t.root h k y).mp hq
      rw [getItem_eq, hq] at hk
      exact absurd hk (hnil y hy.1 hy.2)
  obtain ⟨e, hget, hmin, hmax, hv⟩ := delete_not_found_noop t hc h k hg
  refine ⟨e, ?_, ?_, ?_, hv⟩
  · intro q
    rw [getItem_eq, getItem_eq, hget q]
  · rw [minItem_eq, minItem_eq, hmin]
  · rw [maxItem_eq, maxItem_eq, hmax]

theorem delete_absent_noop_items_witness :
    (TotalOrder optTreap.compare ∧ optTreap.OrderInv ∧
        optTreap.GetItem none (some 7) = none ∧
        ∀ y ∈ optTreap.root.toList, optTreap.compare (some 7) y = 0 → y ≠ none) ∧
      ((optTreap.Delete (some 7)).root.toList = optTreap.root.toList ∧
      (∀ q, (optTreap.Delete (some 7)).GetItem none q = optTreap.GetItem none q) ∧
      (optTreap.Delete (some 7)).MinItem none = optTreap.MinItem none ∧
      (optTreap.Delete (some 7)).MaxItem none = optTreap.MaxItem none ∧
      ∀ (σ : Type) (pivot : Option Int) (visitor : σ → Option Int → Bool × σ) (st : σ),
        (optTreap.Delete (some 7)).VisitAscend pivot visitor st
          = optTreap.VisitAscend pivot visitor st) :=
  ⟨⟨optCompare_totalOrder,
      by simp [Treap.OrderInv, optTreap, node.Ordered, node.toList, optCompare],
      by simp [Treap.GetItem, getItemLoop, optTreap, optCompare, intCompare],
      by simp [optTreap, node.toList, optCompare, intCompare]⟩,
    delete_absent_noop_items optTreap optCompare_totalOrder
      (by simp [Treap.OrderInv, optTreap, node.Ordered, node.toList, optCompare]) none (some 7)
      (by simp [Treap.GetItem, getItemLoop, optTreap, optCompare, intCompare])
      (by simp [optTreap, node.toList, optCompare, intCompare])⟩

/-- On the treap after `Upsert(nil, 1)` on the empty treap, which satisfies
the order invariant, `Get(nil)` returns nil, yet `Delete(nil)` removes the
one item: the in-order item sequence goes from the nil Item alone to no item,
and `VisitAscend` from the nil Item calls the visitor once before and not at
all after. -/
theorem delete_nil_item_counterexample :
    TotalOrder nilItemTreap.compare ∧ nilItemTreap.OrderInv ∧
      nilItemTreap.GetItem none none = none ∧
      nilItemTreap.root.toList = [none] ∧
      (nilItemTreap.Delete none).root.toList = [] ∧
      (nilItemTreap.Delete none).root.toList ≠ nilItemTreap.root.toList ∧
      nilItemTreap.VisitAscend none (logVisitor (fun _ => true)) [] = [none] ∧
      (nilItemTreap.Delete none).VisitAscend none (logVisitor (fun _ => true)) [] = [] := by
  have hr : nilItemTreap.root = node.mk none 1 node.nil node.nil := by
    simp [nilItemTreap, Treap.Upsert, Treap.union, NewTreap]
  have hcmp : nilItemTreap.compare = optCompare := rfl
  have hl : nilItemTreap.root.toList = [none] := by
    rw [hr]
    simp [node.toList]
  have hd : (nilItemTreap.Delete none).root = node.nil := by
    simp [Treap.Delete, Treap.split, Treap.join, hr, hcmp, optCompare]
  have hdl : (nilItemTreap.Delete none).root.toList = [] := by
    rw [hd]
    rfl
  refine ⟨optCompare_totalOrder, ?_, ?_, hl, hdl, ?_, ?_, ?_⟩
  · simp [Treap.OrderInv, hr, node.Ordered, node.toList]
  · simp [Treap.GetItem, getItemLoop, hr, hcmp, optCompare]
  · rw [hl, hdl]
    simp
  · simp [Treap.VisitAscend, Treap.visitAscend, hr, hcmp, optCompare, logVisitor]
  · simp [Treap.VisitAscend, Treap.visitAscend, hd]

/-- C11. Early stop of the push traversal: for every treap, pivot and
visitor predicate `f`, the items `VisitAscend` passes to the visitor are the
prefix of the never-stopping sequence that ends with the first item on which
`f` answers false (every item before the last seen has `f` true), and the
whole sequence when `f` never answers false. -/
theorem visitAscend_early_stop {α : Type} (t : Treap α) (pivot : α) (f : α → Bool) :
    t.VisitAscend pivot (logVisitor f) []
        = (t.VisitAscend pivot (logVisitor (fun _ => true)) []).takeWhile f ++
          ((t.VisitAscend pivot (logVisitor (fun _ => true)) []).dropWhile f).head?.toList ∧
      t.VisitAscend pivot (logVisitor f) []
        <+: t.VisitAscend pivot (logVisitor (fun _ => true)) [] ∧
      (∀ x ∈ (t.VisitAscend pivot (logVisitor f) []).dropLast, f x = true) ∧
      ((∀ x ∈ t.VisitAscend pivot (logVisitor (fun _ => true)) [], f x = true) →
        t.VisitAscend pivot (logVisitor f) []
          = t.VisitAscend pivot (logVisitor (fun _ => true)) []) ∧
      ((∃ x ∈ t.VisitAscend pivot (logVisitor (fun _ => true)) [], f x = false) →
        ∃ y, (t.VisitAscend pivot (logVisitor f) []).getLast? = some y ∧ f y = false) := by
  have e : t.VisitAscend pivot (logVisitor f) []
      = stopAfter f (ascendSeq t.compare pivot t.root) := by
    simp [Treap.VisitAscend, visitAscend_eq_runVisitor, runVisitor_log]
  rw [visitAscend_log_true, e]
  exact stopAfter_spec f _

/-- C12. Version isolation, over the memory of node structs: when the memory
holds the tree `n` at the root pointer of `t`, `Upsert` and `Delete` return
(within a call depth of the node count plus two) a memory in which every
node struct that existed before has the same fields, the root of `t` still
holds the tree `n` and no other, so that every query on `t` (a function of
that tree: `Get`, `Min`, `Max`, `VisitAscend`, `Iterator`) returns what it
returned before; and the new root holds the tree the value model computes. -/
theorem version_isolation {α : Type} (t : TreapM α) (h : Store α) (n : node α)
    (hrep : Rep h t.root n) (item : α) (priority : Int) (key : α) (fuel : Nat)
    (hf : n.size + 1 < fuel) :
    (∃ h1 t1, t.Upsert fuel h item priority = some (h1, t1) ∧
        (∀ (a : Nat) (c : cell α), h[a]? = some c → h1[a]? = some c) ∧
        Rep h1 t.root n ∧ (∀ m, Rep h1 t.root m → t.toTreap m = t.toTreap n) ∧
        Rep h1 t1.root ((t.toTreap n).Upsert item priority).root) ∧
      (∃ h2 t2, t.Delete fuel h key = some (h2, t2) ∧
        (∀ (a : Nat) (c : cell α), h[a]? = some c → h2[a]? = some c) ∧
        Rep h2 t.root n ∧ (∀ m, Rep h2 t.root m → t.toTreap m = t.toTreap n) ∧
        Rep h2 t2.root ((t.toTreap n).Delete key).root) := by
  constructor
  · obtain ⟨h1, t1, e, hpre, r1⟩ := UpsertM_spec t h n hrep item priority fuel hf
    have hr := Rep_mono hpre _ _ hrep
    exact ⟨h1, t1, e, fun a c hc => prefix_lookup hpre hc, hr,
      fun m hm => by rw [Rep_unique h1 n _ m hr hm], r1⟩
  · obtain ⟨h2, t2, e, hpre, r1⟩ := DeleteM_spec t h n hrep key fuel hf
    have hr := Rep_mono hpre _ _ hrep
    exact ⟨h2, t2, e, fun a c hc => prefix_lookup hpre hc, hr,
      fun m hm => by rw [Rep_unique h2 n _ m hr hm], r1⟩

theorem version_isolation_witness :
    (Rep sampleStore sampleTreapM.root sampleTreap.root ∧ sampleTreap.root.size + 1 < 5) ∧
      ((∃ h1 t1, sampleTreapM.Upsert 5 sampleStore 7 40 = some (h1, t1) ∧
        (∀ (a : Nat) (c : cell Int), sampleStore[a]? = some c → h1[a]? = some c) ∧
        Rep h1 sampleTreapM.root sampleTreap.root ∧
        (∀ m, Rep h1 sampleTreapM.root m →
          sampleTreapM.toTreap m = sampleTreapM.toTreap sampleTreap.root) ∧
        Rep h1 t1.root ((sampleTreapM.toTreap sampleTreap.root).Upsert 7 40).root) ∧
      (∃ h2 t2, sampleTreapM.Delete 5 sampleStore 5 = some (h2, t2) ∧
        (∀ (a : Nat) (c : cell Int), sampleStore[a]? = some c → h2[a]? = some c) ∧
        Rep h2 sampleTreapM.root sampleTreap.root ∧
        (∀ m, Rep h2 sampleTreapM.root m →
          sampleTreapM.toTreap m = sampleTreapM.toTreap sampleTreap.root) ∧
        Rep h2 t2.root ((sampleTreapM.toTreap sampleTreap.root).Delete 5).root)) :=
  ⟨⟨by simp [Rep, sampleStore, sampleTreapM, sampleTreap],
      by simp [sampleTreap, node.size]⟩,
    version_isolation sampleTreapM sampleStore sampleTreap.root
      (by simp [Rep, sampleStore, sampleTreapM, sampleTreap]) 7 40 5 5
      (by simp [sampleTreap, node.size])⟩

/-- C13. End of iteration is sticky: on any treap, once a call of `Next` on
an iterator state reached from `Iterator(pivot)` has reported false, every
later call returns (empty, false); on an empty treap the first and all later
calls do. -/
theorem next_end_sticky {α : Type} (t : Treap α) (pivot : α) (k : Nat)
    (h : (((t.Iterator pivot).after k).Next).1.2 = false) :
    (∀ j, (((t.Iterator pivot).after (k + 1 + j)).Next).1 = (none, false)) ∧
      ∀ (c : α → α → Int) (j : Nat),
        ((((NewTreap c).Iterator pivot).after j).Next).1 = (none, false) := by
  have hit : ∀ u : Treap α, u.Iterator pivot
      = Iterator.mk u pivot ([] ++ [stackNode.mk u.root false]) := fun _ => rfl
  constructor
  · intro j
    rw [hit] at h ⊢
    cases hroot : t.root with
    | nil => exact (after_nil_root t pivot (k + 1 + j)).1
    | mk i p l r =>
      rw [hroot] at h
      have hs : ∀ sn ∈ ([] ++ [stackNode.mk (node.mk i p l r) false] : List (stackNode α)),
          sn.n.isNil = false := by
        intro sn hsn
        simp only [List.nil_append, List.mem_singleton] at hsn
        subst hsn
        rfl
      obtain ⟨s2, q1, q2, q3⟩ := after_spec t pivot k _ hs
      obtain ⟨s3, u1, u2, u3⟩ := after_spec t pivot (k + 1 + j) _ hs
      rw [q1, (Next_spec t pivot _ s2 (le_refl _) q2).1, q3] at h
      have hd := nextResult_false _ h
      rw [u1, (Next_spec t pivot _ s3 (le_refl _) u2).1, u3]
      have : List.drop (k + 1 + j)
          (pendingOf t.compare pivot ([] ++ [stackNode.mk (node.mk i p l r) false])) = [] := by
        rw [List.drop_eq_nil_iff] at hd ⊢
        omega
      rw [this]
      rfl
  · intro c j
    rw [hit]
    exact (after_nil_root (NewTreap c) pivot j).1

theorem next_end_sticky_witness :
    (((sampleTreap.Iterator 7).after 0).Next).1.2 = false ∧
      ((∀ j, (((sampleTreap.Iterator 7).after (0 + 1 + j)).Next).1 = (none, false)) ∧
      ∀ (c : Int → Int → Int) (j : Nat),
        ((((NewTreap c).Iterator 7).after j).Next).1 = (none, false)) :=
  ⟨by simp [Treap.Iterator, newIterator, Iterator.pushStack, Iterator.after, sampleTreap,
      Next_unvisited_single, pushRight, node.isNil, Next_empty, intCompare],
    next_end_sticky sampleTreap 7 0
      (by simp [Treap.Iterator, newIterator, Iterator.pushStack, Iterator.after, sampleTreap,
        Next_unvisited_single, pushRight, node.isNil, Next_empty, intCompare])⟩

/-- C14. A Delete followed by an Upsert sets the priority: on a treap that
satisfies the order invariant (under a total-order comparator), an Upsert of
a key absent from the treap stores it with the supplied priority, between
the entries below and above it; so in `Upsert(Delete(t, x), x, p)` the one
node whose item equals `x` holds `x` with priority `p`, whatever priority
`x` had in `t`, and the other entries are those of `t`. -/
theorem upsert_absent_priority {α : Type} (t : Treap α) (hc : TotalOrder t.compare)
    (ho : t.OrderInv) (x : α) (p : Int) :
    ((∀ y ∈ t.root.toList, t.compare x y ≠ 0) →
        (t.Upsert x p).root.entries =
          t.root.entries.filter (fun e => t.compare e.1 x < 0) ++
            (x, p) :: t.root.entries.filter (fun e => t.compare x e.1 < 0)) ∧
      ((t.Delete x).Upsert x p).root.entries =
        t.root.entries.filter (fun e => t.compare e.1 x < 0) ++
          (x, p) :: t.root.entries.filter (fun e => t.compare x e.1 < 0) ∧
      (x, p) ∈ ((t.Delete x).Upsert x p).root.entries ∧
      ∀ e ∈ ((t.Delete x).Upsert x p).root.entries, t.compare e.1 x = 0 → e = (x, p) := by
  have hD := delete_ordered t hc ho x
  have hDabs : ∀ y ∈ (t.Delete x).root.toList, t.compare x y ≠ 0 := by
    intro y hy
    rw [delete_toList_filter t hc ho x] at hy
    have h1 := (List.mem_filter.mp hy).2
    simp only [ne_eq, decide_not, Bool.not_eq_eq_eq_not, Bool.not_true,
      decide_eq_false_iff_not] at h1
    exact fun h => h1 (hc.eq_symm h)
  have key : ((t.Delete x).Upsert x p).root.entries =
      t.root.entries.filter (fun e => t.compare e.1 x < 0) ++
        (x, p) :: t.root.entries.filter (fun e => t.compare x e.1 < 0) := by
    have h1 := union_singleton_absent (t.Delete x) hc x p (t.Delete x).root hD hDabs
    have h2 := delete_entries t hc ho x
    show ((t.Delete x).union (t.Delete x).root (.mk x p .nil .nil)).entries = _
    rw [h1, h2]
    show List.filter (fun e => decide (t.compare e.1 x < 0)) _ ++
      (x, p) :: List.filter (fun e => decide (t.compare x e.1 < 0)) _ = _
    simp only [List.filter_append, List.filter_filter]
    have f1 : ∀ e : α × Int, (decide (t.compare e.1 x < 0) && decide (t.compare x e.1 < 0))
        = false := by
      intro e
      have := hc.antisymm e.1 x
      by_cases h : t.compare e.1 x < 0 <;> simp [h] <;> omega
    have f2 : ∀ e : α × Int, (decide (t.compare x e.1 < 0) && decide (t.compare e.1 x < 0))
        = false := by
      intro e
      rw [Bool.and_comm]
      exact f1 e
    simp [f1, f2]
  refine ⟨fun hab => union_singleton_absent t hc x p t.root ho hab, key, ?_, ?_⟩
  · rw [key]
    simp
  · intro e he hex
    rw [key] at he
    simp only [List.mem_append, List.mem_cons, List.mem_filter, decide_eq_true_eq] at he
    rcases he with ⟨_, h1⟩ | rfl | ⟨_, h1⟩
    · omega
    · rfl
    · have := hc.eq_symm hex
      omega

theorem upsert_absent_priority_witness :
    sampleTreap.OrderInv ∧
      (((∀ y ∈ sampleTreap.root.toList, sampleTreap.compare 5 y ≠ 0) →
        (sampleTreap.Upsert 5 3).root.entries =
          sampleTreap.root.entries.filter (fun e => sampleTreap.compare e.1 5 < 0) ++
            (5, 3) :: sampleTreap.root.entries.filter (fun e => sampleTreap.compare 5 e.1 < 0)) ∧
      ((sampleTreap.Delete 5).Upsert 5 3).root.entries =
        sampleTreap.root.entries.filter (fun e => sampleTreap.compare e.1 5 < 0) ++
          (5, 3) :: sampleTreap.root.entries.filter (fun e => sampleTreap.compare 5 e.1 < 0) ∧
      ((5 : Int), (3 : Int)) ∈ ((sampleTreap.Delete 5).Upsert 5 3).root.entries ∧
      ∀ e ∈ ((sampleTreap.Delete 5).Upsert 5 3).root.entries,
        sampleTreap.compare e.1 5 = 0 → e = (5, 3)) :=
  ⟨by simp [Treap.OrderInv, sampleTreap, node.Ordered, node.toList, intCompare],
    upsert_absent_priority sampleTreap intCompare_totalOrder
      (by simp [Treap.OrderInv, sampleTreap, node.Ordered, node.toList, intCompare]) 5 3⟩

/-- C15. Split contract: on a tree that satisfies the order invariant (under
a total-order comparator) `split n s` returns `(left, middle, right)` where
`left` holds exactly the items below `s`, `right` exactly the items above
`s`, `middle` is the node of `n` whose item equals `s` when there is one and
nil otherwise; `left` and `right` satisfy the order invariant, and the
in-order sequence of `n` is that of `left`, the middle item, that of `right`. -/
theorem split_contract {α : Type} (t : Treap α) (hc : TotalOrder t.compare)
    (n : node α) (h : n.Ordered t.compare) (s : α) :
    (t.split n s).1.toList = n.toList.filter (fun x => t.compare x s < 0) ∧
      (t.split n s).2.2.toList = n.toList.filter (fun x => t.compare x s > 0) ∧
      ((t.split n s).2.1 = .nil ∨ (t.split n s).2.1 ∈ n.subtrees) ∧
      (∀ m, (t.split n s).2.1.item? = some m ↔ (m ∈ n.toList ∧ t.compare s m = 0)) ∧
      ((t.split n s).2.1 = .nil ↔ ∀ y ∈ n.toList, t.compare s y ≠ 0) ∧
      (t.split n s).1.Ordered t.compare ∧ (t.split n s).2.2.Ordered t.compare ∧
      n.toList = (t.split n s).1.toList ++ (t.split n s).2.1.item?.toList ++
        (t.split n s).2.2.toList := by
  obtain ⟨e1, e2⟩ := split_entries_filter t hc n h s
  refine ⟨?_, ?_, split_middle_subtree t n s, ?_, ?_, split_left_ordered t hc n h s,
    split_right_ordered t hc n h s, split_toList t n s⟩
  · rw [node.toList_eq_map_entries, node.toList_eq_map_entries, e1, List.filter_map]
    rfl
  · rw [node.toList_eq_map_entries, node.toList_eq_map_entries, e2, List.filter_map]
    congr 1
    apply List.filter_congr
    intro e _
    have := hc.antisymm s e.1
    simp only [Function.comp, gt_iff_lt, decide_eq_decide]
    exact this
  · intro m
    rw [split_middle_item, getLoop_eq_some_iff hc n h]
  · have hi : (t.split n s).2.1 = .nil ↔ (t.split n s).2.1.item? = none := by
      cases (t.split n s).2.1 <;> simp [node.item?]
    rw [hi, split_middle_item, getLoop_eq_none_iff hc n h]

theorem split_contract_witness :
    sampleTreap.root.Ordered sampleTreap.compare ∧
      ((sampleTreap.split sampleTreap.root 5).1.toList
        = sampleTreap.root.toList.filter (fun x => sampleTreap.compare x 5 < 0) ∧
      (sampleTreap.split sampleTreap.root 5).2.2.toList
        = sampleTreap.root.toList.filter (fun x => sampleTreap.compare x 5 > 0) ∧
      ((sampleTreap.split sampleTreap.root 5).2.1 = .nil ∨
        (sampleTreap.split sampleTreap.root 5).2.1 ∈ sampleTreap.root.subtrees) ∧
      (∀ m, (sampleTreap.split sampleTreap.root 5).2.1.item? = some m ↔
        (m ∈ sampleTreap.root.toList ∧ sampleTreap.compare 5 m = 0)) ∧
      ((sampleTreap.split sampleTreap.root 5).2.1 = .nil ↔
        ∀ y ∈ sampleTreap.root.toList, sampleTreap.compare 5 y ≠ 0) ∧
      (sampleTreap.split sampleTreap.root 5).1.Ordered sampleTreap.compare ∧
      (sampleTreap.split sampleTreap.root 5).2.2.Ordered sampleTreap.compare ∧
      sampleTreap.root.toList = (sampleTreap.split sampleTreap.root 5).1.toList ++
        (sampleTreap.split sampleTreap.root 5).2.1.item?.toList ++
        (sampleTreap.split sampleTreap.root 5).2.2.toList) :=
  ⟨by simp [sampleTreap, node.Ordered, node.toList, intCompare],
    split_contract sampleTreap intCompare_totalOrder sampleTreap.root
      (by simp [sampleTreap, node.Ordered, node.toList, intCompare]) 5⟩

/-- C16. Union gives precedence to its second argument: for any two trees
`a` and `b` that satisfy the order invariant (under a total-order
comparator; `b` any tree, not only a single node), `union a b` satisfies the
order invariant and for every key holds the item of `b` when `b` has one,
otherwise the item of `a` when `a` has one, otherwise none; and
`union nil b = b`, `union a nil = a`. -/
theorem union_precedence {α : Type} (t : Treap α) (hc : TotalOrder t.compare)
    (a b : node α) (ha : a.Ordered t.compare) (hb : b.Ordered t.compare) :
    (t.union a b).Ordered t.compare ∧
      (∀ k, getLoop t.compare k (t.union a b) =
        if (getLoop t.compare k b).isSome then getLoop t.compare k b
        else getLoop t.compare k a) ∧
      t.union .nil b = b ∧ t.union a .nil = a := by
  obtain ⟨hU, hmem⟩ := union_ordered_mem t hc a b ha hb
  refine ⟨hU, ?_, by simp [Treap.union], union_nil_right t a⟩
  intro k
  cases hkb : getLoop t.compare k b with
  | some y =>
    simp only [Option.isSome_some, if_true]
    obtain ⟨hy, hky⟩ := (getLoop_eq_some_iff hc b hb k y).mp hkb
    exact (getLoop_eq_some_iff hc _ hU k y).mpr ⟨(hmem y).mpr (Or.inl hy), hky⟩
  | none =>
    simp only [Option.isSome_none, Bool.false_eq_true, if_false]
    have hno := (getLoop_eq_none_iff hc b hb k).mp hkb
    apply Option.ext
    intro z
    simp only [Option.mem_def]
    rw [getLoop_eq_some_iff hc _ hU, getLoop_eq_some_iff hc a ha, hmem]
    constructor
    · rintro ⟨hz | ⟨hz, _⟩, hkz⟩
      · exact absurd hkz (hno z hz)
      · exact ⟨hz, hkz⟩
    · rintro ⟨hz, hkz⟩
      exact ⟨Or.inr ⟨hz, fun y hy hzy => hno y hy (hc.eq_trans hkz hzy)⟩, hkz⟩

theorem union_precedence_witness :
    (sampleTreap.root.Ordered intCompare ∧
        (node.mk (5 : Int) 7 (.mk 3 2 .nil .nil) .nil).Ordered intCompare) ∧
      ((sampleTreap.union sampleTreap.root (.mk 5 7 (.mk 3 2 .nil .nil) .nil)).Ordered
          sampleTreap.compare ∧
      (∀ k, getLoop sampleTreap.compare k
          (sampleTreap.union sampleTreap.root (.mk 5 7 (.mk 3 2 .nil .nil) .nil)) =
        if (getLoop sampleTreap.compare k (.mk 5 7 (.mk 3 2 .nil .nil) .nil)).isSome
        then getLoop sampleTreap.compare k (.mk 5 7 (.mk 3 2 .nil .nil) .nil)
        else getLoop sampleTreap.compare k sampleTreap.root) ∧
      sampleTreap.union .nil (.mk 5 7 (.mk 3 2 .nil .nil) .nil)
        = .mk 5 7 (.mk 3 2 .nil .nil) .nil ∧
      sampleTreap.union sampleTreap.root .nil = sampleTreap.root) :=
  ⟨⟨by simp [sampleTreap, node.Ordered, node.toList, intCompare],
      by simp [node.Ordered, node.toList, intCompare]⟩,
    union_precedence sampleTreap intCompare_totalOrder sampleTreap.root
      (.mk 5 7 (.mk 3 2 .nil .nil) .nil)
      (by simp [sampleTreap, node.Ordered, node.toList, intCompare])
      (by simp [sampleTreap, node.Ordered, node.toList, intCompare])⟩

/-- C17. Join postcondition: for any two non-empty trees the root of
`join this that` carries the item and priority of the root with the higher
priority, the root of `that` on a tie; the in-order sequence of
`join this that` is that of `this` followed by that of `that`; so when every
item of `this` compares less than every item of `that` and both satisfy the
order and heap invariants, the result satisfies both. -/
theorem join_postcondition {α : Type} (t : Treap α) (this that : node α) :
    (∀ i p l r i2 p2 l2 r2, this = .mk i p l r → that = .mk i2 p2 l2 r2 →
        (t.join this that).entry? = some (if p > p2 then (i, p) else (i2, p2))) ∧
      (t.join this that).toList = this.toList ++ that.toList ∧
      (t.join this that).entries = this.entries ++ that.entries ∧
      (TotalOrder t.compare → this.Ordered t.compare → that.Ordered t.compare →
        this.Heap → that.Heap →
        (∀ x ∈ this.toList, ∀ y ∈ that.toList, t.compare x y < 0) →
        (t.join this that).Ordered t.compare ∧ (t.join this that).Heap) := by
  refine ⟨?_, join_toList t this that, join_entries t this that, ?_⟩
  · intro i p l r i2 p2 l2 r2 h1 h2
    subst h1 h2
    rw [Treap.join]
    by_cases hp : p > p2
    · simp [hp, node.entry?]
    · simp [hp, node.entry?]
  · intro hc ho1 ho2 hh1 hh2 hlt
    exact ⟨join_ordered t hc this that ho1 ho2 hlt, (join_heap t this that hh1 hh2).1⟩

theorem join_postcondition_witness :
    (TotalOrder sampleTreap.compare ∧
        (node.mk (4 : Int) 18 .nil .nil).Ordered sampleTreap.compare ∧
        (node.mk (6 : Int) 19 .nil .nil).Ordered sampleTreap.compare ∧
        (node.mk (4 : Int) 18 .nil .nil).Heap ∧ (node.mk (6 : Int) 19 .nil .nil).Heap ∧
        (∀ x ∈ (node.mk (4 : Int) 18 .nil .nil).toList,
          ∀ y ∈ (node.mk (6 : Int) 19 .nil .nil).toList, sampleTreap.compare x y < 0)) ∧
      (sampleTreap.join (.mk 4 18 .nil .nil) (.mk 6 19 .nil .nil)).entry? = some (6, 19) ∧
      (sampleTreap.join (.mk 4 18 .nil .nil) (.mk 6 19 .nil .nil)).Ordered
        sampleTreap.compare ∧
      (sampleTreap.join (.mk 4 18 .nil .nil) (.mk 6 19 .nil .nil)).Heap :=
  ⟨⟨intCompare_totalOrder, by simp [node.Ordered, node.toList],
      by simp [node.Ordered, node.toList], by simp [node.Heap, node.prioLE],
      by simp [node.Heap, node.prioLE], by simp [node.toList, sampleTreap, intCompare]⟩,
    by simpa using
      (join_postcondition sampleTreap (.mk 4 18 .nil .nil) (.mk 6 19 .nil .nil)).1
        4 18 .nil .nil 6 19 .nil .nil rfl rfl,
    ((join_postcondition sampleTreap (.mk 4 18 .nil .nil) (.mk 6 19 .nil .nil)).2.2.2
      intCompare_totalOrder (by simp [node.Ordered, node.toList])
      (by simp [node.Ordered, node.toList]) (by simp [node.Heap, node.prioLE])
      (by simp [node.Heap, node.prioLE])
      (by simp [node.toList, sampleTreap, intCompare])).1,
    ((join_postcondition sampleTreap (.mk 4 18 .nil .nil) (.mk 6 19 .nil .nil)).2.2.2
      intCompare_totalOrder (by simp [node.Ordered, node.toList])
      (by simp [node.Ordered, node.toList]) (by simp [node.Heap, node.prioLE])
      (by simp [node.Heap, node.prioLE])
      (by simp [node.toList, sampleTreap, intCompare])).2⟩

/-- C18. Every operation terminates on every finite tree.  `split`, `join`
and `visitAscend` call themselves only on a child of an argument (their
defining equations); `split` returns parts whose node counts add up to at
most that of its input, so that each call `union` makes of itself is on
arguments with a strictly smaller total node count; and from every iterator
state the loop of `Iterator.Next` returns within `weight + 1` rounds, with the
result of `Next`. -/
theorem operations_terminate {α σ : Type} (t : Treap α) :
    (∀ i p l r s, t.split (.mk i p l r) s =
        if t.compare s i = 0 then (l, .mk i p l r, r)
        else if t.compare s i < 0 then
          ((t.split l s).1, (t.split l s).2.1, .mk i p (t.split l s).2.2 r)
        else (.mk i p l (t.split r s).1, (t.split r s).2.1, (t.split r s).2.2)) ∧
      (∀ i p l r i2 p2 l2 r2, t.join (.mk i p l r) (.mk i2 p2 l2 r2) =
        if p > p2 then .mk i p l (t.join r (.mk i2 p2 l2 r2))
        else .mk i2 p2 (t.join (.mk i p l r) l2) r2) ∧
      (∀ i p l r pivot (v : σ → α → Bool × σ) st,
        t.visitAscend (.mk i p l r) pivot v st =
          if t.compare pivot i ≤ 0 then
            if (t.visitAscend l pivot v st).1 = true then
              if (v (t.visitAscend l pivot v st).2 i).1 = true then
                t.visitAscend r pivot v (v (t.visitAscend l pivot v st).2 i).2
              else (false, (v (t.visitAscend l pivot v st).2 i).2)
            else (false, (t.visitAscend l pivot v st).2)
          else t.visitAscend r pivot v st) ∧
      (∀ n s, (t.split n s).1.size + (t.split n s).2.2.size ≤ n.size) ∧
      (∀ i p l r i2 p2 l2 r2,
        l.size + (t.split (.mk i2 p2 l2 r2) i).1.size
            < (node.mk i p l r).size + (node.mk i2 p2 l2 r2).size ∧
          r.size + (t.split (.mk i2 p2 l2 r2) i).2.2.size
            < (node.mk i p l r).size + (node.mk i2 p2 l2 r2).size ∧
          (t.split (.mk i p l r) i2).1.size + l2.size
            < (node.mk i p l r).size + (node.mk i2 p2 l2 r2).size ∧
          (t.split (.mk i p l r) i2).2.2.size + r2.size
            < (node.mk i p l r).size + (node.mk i2 p2 l2 r2).size) ∧
      (∀ i p l r i2 p2 l2 r2, t.union (.mk i p l r) (.mk i2 p2 l2 r2) =
        if p > p2 then
          .mk (((t.split (.mk i2 p2 l2 r2) i).2.1.item?).getD i) p
            (t.union l (t.split (.mk i2 p2 l2 r2) i).1)
            (t.union r (t.split (.mk i2 p2 l2 r2) i).2.2)
        else .mk i2 p2 (t.union (t.split (.mk i p l r) i2).1 l2)
          (t.union (t.split (.mk i p l r) i2).2.2 r2)) ∧
      (∀ it : Iterator α, Iterator.loop (it.weight + 1) it = some it.Next) := by
  refine ⟨?_, ?_, ?_, split_size t, ?_, ?_, fun it => loop_eq_Next _ it (by omega)⟩
  · intro i p l r s
    simp only [Treap.split]
  · intro i p l r i2 p2 l2 r2
    rw [Treap.join]
  · intro i p l r pivot v st
    simp only [Treap.visitAscend]
    by_cases hc : t.compare pivot i ≤ 0
    · simp only [hc, if_true]
      rcases hl : t.visitAscend l pivot v st with ⟨b, st1⟩
      cases b
      · simp
      · simp only [if_true]
        rcases hv : v st1 i with ⟨b2, st2⟩
        cases b2 <;> simp
    · simp only [hc, if_false]
  · intro i p l r i2 p2 l2 r2
    have h1 := split_size t (.mk i2 p2 l2 r2) i
    have h2 := split_size t (.mk i p l r) i2
    simp only [node.size] at h1 h2 ⊢
    omega
  · intro i p l r i2 p2 l2 r2
    rw [Treap.union]
    by_cases hp : p > p2
    · simp only [hp, if_true]
      cases (t.split (.mk i2 p2 l2 r2) i).2.1 <;> simp [node.item?]
    · simp only [hp, if_false]

/-- C19. Deleting an absent key restores the exact tree when priorities are
strict: on a tree in which every node's priority is strictly greater than
that of each of its children, for every key for which `split` finds no equal
item, the root of `Delete(t, k)` is equal to the root of `t`, in items,
priorities and shape. -/
theorem delete_absent_restores {α : Type} (t : Treap α) (h : t.root.StrictHeap) (k : α)
    (hk : (t.split t.root k).2.1 = .nil) : (t.Delete k).root = t.root :=
  join_split_absent t t.root k h hk

theorem delete_absent_restores_witness :
    (sampleTreap.root.StrictHeap ∧ (sampleTreap.split sampleTreap.root 7).2.1 = .nil) ∧
      (sampleTreap.Delete 7).root = sampleTreap.root :=
  ⟨⟨by simp [sampleTreap, node.StrictHeap, node.prioLT],
      by simp [sampleTreap, Treap.split, intCompare]⟩,
    delete_absent_restores sampleTreap
      (by simp [sampleTreap, node.StrictHeap, node.prioLT]) 7
      (by simp [sampleTreap, Treap.split, intCompare])⟩

/-- C20. Insertion order does not matter when priorities are distinct: on a
treap that satisfies the order and heap invariants, for two keys `a` and `b`
that differ and are absent from the treap, and priorities `pa`, `pb` such
that no two of `pa`, `pb` and the stored priorities are equal, upserting `a`
then `b` and upserting `b` then `a` give structurally equal treaps. -/
theorem upsert_commute {α : Type} (t : Treap α) (hc : TotalOrder t.compare)
    (ho : t.OrderInv) (hh : t.HeapInv) (a b : α) (pa pb : Int)
    (hab : t.compare a b ≠ 0)
    (ha : ∀ y ∈ t.root.toList, t.compare a y ≠ 0)
    (hb : ∀ y ∈ t.root.toList, t.compare b y ≠ 0)
    (hp : (pa :: pb :: t.root.entries.map Prod.snd).Nodup) :
    (t.Upsert a pa).Upsert b pb = (t.Upsert b pb).Upsert a pa := by
  have hba : t.compare b a ≠ 0 := fun h => hab (hc.eq_symm h)
  -- after the first upsert the other key is still absent
  have hb1 : ∀ y ∈ (t.Upsert a pa).root.toList, t.compare b y ≠ 0 := by
    intro y hy
    rcases (upsert_mem t hc ho a pa y).mp hy with rfl | ⟨hy, _⟩
    · exact hba
    · exact hb y hy
  have ha1 : ∀ y ∈ (t.Upsert b pb).root.toList, t.compare a y ≠ 0 := by
    intro y hy
    rcases (upsert_mem t hc ho b pb y).mp hy with rfl | ⟨hy, _⟩
    · exact hab
    · exact ha y hy
  have o1 := upsert_ordered t hc ho a pa
  have o2 := upsert_ordered t hc ho b pb
  have o12 := upsert_ordered (t.Upsert a pa) hc o1 b pb
  have o21 := upsert_ordered (t.Upsert b pb) hc o2 a pa
  have k1 : (t.Upsert a pa).HeapInv :=
    (union_heap t t.root (.mk a pa .nil .nil) hh ⟨trivial, trivial, trivial, trivial⟩).1
  have k2 : (t.Upsert b pb).HeapInv :=
    (union_heap t t.root (.mk b pb .nil .nil) hh ⟨trivial, trivial, trivial, trivial⟩).1
  have k12 : ((t.Upsert a pa).Upsert b pb).HeapInv :=
    (union_heap (t.Upsert a pa) _ (.mk b pb .nil .nil) k1
      ⟨trivial, trivial, trivial, trivial⟩).1
  have k21 : ((t.Upsert b pb).Upsert a pa).HeapInv :=
    (union_heap (t.Upsert b pb) _ (.mk a pa .nil .nil) k2
      ⟨trivial, trivial, trivial, trivial⟩).1
  -- both results hold the two new entries and the old ones
  have q12 : ((t.Upsert a pa).Upsert b pb).root.entries.Perm
      ((b, pb) :: (a, pa) :: t.root.entries) :=
    (upsert_absent_perm (t.Upsert a pa) hc o1 b pb hb1).trans
      ((upsert_absent_perm t hc ho a pa ha).cons _)
  have q21 : ((t.Upsert b pb).Upsert a pa).root.entries.Perm
      ((a, pa) :: (b, pb) :: t.root.entries) :=
    (upsert_absent_perm (t.Upsert b pb) hc o2 a pa ha1).trans
      ((upsert_absent_perm t hc ho b pb hb).cons _)
  have q : ((t.Upsert a pa).Upsert b pb).root.entries.Perm
      ((t.Upsert b pb).Upsert a pa).root.entries :=
    q12.trans ((List.Perm.swap _ _ _).trans q21.symm)
  have he : ((t.Upsert a pa).Upsert b pb).root.entries
      = ((t.Upsert b pb).Upsert a pa).root.entries := by
    apply sorted_ext (fun e1 e2 : α × Int => t.compare e1.1 e2.1 < 0)
    · intro e1 e2 h1 h2
      have := hc.antisymm e1.1 e2.1
      omega
    · exact entries_pairwise hc _ o12
    · exact entries_pairwise hc _ o21
    · exact fun x => q.mem_iff
  have hnd : (((t.Upsert a pa).Upsert b pb).root.entries.map Prod.snd).Nodup := by
    rw [(q12.map Prod.snd).nodup_iff]
    simp only [List.map_cons]
    exact (List.Perm.swap _ _ _).nodup_iff.mp hp
  have hroot := heap_unique _ _ k12 k21 hnd he
  exact congrArg (Treap.mk t.compare) hroot

theorem upsert_commute_witness :
    (sampleTreap.OrderInv ∧ sampleTreap.HeapInv ∧ sampleTreap.compare 1 9 ≠ 0 ∧
        (∀ y ∈ sampleTreap.root.toList, sampleTreap.compare 1 y ≠ 0) ∧
        (∀ y ∈ sampleTreap.root.toList, sampleTreap.compare 9 y ≠ 0) ∧
        ((7 : Int) :: 30 :: sampleTreap.root.entries.map Prod.snd).Nodup) ∧
      (sampleTreap.Upsert 1 7).Upsert 9 30 = (sampleTreap.Upsert 9 30).Upsert 1 7 :=
  ⟨⟨by simp [Treap.OrderInv, sampleTreap, node.Ordered, node.toList, intCompare],
      by simp [Treap.HeapInv, sampleTreap, node.Heap, node.prioLE],
      by simp [sampleTreap, intCompare],
      by simp [sampleTreap, node.toList, intCompare],
      by simp [sampleTreap, node.toList, intCompare],
      by simp [sampleTreap, node.entries]⟩,
    upsert_commute sampleTreap intCompare_totalOrder
      (by simp [Treap.OrderInv, sampleTreap, node.Ordered, node.toList, intCompare])
      (by simp [Treap.HeapInv, sampleTreap, node.Heap, node.prioLE]) 1 9 7 30
      (by simp [sampleTreap, intCompare])
      (by simp [sampleTreap, node.toList, intCompare])
      (by simp [sampleTreap, node.toList, intCompare])
      (by simp [sampleTreap, node.entries])⟩

end gtreap
